import Mathlib

/-!
# ICPC scoreboard engine (`src/main.cpp`)

A shallow embedding of the scoreboard state machine of `src/main.cpp` and a
verification development over it.

Conventions of the embedding.

* `int` fields are `Int`.  The one `int` computation that a single input line can
  take out of range, `penalty_time += ps.solve_time + 20 * ps.wrong_attempts`, wraps
  to 32 bits at every operation (`wrap_int`), as the compiled program does.  The
  counters `solved_count`, `ranking` and `wrong_attempts` only move in steps of one
  and stay in range on every input of fewer than `2^31` lines.
* A `std::map` is an association list read through `map_get` and written through
  `map_modify`.  `operator[]` inserts a value-initialised entry when the key is
  missing, so every `m[k]` of the source is a `map_touch`/`map_modify` here; the
  loops over a map treat each entry on its own, so the position of an entry in
  the list is immaterial.
* A problem letter is its character code: `'A'` is `65`.  The loops
  `for (char p = 'A'; p < 'A' + problem_count; p++)` visit `letters problem_count`;
  this is the behaviour of the source as long as `'A' + problem_count` stays in the
  range of `char` (at most 62 problems), which covers the 26 letters of a contest.
* A `Team*` is the key of the team in `teams`.
* `std::sort` is insertion sort with the same comparator; on the strict total
  orders it is used with, every sorting algorithm returns the same sequence.
* Output is the list of the lines written to `cout`.
* The `while (true)` loop of `scroll` takes a fuel argument: one unit per
  evaluation of the loop head.
-/

namespace ICPC

/-! ## `std::map` -/

/-- The value stored under `k` (`std::map::find`), if there is one. -/
def map_find {κ ν : Type} [DecidableEq κ] : List (κ × ν) → κ → Option ν
  | [], _ => none
  | (k', v) :: rest, k => if k' = k then some v else map_find rest k

/-- The value that `m[k]` refers to: the stored one, or a value-initialised one. -/
def map_get {κ ν : Type} [DecidableEq κ] [Inhabited ν] (m : List (κ × ν)) (k : κ) : ν :=
  (map_find m k).getD default

/-- Update through the reference `m[k]`: the entry is created value-initialised when
it is missing, then `f` is applied to it in place. -/
def map_modify {κ ν : Type} [DecidableEq κ] [Inhabited ν] :
    List (κ × ν) → κ → (ν → ν) → List (κ × ν)
  | [], k, f => [(k, f default)]
  | (k', v) :: rest, k, f =>
    if k' = k then (k', f v) :: rest else (k', v) :: map_modify rest k f

/-- A bare `m[k]`: only the insertion of a missing entry remains. -/
def map_touch {κ ν : Type} [DecidableEq κ] [Inhabited ν] (m : List (κ × ν)) (k : κ) :
    List (κ × ν) :=
  map_modify m k id

/-! ## Data model -/

/-- Type `struct ProblemStatus`. -/
structure ProblemStatus where
  solved : Bool := false
  wrong_attempts : Int := 0
  solve_time : Int := 0
  frozen_subs : List (String × Int) := []
  is_frozen : Bool := false
  was_solved_before_freeze : Bool := false
  deriving DecidableEq, Repr

instance : Inhabited ProblemStatus := ⟨{}⟩

/-- Type `struct Submission`. -/
structure Submission where
  team_name : String
  problem_name : String
  status : String
  time : Int
  deriving DecidableEq, Repr

/-- Type `struct Team`; `problems` is the `map<char, ProblemStatus>`. -/
structure Team where
  name : String := ""
  problems : List (Nat × ProblemStatus) := []
  all_submissions : List Submission := []
  solved_count : Int := 0
  penalty_time : Int := 0
  solve_times : List Int := []
  ranking : Int := 0
  deriving DecidableEq, Repr

instance : Inhabited Team := ⟨{}⟩

/-- The private state of `class ICPCSystem`; `teams` is the `map<string, Team>`. -/
structure ICPCSystem where
  teams : List (String × Team) := []
  team_names : List String := []
  competition_started : Bool := false
  is_frozen : Bool := false
  duration_time : Int := 0
  problem_count : Int := 0
  deriving DecidableEq, Repr

instance : Inhabited ICPCSystem := ⟨{}⟩

/-- The characters visited by `for (char p = 'A'; p < 'A' + problem_count; p++)`. -/
def letters (problem_count : Int) : List Nat :=
  (List.range problem_count.toNat).map (fun i => 65 + i)

/-- The character `problem_name[0]` (the terminating `'\0'` for an empty string). -/
def first_char (problem_name : String) : Nat :=
  match problem_name.data with
  | [] => 0
  | c :: _ => c.toNat

/-- Function `std::string::operator<`: lexicographic comparison of the characters. -/
def str_lt (a b : String) : Bool := decide (a.data < b.data)

/-! ## `Team::calculate_stats` and `Team::operator<` -/

/-- The call `sort(solve_times.rbegin(), solve_times.rend())`: the reversed sequence is sorted
ascending, which leaves the vector in descending order. -/
def sort_desc (l : List Int) : List Int :=
  (List.insertionSort (fun a b : Int => a < b) l.reverse).reverse

/-- The value that a 32-bit `int` holds after an arithmetic operation whose exact
result is `x`: the two's-complement representative of `x` modulo `2^32`. -/
def wrap_int (x : Int) : Int := (x + 2147483648) % 4294967296 - 2147483648

/-- One pass of the body of the loop of `calculate_stats`, for the letter `p`. -/
def Team.calculate_stats_step (t : Team) (p : Nat) : Team :=
  let t1 := { t with problems := map_touch t.problems p }
  let ps := map_get t1.problems p
  if ps.solved && !ps.is_frozen then
    { t1 with
      solved_count := t1.solved_count + 1
      penalty_time :=
        wrap_int (t1.penalty_time + wrap_int (ps.solve_time + wrap_int (20 * ps.wrong_attempts)))
      solve_times := t1.solve_times ++ [ps.solve_time] }
  else t1

/-- Method `Team::calculate_stats`. -/
def Team.calculate_stats (t : Team) (problem_count : Int) : Team :=
  let t0 := { t with solved_count := 0, penalty_time := 0, solve_times := [] }
  let t1 := (letters problem_count).foldl Team.calculate_stats_step t0
  { t1 with solve_times := sort_desc t1.solve_times }

/-- The loop of `operator<` over the first `min_size` positions of the two vectors:
`some r` when it returns `r`, `none` when it runs to its end. -/
def solve_times_loop : List Int → List Int → Option Bool
  | x :: xs, y :: ys => if x ≠ y then some (decide (x < y)) else solve_times_loop xs ys
  | _, _ => none

/-- Method `Team::operator<`. -/
def Team.lt (a b : Team) : Bool :=
  if a.solved_count ≠ b.solved_count then decide (a.solved_count > b.solved_count)
  else if a.penalty_time ≠ b.penalty_time then decide (a.penalty_time < b.penalty_time)
  else
    match solve_times_loop a.solve_times b.solve_times with
    | some r => r
    | none => str_lt a.name b.name

/-! ## Ranking -/

/-- Method `ICPCSystem::update_all_stats`. -/
def update_all_stats (s : ICPCSystem) : ICPCSystem :=
  { s with teams := s.teams.map (fun p => (p.1, p.2.calculate_stats s.problem_count)) }

/-- Method `ICPCSystem::get_sorted_teams`: the state after the `teams[name]` accesses,
and the sorted vector of pointers. -/
def get_sorted_teams (s : ICPCSystem) : ICPCSystem × List String :=
  let teams1 := s.team_names.foldl map_touch s.teams
  ({ s with teams := teams1 },
   List.insertionSort (fun a b => Team.lt (map_get teams1 a) (map_get teams1 b) = true)
     s.team_names)

/-- The loop `sorted_teams[i]->ranking = i + 1`, from index `i` on. -/
def assign_loop : List String → Nat → List (String × Team) → List (String × Team)
  | [], _, teams => teams
  | n :: rest, i, teams =>
    assign_loop rest (i + 1) (map_modify teams n (fun t => { t with ranking := (i : Int) + 1 }))

/-- Method `ICPCSystem::assign_rankings`. -/
def assign_rankings (s : ICPCSystem) : ICPCSystem :=
  let r := get_sorted_teams s
  { r.1 with teams := assign_loop r.2 0 r.1.teams }

/-! ## Board -/

/-- The token printed for one problem by `print_scoreboard`. -/
def cell (ps : ProblemStatus) : String :=
  if ps.is_frozen then
    if ps.wrong_attempts > 0 then
      "-" ++ toString ps.wrong_attempts ++ "/" ++ toString ps.frozen_subs.length
    else "0/" ++ toString ps.frozen_subs.length
  else if ps.solved then
    if ps.wrong_attempts > 0 then "+" ++ toString ps.wrong_attempts else "+"
  else
    if ps.wrong_attempts > 0 then "-" ++ toString ps.wrong_attempts else "."

/-- One row of the board: the team after the `problems[p]` accesses, and the line. -/
def print_row (t : Team) (problem_count : Int) : Team × String :=
  (letters problem_count).foldl
    (fun (acc : Team × String) p =>
      let probs := map_touch acc.1.problems p
      ({ acc.1 with problems := probs }, acc.2 ++ " " ++ cell (map_get probs p)))
    (t, t.name ++ " " ++ toString t.ranking ++ " " ++ toString t.solved_count ++ " "
          ++ toString t.penalty_time)

/-- The loop of `print_scoreboard` over the sorted teams. -/
def print_loop (problem_count : Int) :
    List String → List (String × Team) → List (String × Team) × List String
  | [], teams => (teams, [])
  | n :: rest, teams =>
    let line := (print_row (map_get teams n) problem_count).2
    let r := print_loop problem_count rest
      (map_modify teams n (fun t => (print_row t problem_count).1))
    (r.1, line :: r.2)

/-- Method `ICPCSystem::print_scoreboard`. -/
def print_scoreboard (s : ICPCSystem) : ICPCSystem × List String :=
  let r := get_sorted_teams s
  let q := print_loop s.problem_count r.2 r.1.teams
  ({ r.1 with teams := q.1 }, q.2)

/-! ## Commands -/

/-- Method `ICPCSystem::add_team`. -/
def add_team (s : ICPCSystem) (team_name : String) : ICPCSystem × List String :=
  if s.competition_started then (s, ["[Error]Add failed: competition has started."])
  else if (map_find s.teams team_name).isSome then
    (s, ["[Error]Add failed: duplicated team name."])
  else
    ({ s with
       teams := map_modify s.teams team_name (fun _ => { name := team_name })
       team_names := s.team_names ++ [team_name] },
     ["[Info]Add successfully."])

/-- The inner loop of `start_competition` on one team:
`problems[prob] = ProblemStatus()` for every active letter. -/
def start_team (problems : Int) (t : Team) : Team :=
  { t with
    problems := (letters problems).foldl (fun m c => map_modify m c (fun _ => {})) t.problems }

/-- Method `ICPCSystem::start_competition`. -/
def start_competition (s : ICPCSystem) (duration problems : Int) : ICPCSystem × List String :=
  if s.competition_started then (s, ["[Error]Start failed: competition has started."])
  else
    let teams1 := s.teams.map (fun p => (p.1, start_team problems p.2))
    let sorted := List.insertionSort (fun a b => str_lt a b = true) s.team_names
    ({ s with
       competition_started := true
       duration_time := duration
       problem_count := problems
       teams := assign_loop sorted 0 teams1 },
     ["[Info]Competition starts."])

/-- The effect of `submit` on the addressed `ProblemStatus`. -/
def submit_status (is_frozen : Bool) (status : String) (time : Int) (ps : ProblemStatus) :
    ProblemStatus :=
  if is_frozen then
    if !ps.solved && !ps.was_solved_before_freeze then
      { ps with frozen_subs := ps.frozen_subs ++ [(status, time)], is_frozen := true }
    else ps
  else
    if !ps.solved then
      if status = "Accepted" then { ps with solved := true, solve_time := time }
      else { ps with wrong_attempts := ps.wrong_attempts + 1 }
    else ps

/-- Method `ICPCSystem::submit`. -/
def submit (s : ICPCSystem) (problem_name team_name status : String) (time : Int) :
    ICPCSystem :=
  { s with teams := map_modify s.teams team_name (fun team =>
      { team with
        problems := map_modify team.problems (first_char problem_name)
          (submit_status s.is_frozen status time),
        all_submissions := team.all_submissions ++ [⟨team_name, problem_name, status, time⟩] }) }

/-- Method `ICPCSystem::flush`. -/
def flush (s : ICPCSystem) : ICPCSystem × List String :=
  (assign_rankings (update_all_stats s), ["[Info]Flush scoreboard."])

/-- The inner loop of `freeze` on one team: every active problem that is solved gets
`was_solved_before_freeze = true`. -/
def freeze_team (problem_count : Int) (t : Team) : Team :=
  { t with
    problems := (letters problem_count).foldl (fun m c =>
      let m1 := map_touch m c
      if (map_get m1 c).solved then
        map_modify m1 c (fun ps => { ps with was_solved_before_freeze := true })
      else m1) t.problems }

/-- Method `ICPCSystem::freeze`. -/
def freeze (s : ICPCSystem) : ICPCSystem × List String :=
  if s.is_frozen then (s, ["[Error]Freeze failed: scoreboard has been frozen."])
  else
    ({ s with
       teams := s.teams.map (fun p => (p.1, freeze_team s.problem_count p.2)),
       is_frozen := true },
     ["[Info]Freeze scoreboard."])

/-! ## `scroll` -/

/-- The inner scan of the selection loop of `scroll` (`has_frozen`, with its `break`):
the problem map after the accesses, and the flag. -/
def has_frozen_loop : List Nat → List (Nat × ProblemStatus) → List (Nat × ProblemStatus) × Bool
  | [], m => (m, false)
  | p :: rest, m =>
    let m1 := map_touch m p
    if (map_get m1 p).is_frozen then (m1, true) else has_frozen_loop rest m1

/-- The first half of the body of the selection loop of `scroll`, for `name`: the team
map after `Team& t = teams[name]` and the scan of its problems, and `has_frozen`. -/
def select_visit (problem_count : Int) (teams : List (String × Team)) (name : String) :
    List (String × Team) × Bool :=
  let teams1 := map_touch teams name
  let r := has_frozen_loop (letters problem_count) (map_get teams1 name).problems
  (map_modify teams1 name (fun t => { t with problems := r.1 }), r.2)

/-- The selection loop of `scroll` over `team_names`, carrying `lowest_rank` and
`target_team`. -/
def select_loop (problem_count : Int) :
    List String → List (String × Team) → Int → Option String →
      List (String × Team) × Option String
  | [], teams, _, target => (teams, target)
  | name :: rest, teams, lowest_rank, target =>
    let v := select_visit problem_count teams name
    if v.2 && decide ((map_get v.1 name).ranking > lowest_rank) then
      select_loop problem_count rest v.1 (map_get v.1 name).ranking (some name)
    else
      select_loop problem_count rest v.1 lowest_rank target

/-- The first part of one pass of the `while` loop of `scroll`: the state after the
scan and `target_team` (`none` for `nullptr`, on which the loop breaks). -/
def scroll_select (s : ICPCSystem) : ICPCSystem × Option String :=
  let r := select_loop s.problem_count s.team_names s.teams 0 none
  ({ s with teams := r.1 }, r.2)

/-- The search for `unfreeze_prob` (initially `0`), with its `break`. -/
def unfreeze_prob_loop : List Nat → List (Nat × ProblemStatus) → List (Nat × ProblemStatus) × Nat
  | [], m => (m, 0)
  | p :: rest, m =>
    let m1 := map_touch m p
    if (map_get m1 p).is_frozen then (m1, p) else unfreeze_prob_loop rest m1

/-- The loop `for (const auto& sub : ps.frozen_subs)` of `scroll`, run over `subs` from
the status `acc`. -/
def replay_loop (subs : List (String × Int)) (acc : ProblemStatus) : ProblemStatus :=
  subs.foldl
    (fun (acc : ProblemStatus) sub =>
      if !acc.solved then
        if sub.1 = "Accepted" then { acc with solved := true, solve_time := sub.2 }
        else { acc with wrong_attempts := acc.wrong_attempts + 1 }
      else acc) acc

/-- The replay of the queued submissions of the revealed problem, followed by
`ps.is_frozen = false; ps.frozen_subs.clear()`. -/
def replay (ps : ProblemStatus) : ProblemStatus :=
  { replay_loop ps.frozen_subs ps with is_frozen := false, frozen_subs := [] }

/-- The search for `replaced_name` (initially empty), with its `break`. -/
def replaced_loop (rank : Int) :
    List String → List (String × Team) → List (String × Team) × String
  | [], teams => (teams, "")
  | n :: rest, teams =>
    let teams1 := map_touch teams n
    if (map_get teams1 n).ranking = rank + 1 then (teams1, n) else replaced_loop rank rest teams1

/-- The target team of `scroll` after the replay on its smallest frozen problem. -/
def replay_target (problem_count : Int) (t : Team) : Team :=
  let r := unfreeze_prob_loop (letters problem_count) t.problems
  { t with problems := map_modify r.1 r.2 replay }

/-- The target team of `scroll` after the replay and `calculate_stats`. -/
def reveal_team (problem_count : Int) (t : Team) : Team :=
  (replay_target problem_count t).calculate_stats problem_count

/-- The state of `scroll` after the replay on the target team and its
`calculate_stats`, before the ranks are assigned again. -/
def reveal_target (s : ICPCSystem) (target : String) : ICPCSystem :=
  { s with teams := map_modify s.teams target (reveal_team s.problem_count) }

/-- The second part of one pass of the `while` loop of `scroll`, for a non-null
`target_team`: the new state, the lines written, and the revealed letter. -/
def scroll_reveal (s : ICPCSystem) (target : String) : ICPCSystem × List String × Nat :=
  let t0 := map_get s.teams target
  let unfreeze_prob := (unfreeze_prob_loop (letters s.problem_count) t0.problems).2
  let old_rank := t0.ranking
  let s1 := assign_rankings (reveal_target s target)
  let t1 := map_get s1.teams target
  if t1.ranking < old_rank then
    let r := replaced_loop t1.ranking s1.team_names s1.teams
    ({ s1 with teams := r.1 },
     [t1.name ++ " " ++ r.2 ++ " " ++ toString t1.solved_count ++ " " ++ toString t1.penalty_time],
     unfreeze_prob)
  else (s1, [], unfreeze_prob)

/-- What a run of the `while` loop of `scroll` leaves: the state, the lines written,
and (for reasoning only) the reveals it made, in order. -/
structure ScrollRun where
  state : ICPCSystem
  out : List String
  reveals : List (String × Nat)
  deriving DecidableEq, Repr

/-- The `while (true)` loop of `scroll`; `none` when the fuel runs out. -/
def scroll_loop : Nat → ICPCSystem → Option ScrollRun
  | 0, _ => none
  | fuel + 1, s =>
    match scroll_select s with
    | (s1, none) => some ⟨s1, [], []⟩
    | (s1, some target) =>
      let r := scroll_reveal s1 target
      match scroll_loop fuel r.1 with
      | none => none
      | some run => some ⟨run.state, r.2.1 ++ run.out, (target, r.2.2) :: run.reveals⟩

/-- The state in which `scroll` enters its `while` loop, and the board printed
before it. -/
def scroll_init (s : ICPCSystem) : ICPCSystem × List String :=
  print_scoreboard (assign_rankings (update_all_stats s))

/-- Method `ICPCSystem::scroll`; `none` when the fuel runs out. -/
def scroll (fuel : Nat) (s : ICPCSystem) : Option (ICPCSystem × List String) :=
  if !s.is_frozen then some (s, ["[Error]Scroll failed: scoreboard has not been frozen."])
  else
    let i := scroll_init s
    match scroll_loop fuel i.1 with
    | none => none
    | some run =>
      let p := print_scoreboard run.state
      some ({ p.1 with is_frozen := false },
            ["[Info]Scroll scoreboard."] ++ i.2 ++ run.out ++ p.2)

/-! ## Queries -/

/-- Method `ICPCSystem::query_ranking`. -/
def query_ranking (s : ICPCSystem) (team_name : String) : List String :=
  if (map_find s.teams team_name).isNone then
    ["[Error]Query ranking failed: cannot find the team."]
  else
    ["[Info]Complete query ranking."]
    ++ (if s.is_frozen then
          ["[Warning]Scoreboard is frozen. The ranking may be inaccurate until it were scrolled."]
        else [])
    ++ [team_name ++ " NOW AT RANKING " ++ toString (map_get s.teams team_name).ranking]

/-- The backward scan of `query_submission` over the history, given most recent first. -/
def query_loop (problem_filter status_filter : String) : List Submission → Option Submission
  | [] => none
  | sub :: rest =>
    if (problem_filter = "ALL" || sub.problem_name = problem_filter)
        && (status_filter = "ALL" || sub.status = status_filter) then some sub
    else query_loop problem_filter status_filter rest

/-- Method `ICPCSystem::query_submission`. -/
def query_submission (s : ICPCSystem) (team_name problem_filter status_filter : String) :
    List String :=
  if (map_find s.teams team_name).isNone then
    ["[Error]Query submission failed: cannot find the team."]
  else
    ["[Info]Complete query submission."]
    ++ (match query_loop problem_filter status_filter
              (map_get s.teams team_name).all_submissions.reverse with
        | none => ["Cannot find any submission."]
        | some r =>
          [r.team_name ++ " " ++ r.problem_name ++ " " ++ r.status ++ " " ++ toString r.time])

/-! ## Observers used in the statements -/

/-- A problem scores: `ps.solved && !ps.is_frozen`, read from the problem map. -/
def scores (m : List (Nat × ProblemStatus)) (p : Nat) : Bool :=
  (map_get m p).solved && !(map_get m p).is_frozen

/-- The letters among the first `problem_count` whose problem scores for the team. -/
def scoring (t : Team) (problem_count : Int) : List Nat :=
  (letters problem_count).filter (scores t.problems)

/-- The penalty contribution of problem `p`: `solve_time + 20 * wrong_attempts`. -/
def penalty_of (m : List (Nat × ProblemStatus)) (p : Nat) : Int :=
  (map_get m p).solve_time + 20 * (map_get m p).wrong_attempts

/-- The team registered under `n`. -/
def ICPCSystem.team (s : ICPCSystem) (n : String) : Team := map_get s.teams n

/-- The status of problem `p` of the team registered under `n`. -/
def ICPCSystem.status (s : ICPCSystem) (n : String) (p : Nat) : ProblemStatus :=
  map_get (s.team n).problems p

/-- The ranking order in the words of the specification: the first key that differs,
in the order solved count (higher first), penalty time (lower first), solve times
position by position up to the shorter length (lower first), name (ascending),
favours `a`. -/
def ranks_before (a b : Team) : Prop :=
  a.solved_count > b.solved_count ∨
  (a.solved_count = b.solved_count ∧
    (a.penalty_time < b.penalty_time ∨
     (a.penalty_time = b.penalty_time ∧
       ((∃ i, i < min a.solve_times.length b.solve_times.length ∧
            (∀ j, j < i → a.solve_times.getD j 0 = b.solve_times.getD j 0) ∧
            a.solve_times.getD i 0 < b.solve_times.getD i 0) ∨
        ((∀ j, j < min a.solve_times.length b.solve_times.length →
            a.solve_times.getD j 0 = b.solve_times.getD j 0) ∧
          a.name < b.name)))))

/-- A team with one scoring problem, one solved but frozen problem and one open
problem, used to instantiate the statements. -/
def demo_team : Team :=
  { name := "T"
    problems := [(65, { solved := true, wrong_attempts := 1, solve_time := 10 }),
                 (66, { solved := true, solve_time := 7, is_frozen := true }),
                 (67, { wrong_attempts := 2 })] }

/-- The state after `ADDTEAM A`, `ADDTEAM B`, `START DURATION 180 PROBLEM 2`,
`SUBMIT A BY A WITH Accepted AT 10`, `SUBMIT A BY B WITH Rejected AT 5`,
`SUBMIT A BY B WITH Accepted AT 15`, `FLUSH`. -/
def demo_running : ICPCSystem :=
  (flush (submit (submit (submit
    (start_competition (add_team (add_team {} "A").1 "B").1 180 2).1
    "A" "A" "Accepted" 10) "A" "B" "Rejected" 5) "A" "B" "Accepted" 15)).1

/-- The state `demo_running` after `FREEZE` and `SUBMIT B BY B WITH Accepted AT 20`. -/
def demo_frozen : ICPCSystem :=
  submit (freeze demo_running).1 "B" "B" "Accepted" 20

/-- The state after a bare `ADDTEAM` line (which registers the empty name),
`ADDTEAM Z`, `START DURATION 180 PROBLEM 1`, `FREEZE`,
`SUBMIT A BY Z WITH Accepted AT 5`. -/
def empty_name_demo : ICPCSystem :=
  submit (freeze (start_competition (add_team (add_team {} "").1 "Z").1 180 1).1).1
    "A" "Z" "Accepted" 5

/-- The state after `ADDTEAM T`, `START DURATION 180 PROBLEM 1`,
`SUBMIT A BY T WITH Wrong_Answer AT 1`, `SUBMIT A BY T WITH Accepted AT 2147483647`,
`FLUSH`. -/
def overflow_demo : ICPCSystem :=
  (flush (submit (submit (start_competition (add_team {} "T").1 180 1).1
    "A" "T" "Wrong_Answer" 1) "A" "T" "Accepted" 2147483647)).1

/-- Two teams agree on all that the program reads of them: every field, and the
problem map as read through `operator[]`. -/
def Team.sim (a b : Team) : Prop :=
  a.name = b.name ∧ a.all_submissions = b.all_submissions ∧ a.solved_count = b.solved_count ∧
  a.penalty_time = b.penalty_time ∧ a.solve_times = b.solve_times ∧ a.ranking = b.ranking ∧
  ∀ p, map_get a.problems p = map_get b.problems p

/-- The vector returned by `get_sorted_teams`. -/
def sorted_names (s : ICPCSystem) : List String := (get_sorted_teams s).2

/-- The registration invariant of the engine: `team_names` lists each name once, and
the team stored under a registered name carries that name (`add_team` is the only
writer of both). -/
def Registered (s : ICPCSystem) : Prop :=
  s.team_names.Nodup ∧ ∀ n ∈ s.team_names, (s.team n).name = n

/-- Two engine states agree on all that the program reads of them. -/
def ICPCSystem.sim (a b : ICPCSystem) : Prop :=
  a.team_names = b.team_names ∧ a.competition_started = b.competition_started ∧
  a.is_frozen = b.is_frozen ∧ a.duration_time = b.duration_time ∧
  a.problem_count = b.problem_count ∧ ∀ n, Team.sim (a.team n) (b.team n)

/-- The team registered under `n` has a frozen problem among the active letters. -/
def has_hidden (s : ICPCSystem) (n : String) : Bool :=
  (letters s.problem_count).any (fun p => (s.status n p).is_frozen)

/-- The selection of `scroll` as a function of what it reads: the rank and the
`has_frozen` flag of each team. -/
def select_pure (rank : String → Int) (hid : String → Bool) :
    List String → Int → Option String → Option String
  | [], _, target => target
  | n :: rest, lowest_rank, target =>
    if hid n && decide (rank n > lowest_rank) then select_pure rank hid rest (rank n) (some n)
    else select_pure rank hid rest lowest_rank target

/-- The letter that `scroll` reveals for the team registered under `n`: its first
frozen letter (`0` when it has none). -/
def unfreeze_prob (s : ICPCSystem) (n : String) : Nat :=
  (unfreeze_prob_loop (letters s.problem_count) (s.team n).problems).2

/-- The states in which the `while` loop of a `scroll` started in `s0` evaluates its
head: the state after the first board, and the state after each pass that found a
target. -/
inductive ScrollHead (s0 : ICPCSystem) : ICPCSystem → Prop
  | init : ScrollHead s0 (scroll_init s0).1
  | step {s : ICPCSystem} {target : String} :
      ScrollHead s0 s → (scroll_select s).2 = some target →
      ScrollHead s0 (scroll_reveal (scroll_select s).1 target).1

/-- The ranks of the registered teams lie in `1..n` and are pairwise distinct; when no
name is listed twice every number of `1..n` is the rank of a team. -/
def RankInv (s : ICPCSystem) : Prop :=
  (∀ n ∈ s.team_names, 1 ≤ (s.team n).ranking ∧ (s.team n).ranking ≤ s.team_names.length) ∧
  (∀ a ∈ s.team_names, ∀ b ∈ s.team_names, (s.team a).ranking = (s.team b).ranking → a = b) ∧
  (s.team_names.Nodup →
    ∀ k : Nat, k < s.team_names.length → ∃ n ∈ s.team_names, (s.team n).ranking = (k : Int) + 1)

/-- The pairs (registered team, active problem letter) whose problem is frozen. -/
def hidden_pairs (s : ICPCSystem) : List (String × Nat) :=
  (s.team_names.dedup.product (letters s.problem_count)).filter
    (fun np => (s.status np.1 np.2).is_frozen)

/-- The states the engine can be in: the initial state and what the command
handlers make of a state the engine can be in (the queries leave the state as it is). -/
inductive Reachable : ICPCSystem → Prop
  | init : Reachable {}
  | add_team {s : ICPCSystem} (team_name : String) : Reachable s → Reachable (add_team s team_name).1
  | start_competition {s : ICPCSystem} (duration problems : Int) :
      Reachable s → Reachable (start_competition s duration problems).1
  | submit {s : ICPCSystem} (problem_name team_name status : String) (time : Int) :
      Reachable s → Reachable (submit s problem_name team_name status time)
  | flush {s : ICPCSystem} : Reachable s → Reachable (flush s).1
  | freeze {s : ICPCSystem} : Reachable s → Reachable (freeze s).1
  | scroll {s s' : ICPCSystem} {out : List String} (fuel : Nat) :
      Reachable s → scroll fuel s = some (s', out) → Reachable s'

/-- The key `k` is present in the map. -/
def has_key {κ ν : Type} [DecidableEq κ] (m : List (κ × ν)) (k : κ) : Prop :=
  (map_find m k).isSome = true

/-- Every registered name is a key of `teams`. -/
def NamesPresent (s : ICPCSystem) : Prop := ∀ n ∈ s.team_names, has_key s.teams n

/-! ## The command loop of `main` -/

/-- The commands read by `main`, after tokenising. -/
inductive Command
  | ADDTEAM (team_name : String)
  | START (duration problems : Int)
  | SUBMIT (problem_name team_name status : String) (time : Int)
  | FLUSH
  | FREEZE
  | SCROLL
  | QUERY_RANKING (team_name : String)
  | QUERY_SUBMISSION (team_name problem_filter status_filter : String)
  | END
  deriving DecidableEq, Repr

/-- The dispatch of one command in `main`: the new state and the lines written;
`none` when the fuel of a `SCROLL` runs out. -/
def exec (fuel : Nat) (s : ICPCSystem) : Command → Option (ICPCSystem × List String)
  | .ADDTEAM team_name => some (add_team s team_name)
  | .START duration problems => some (start_competition s duration problems)
  | .SUBMIT problem_name team_name status time =>
    some (submit s problem_name team_name status time, [])
  | .FLUSH => some (flush s)
  | .FREEZE => some (freeze s)
  | .SCROLL => scroll fuel s
  | .QUERY_RANKING team_name => some (s, query_ranking s team_name)
  | .QUERY_SUBMISSION team_name problem_filter status_filter =>
    some (s, query_submission s team_name problem_filter status_filter)
  | .END => some (s, ["[Info]Competition ends."])

/-- The loop of `main` over the commands; it stops at `END`. -/
def run (fuel : Nat) : ICPCSystem → List Command → Option (ICPCSystem × List String)
  | s, [] => some (s, [])
  | s, c :: rest =>
    match exec fuel s c with
    | none => none
    | some r =>
      if c = Command.END then some r
      else
        match run fuel r.1 rest with
        | none => none
        | some r2 => some (r2.1, r.2 ++ r2.2)

/-- The first part of the end-to-end scenario of the specification. -/
def scenario_first : List Command :=
  [.ADDTEAM "A", .ADDTEAM "B", .START 180 2, .SUBMIT "A" "A" "Accepted" 10, .FLUSH]

/-- The scenario up to the second `FLUSH`. -/
def scenario_second : List Command :=
  scenario_first ++ [.SUBMIT "A" "B" "Rejected" 5, .SUBMIT "A" "B" "Accepted" 15, .FLUSH]

/-- The scenario up to the submission made after `FREEZE`. -/
def scenario_frozen : List Command :=
  scenario_second ++ [.FREEZE, .SUBMIT "B" "B" "Accepted" 20]

/-- What the scenario checks of a state: for the teams `A` and `B`, the rank, the
solved count, the penalty time and the tokens of the two problems. -/
def scenario_view (s : ICPCSystem) : List (Int × Int × Int × String × String) :=
  ["A", "B"].map (fun n =>
    ((s.team n).ranking, (s.team n).solved_count, (s.team n).penalty_time,
      cell (s.status n 65), cell (s.status n 66)))

/-- The submissions of the team `n` in a command sequence, in order, as the records
that `submit` stores; commands after `END` are not read. -/
def submits_of (n : String) : List Command → List Submission
  | [] => []
  | .END :: _ => []
  | .SUBMIT problem_name team_name status time :: rest =>
    if team_name = n then ⟨team_name, problem_name, status, time⟩ :: submits_of n rest
    else submits_of n rest
  | _ :: rest => submits_of n rest

/-- A history record passes the two filters of `QUERY_SUBMISSION`. -/
def matches_filters (problem_filter status_filter : String) (sub : Submission) : Bool :=
  (problem_filter = "ALL" || sub.problem_name = problem_filter)
    && (status_filter = "ALL" || sub.status = status_filter)

/-- The derived fields of the team are those that `calculate_stats` computes from its
problem statuses. -/
def Team.fresh (problem_count : Int) (t : Team) : Prop :=
  t.solved_count = (t.calculate_stats problem_count).solved_count ∧
  t.penalty_time = (t.calculate_stats problem_count).penalty_time ∧
  t.solve_times = (t.calculate_stats problem_count).solve_times

/-- Every team of the state carries derived fields that agree with its statuses. -/
def FreshObs (s : ICPCSystem) : Prop := ∀ n, Team.fresh s.problem_count (s.team n)

/-- The state that `scroll` would reach after the replay on the target team if it
called `update_all_stats()` there instead of `target_team->calculate_stats`. -/
def reveal_all (s : ICPCSystem) (target : String) : ICPCSystem :=
  update_all_stats
    { s with teams := map_modify s.teams target (replay_target s.problem_count) }

/-- Every entry of the team map is left as it is by `calculate_stats`. -/
def AllFresh (problem_count : Int) (m : List (String × Team)) : Prop :=
  ∀ e ∈ m, e.2.calculate_stats problem_count = e.2

/-- Each rank of a registered team is one more than the number of registered names
with a smaller rank. -/
def CountInv (s : ICPCSystem) : Prop :=
  ∀ b ∈ s.team_names, (s.team b).ranking
    = (s.team_names.countP (fun c => decide ((s.team c).ranking < (s.team b).ranking)) : Int) + 1

/-- Of two registered teams the one with the smaller rank is the one that
`operator<` puts first. -/
def OrderInv (s : ICPCSystem) : Prop :=
  ∀ a ∈ s.team_names, ∀ b ∈ s.team_names,
    ((s.team a).ranking < (s.team b).ranking ↔ Team.lt (s.team a) (s.team b) = true)

/-- The state after `ADDTEAM P`, `ADDTEAM Q`, `START DURATION 180 PROBLEM 2`, `FREEZE`,
`SUBMIT A BY Q WITH Accepted AT 20`, `SUBMIT B BY Q WITH Accepted AT 30`,
`SUBMIT A BY P WITH Wrong_Answer AT 25`. -/
def order_demo : ICPCSystem :=
  submit (submit (submit
    (freeze (start_competition (add_team (add_team {} "P").1 "Q").1 180 2).1).1
    "A" "Q" "Accepted" 20) "B" "Q" "Accepted" 30) "A" "P" "Wrong_Answer" 25

/-- The loop-head states of a `scroll` started in `s0` that are reached before any
pass has revealed a problem of the team `X`. -/
inductive ScrollHeadBefore (s0 : ICPCSystem) (X : String) : ICPCSystem → Prop
  | init : ScrollHeadBefore s0 X (scroll_init s0).1
  | step {s : ICPCSystem} {target : String} :
      ScrollHeadBefore s0 X s → (scroll_select s).2 = some target → target ≠ X →
      ScrollHeadBefore s0 X (scroll_reveal (scroll_select s).1 target).1

/-- The sequences of registrations, `START`s with at most 26 problems, `FLUSH`es and
submissions by a team registered in the state at hand on one of its active problem
letters: `true` when `cmds`, read from the state `s`, is one. -/
def admissible : ICPCSystem → List Command → Bool
  | _, [] => true
  | s, .ADDTEAM team_name :: rest => admissible (add_team s team_name).1 rest
  | s, .START duration problems :: rest =>
    decide (problems ≤ 26) && admissible (start_competition s duration problems).1 rest
  | s, .SUBMIT problem_name team_name status time :: rest =>
    decide (team_name ∈ s.team_names)
      && decide (first_char problem_name ∈ letters s.problem_count)
      && admissible (submit s problem_name team_name status time) rest
  | s, .FLUSH :: rest => admissible (flush s).1 rest
  | _, _ :: _ => false

/-- The state after the commands `cmds`, none of which is `SCROLL` (a `SCROLL` that
runs out of fuel stops the reading). -/
def apply_cmds : ICPCSystem → List Command → ICPCSystem
  | s, [] => s
  | s, c :: rest =>
    match exec 0 s c with
    | some r => apply_cmds r.1 rest
    | none => s

/-- Two statuses agree on what is scored: `solved`, `wrong_attempts`, `solve_time`. -/
def same_result (x y : ProblemStatus) : Prop :=
  x.solved = y.solved ∧ x.wrong_attempts = y.wrong_attempts ∧ x.solve_time = y.solve_time

/-- The status `a` of a problem on a frozen board against the status `b` that the
same submissions give without the freeze: `b` is what the replay of the queue of `a`
gives, `b` is not hidden, an `a` that is not hidden has an empty queue, and
`was_solved_before_freeze` is only set on solved problems. -/
def StatusSim (a b : ProblemStatus) : Prop :=
  same_result b (replay_loop a.frozen_subs a) ∧ b.is_frozen = false ∧
  (a.is_frozen = false → a.frozen_subs = []) ∧
  (a.was_solved_before_freeze = true → a.solved = true)

/-- The state `f` of a run with the board frozen against the state `u` of the same
run without the `FREEZE`. -/
structure FreezeSim (f u : ICPCSystem) : Prop where
  names : f.team_names = u.team_names
  count : f.problem_count = u.problem_count
  started : f.competition_started = u.competition_started
  frozen : f.is_frozen = true
  unfrozen : u.is_frozen = false
  keys : ∀ k, has_key f.teams k ↔ has_key u.teams k
  idle : f.competition_started = false → letters f.problem_count = []
  status : ∀ n p, StatusSim (f.status n p) (u.status n p)
  hidden : ∀ n p, (f.status n p).is_frozen = true →
    n ∈ f.team_names ∧ p ∈ letters f.problem_count

/-- What holds of a state that no `FREEZE` has touched: the board is not frozen, no
problem is hidden, no queue is filled, no `was_solved_before_freeze` is set, and
before the start there is no active letter. -/
structure PreInv (s : ICPCSystem) : Prop where
  unfrozen : s.is_frozen = false
  idle : s.competition_started = false → letters s.problem_count = []
  status : ∀ n p, (s.status n p).is_frozen = false ∧ (s.status n p).frozen_subs = [] ∧
    (s.status n p).was_solved_before_freeze = false

/-! ## Lemmas on maps -/

section MapLemmas

variable {κ ν : Type} [DecidableEq κ] [Inhabited ν]

theorem map_find_modify_self (m : List (κ × ν)) (k : κ) (f : ν → ν) :
    map_find (map_modify m k f) k = some (f (map_get m k)) := by
  induction m with
  | nil => simp [map_modify, map_find, map_get]
  | cons hd tl ih =>
    obtain ⟨k', v⟩ := hd
    by_cases h : k' = k
    · simp [map_modify, map_find, map_get, h]
    · simp only [map_modify, h, if_false, map_find, map_get] at ih ⊢
      exact ih

theorem map_find_modify_ne (m : List (κ × ν)) (k k' : κ) (f : ν → ν) (h : k' ≠ k) :
    map_find (map_modify m k f) k' = map_find m k' := by
  induction m with
  | nil => simp [map_modify, map_find, Ne.symm h]
  | cons hd tl ih =>
    obtain ⟨k'', v⟩ := hd
    by_cases h1 : k'' = k
    · subst h1
      simp [map_modify, map_find, Ne.symm h]
    · by_cases h2 : k'' = k'
      · subst h2
        simp [map_modify, map_find, h1]
      · simp [map_modify, map_find, h1, h2, ih]

theorem map_get_modify_self (m : List (κ × ν)) (k : κ) (f : ν → ν) :
    map_get (map_modify m k f) k = f (map_get m k) := by
  unfold map_get
  rw [map_find_modify_self]
  rfl

theorem map_get_modify_ne (m : List (κ × ν)) (k k' : κ) (f : ν → ν) (h : k' ≠ k) :
    map_get (map_modify m k f) k' = map_get m k' := by
  unfold map_get
  rw [map_find_modify_ne m k k' f h]

theorem map_get_modify (m : List (κ × ν)) (k k' : κ) (f : ν → ν) :
    map_get (map_modify m k f) k' = if k' = k then f (map_get m k) else map_get m k' := by
  by_cases h : k' = k
  · subst h
    simp [map_get_modify_self]
  · simp [h, map_get_modify_ne m k k' f h]

theorem map_get_touch (m : List (κ × ν)) (k k' : κ) :
    map_get (map_touch m k) k' = map_get m k' := by
  unfold map_touch
  rw [map_get_modify]
  split
  · next h => subst h; rfl
  · rfl

theorem map_get_foldl_touch (ks : List κ) (m : List (κ × ν)) (k' : κ) :
    map_get (ks.foldl map_touch m) k' = map_get m k' := by
  induction ks generalizing m with
  | nil => rfl
  | cons k ks ih => simp only [List.foldl_cons, ih, map_get_touch]

end MapLemmas

/-! ## Lemmas on sorting -/

theorem pairwise_orderedInsert {α : Type} (r S : α → α → Prop) [DecidableRel r] (a : α)
    (l : List α) (h1 : ∀ b ∈ l, r a b → S a b) (h2 : ∀ b ∈ l, ¬ r a b → S b a)
    (htr : ∀ b ∈ l, ∀ c ∈ l, S a b → S b c → S a c) (hl : l.Pairwise S) :
    (l.orderedInsert r a).Pairwise S := by
  induction l with
  | nil => simp
  | cons b l ih =>
    rw [List.pairwise_cons] at hl
    by_cases hab : r a b
    · simp only [List.orderedInsert, hab, if_true]
      have hSab : S a b := h1 b (List.mem_cons_self _ _) hab
      refine List.pairwise_cons.2 ⟨?_, List.pairwise_cons.2 hl⟩
      intro c hc
      rcases List.mem_cons.1 hc with rfl | hc
      · exact hSab
      · exact htr b (List.mem_cons_self _ _) c (List.mem_cons_of_mem _ hc) hSab (hl.1 c hc)
    · simp only [List.orderedInsert, hab, if_false]
      refine List.pairwise_cons.2 ⟨?_, ?_⟩
      · intro c hc
        rcases (List.mem_orderedInsert r).1 hc with rfl | hc
        · exact h2 b (List.mem_cons_self _ _) hab
        · exact hl.1 c hc
      · exact ih (fun c hc => h1 c (List.mem_cons_of_mem _ hc))
          (fun c hc => h2 c (List.mem_cons_of_mem _ hc))
          (fun c hc d hd => htr c (List.mem_cons_of_mem _ hc) d (List.mem_cons_of_mem _ hd)) hl.2

theorem pairwise_insertionSort {α : Type} (r S : α → α → Prop) [DecidableRel r] (l : List α)
    (h1 : ∀ a ∈ l, ∀ b ∈ l, r a b → S a b) (h2 : ∀ a ∈ l, ∀ b ∈ l, ¬ r a b → S b a)
    (htr : ∀ a ∈ l, ∀ b ∈ l, ∀ c ∈ l, S a b → S b c → S a c) :
    (l.insertionSort r).Pairwise S := by
  induction l with
  | nil => simp
  | cons a l ih =>
    have hm : ∀ {x}, x ∈ l.insertionSort r → x ∈ a :: l := fun hx =>
      List.mem_cons_of_mem _ ((List.mem_insertionSort r).1 hx)
    have ha : a ∈ a :: l := List.mem_cons_self _ _
    simp only [List.insertionSort]
    refine pairwise_orderedInsert r S a _ (fun b hb => h1 a ha b (hm hb))
      (fun b hb => h2 a ha b (hm hb)) (fun b hb c hc => htr a ha b (hm hb) c (hm hc)) ?_
    exact ih (fun x hx y hy => h1 x (List.mem_cons_of_mem _ hx) y (List.mem_cons_of_mem _ hy))
      (fun x hx y hy => h2 x (List.mem_cons_of_mem _ hx) y (List.mem_cons_of_mem _ hy))
      (fun x hx y hy z hz => htr x (List.mem_cons_of_mem _ hx) y (List.mem_cons_of_mem _ hy)
        z (List.mem_cons_of_mem _ hz))

theorem sort_desc_perm (l : List Int) : (sort_desc l).Perm l := by
  unfold sort_desc
  exact (List.reverse_perm _).trans ((List.perm_insertionSort _ _).trans (List.reverse_perm _))

theorem sort_desc_sorted (l : List Int) : (sort_desc l).Pairwise (fun a b => a ≥ b) := by
  unfold sort_desc
  rw [List.pairwise_reverse]
  exact pairwise_insertionSort (fun a b : Int => a < b) (fun a b => a ≤ b) _
    (fun a _ b _ h => le_of_lt h) (fun a _ b _ h => not_lt.1 h)
    (fun a _ b _ c _ h h' => le_trans h h')

theorem sort_desc_length (l : List Int) : (sort_desc l).length = l.length :=
  (sort_desc_perm l).length_eq

/-! ## `calculate_stats` -/

theorem scores_touch (m : List (Nat × ProblemStatus)) (k : Nat) :
    scores (map_touch m k) = scores m := by
  funext p
  simp [scores, map_get_touch]

theorem penalty_of_touch (m : List (Nat × ProblemStatus)) (k : Nat) :
    penalty_of (map_touch m k) = penalty_of m := by
  funext p
  simp [penalty_of, map_get_touch]

theorem calculate_stats_step_problems (t : Team) (p : Nat) :
    (Team.calculate_stats_step t p).problems = map_touch t.problems p := by
  simp only [Team.calculate_stats_step]
  split <;> rfl

theorem wrap_int_add_right (a b : Int) : wrap_int (a + wrap_int b) = wrap_int (a + b) := by
  unfold wrap_int
  omega

theorem wrap_int_add_left (a b : Int) : wrap_int (wrap_int a + b) = wrap_int (a + b) := by
  unfold wrap_int
  omega

theorem wrap_int_idem (a : Int) : wrap_int (wrap_int a) = wrap_int a := by
  unfold wrap_int
  omega

theorem wrap_int_of_range (a : Int) (h1 : -2147483648 ≤ a) (h2 : a < 2147483648) :
    wrap_int a = a := by
  unfold wrap_int
  omega

theorem wrap_int_range (a : Int) : -2147483648 ≤ wrap_int a ∧ wrap_int a < 2147483648 := by
  unfold wrap_int
  omega

theorem calculate_stats_step_eq (t : Team) (p : Nat) :
    Team.calculate_stats_step t p =
      if scores t.problems p = true then
        { t with
          problems := map_touch t.problems p
          solved_count := t.solved_count + 1
          penalty_time := wrap_int (t.penalty_time + penalty_of t.problems p)
          solve_times := t.solve_times ++ [(map_get t.problems p).solve_time] }
      else { t with problems := map_touch t.problems p } := by
  simp only [Team.calculate_stats_step, scores, penalty_of, map_get_touch, wrap_int_add_right]

theorem calculate_stats_fold (ls : List Nat) (t : Team) :
    (ls.foldl Team.calculate_stats_step t) =
      { t with
        problems := ls.foldl map_touch t.problems
        solved_count := t.solved_count + ((ls.filter (scores t.problems)).length : Int)
        penalty_time := (ls.filter (scores t.problems)).foldl
          (fun acc p => wrap_int (acc + penalty_of t.problems p)) t.penalty_time
        solve_times := t.solve_times
          ++ (ls.filter (scores t.problems)).map (fun p => (map_get t.problems p).solve_time) } := by
  induction ls generalizing t with
  | nil => simp
  | cons p ls ih =>
    rw [List.foldl_cons, ih, calculate_stats_step_problems, scores_touch, penalty_of_touch]
    simp only [map_get_touch]
    rw [calculate_stats_step_eq]
    by_cases hsc : scores t.problems p = true
    · simp only [hsc, if_true, List.filter_cons, List.length_cons, List.map_cons,
        List.foldl_cons, Nat.cast_add, Nat.cast_one, List.append_assoc, List.singleton_append]
      congr 1
      ring
    · simp only [hsc, if_false, List.filter_cons, List.foldl_cons]
      simp

theorem foldl_wrap_int (f : Nat → Int) (l : List Nat) (a : Int) (ha : wrap_int a = a) :
    l.foldl (fun acc p => wrap_int (acc + f p)) a = wrap_int (a + (l.map f).sum) := by
  induction l generalizing a with
  | nil => simp [ha]
  | cons p l ih =>
    rw [List.foldl_cons, ih _ (wrap_int_idem _), wrap_int_add_left, List.map_cons, List.sum_cons,
      add_assoc]

theorem calculate_stats_eq (t : Team) (pc : Int) :
    t.calculate_stats pc =
      { t with
        problems := (letters pc).foldl map_touch t.problems
        solved_count := ((scoring t pc).length : Int)
        penalty_time := wrap_int ((scoring t pc).map (penalty_of t.problems)).sum
        solve_times := sort_desc ((scoring t pc).map (fun p => (map_get t.problems p).solve_time)) } := by
  simp only [Team.calculate_stats, calculate_stats_fold, scoring]
  rw [foldl_wrap_int (penalty_of t.problems) _ 0 (by decide)]
  simp

theorem calculate_stats_get (t : Team) (pc : Int) (p : Nat) :
    map_get (t.calculate_stats pc).problems p = map_get t.problems p := by
  rw [calculate_stats_eq]
  exact map_get_foldl_touch _ _ _

theorem calculate_stats_length (t : Team) (pc : Int) :
    ((t.calculate_stats pc).solve_times.length : Int) = (t.calculate_stats pc).solved_count := by
  rw [calculate_stats_eq]
  simp [sort_desc_length]

theorem letters_nodup (pc : Int) : (letters pc).Nodup := by
  unfold letters
  exact (List.nodup_range _).map (fun a b h => by simpa using h)

/-! ### the loop of `operator<` -/

theorem solve_times_loop_self (xs : List Int) : solve_times_loop xs xs = none := by
  induction xs with
  | nil => rfl
  | cons x xs ih => simp [solve_times_loop, ih]

theorem solve_times_loop_none_eq (xs ys : List Int) (hl : xs.length = ys.length)
    (h : solve_times_loop xs ys = none) : xs = ys := by
  induction xs generalizing ys with
  | nil => cases ys with
    | nil => rfl
    | cons y ys => simp at hl
  | cons x xs ih => cases ys with
    | nil => simp at hl
    | cons y ys =>
      simp only [solve_times_loop] at h
      split at h
      · simp at h
      · next hxy =>
        have : x = y := not_not.1 hxy
        subst this
        rw [ih ys (by simpa using hl) h]

theorem solve_times_loop_swap (xs ys : List Int) (r : Bool)
    (h : solve_times_loop xs ys = some r) : solve_times_loop ys xs = some (!r) := by
  induction xs generalizing ys with
  | nil => simp [solve_times_loop] at h
  | cons x xs ih => cases ys with
    | nil => simp [solve_times_loop] at h
    | cons y ys =>
      simp only [solve_times_loop] at h ⊢
      by_cases hxy : x = y
      · subst hxy
        simp only [ne_eq, not_true_eq_false, if_false] at h ⊢
        exact ih ys h
      · have hyx : ¬ y = x := fun e => hxy e.symm
        simp only [ne_eq, hxy, not_false_eq_true, if_true, Option.some.injEq] at h
        simp only [ne_eq, hyx, not_false_eq_true, if_true, Option.some.injEq]
        subst h
        have : x < y ∨ y < x := lt_or_gt_of_ne hxy
        rcases this with h1 | h1
        · simp [h1, not_lt.2 (le_of_lt h1)]
        · simp [h1, not_lt.2 (le_of_lt h1)]

theorem solve_times_loop_trans (xs ys zs : List Int)
    (h1 : solve_times_loop xs ys = some true) (h2 : solve_times_loop ys zs = some true) :
    solve_times_loop xs zs = some true := by
  induction xs generalizing ys zs with
  | nil => simp [solve_times_loop] at h1
  | cons x xs ih => cases ys with
    | nil => simp [solve_times_loop] at h1
    | cons y ys => cases zs with
      | nil => simp [solve_times_loop] at h2
      | cons z zs =>
        simp only [solve_times_loop] at h1 h2 ⊢
        by_cases hxy : x = y
        · subst hxy
          simp only [ne_eq, not_true_eq_false, if_false] at h1
          by_cases hxz : x = z
          · subst hxz
            simp only [ne_eq, not_true_eq_false, if_false] at h2 ⊢
            exact ih ys zs h1 h2
          · simpa [hxz] using h2
        · simp only [ne_eq, hxy, not_false_eq_true, if_true, Option.some.injEq,
            decide_eq_true_eq] at h1
          by_cases hyz : y = z
          · subst hyz
            simp [hxy, h1]
          · simp only [ne_eq, hyz, not_false_eq_true, if_true, Option.some.injEq,
              decide_eq_true_eq] at h2
            have : x < z := lt_trans h1 h2
            simp [ne_of_lt this, this]

theorem str_lt_iff (a b : String) : str_lt a b = true ↔ a < b := by
  unfold str_lt
  rw [decide_eq_true_eq]
  exact String.lt_iff_toList_lt.symm

theorem str_lt_irrefl (a : String) : str_lt a a = false := by
  simp [str_lt]

theorem str_lt_trans (a b c : String) (h1 : str_lt a b = true) (h2 : str_lt b c = true) :
    str_lt a c = true := by
  simp only [str_lt, decide_eq_true_eq] at *
  exact lt_trans h1 h2

theorem str_lt_asymm (a b : String) (h1 : str_lt a b = true) : str_lt b a = false := by
  simp only [str_lt, decide_eq_true_eq, decide_eq_false_iff_not] at *
  exact lt_asymm h1

theorem str_lt_total (a b : String) (h : a ≠ b) : str_lt a b = true ∨ str_lt b a = true := by
  simp only [str_lt, decide_eq_true_eq]
  have hd : a.data ≠ b.data := fun e => h (String.ext e)
  rcases lt_trichotomy a.data b.data with h1 | h1 | h1
  · exact Or.inl h1
  · exact absurd h1 hd
  · exact Or.inr h1

/-- The decision taken by `operator<`, key by key. -/
theorem team_lt_iff (a b : Team) :
    Team.lt a b = true ↔
      a.solved_count > b.solved_count ∨
      (a.solved_count = b.solved_count ∧
        (a.penalty_time < b.penalty_time ∨
         (a.penalty_time = b.penalty_time ∧
           (solve_times_loop a.solve_times b.solve_times = some true ∨
            (solve_times_loop a.solve_times b.solve_times = none ∧
              str_lt a.name b.name = true))))) := by
  unfold Team.lt
  by_cases h1 : a.solved_count = b.solved_count
  · by_cases h2 : a.penalty_time = b.penalty_time
    · simp only [ne_eq, h1, not_true_eq_false, if_false, h2, gt_iff_lt, lt_self_iff_false,
        false_or, true_and]
      cases h : solve_times_loop a.solve_times b.solve_times with
      | none => simp
      | some r => simp
    · simp only [ne_eq, h1, not_true_eq_false, if_false, h2, not_false_eq_true, if_true,
        decide_eq_true_eq, gt_iff_lt, lt_self_iff_false, false_or, true_and, false_and, or_false]
  · simp only [ne_eq, h1, not_false_eq_true, if_true, decide_eq_true_eq, gt_iff_lt, false_and,
      or_false]

theorem team_lt_irrefl (a : Team) : Team.lt a a = false := by
  rw [← Bool.not_eq_true, team_lt_iff]
  simp [solve_times_loop_self, str_lt_irrefl]

theorem team_lt_trans_of_length (a b c : Team)
    (ha : (a.solve_times.length : Int) = a.solved_count)
    (hb : (b.solve_times.length : Int) = b.solved_count)
    (hc : (c.solve_times.length : Int) = c.solved_count)
    (h1 : Team.lt a b = true) (h2 : Team.lt b c = true) : Team.lt a c = true := by
  rw [team_lt_iff] at h1 h2 ⊢
  rcases h1 with h1 | ⟨e1, h1 | ⟨f1, h1⟩⟩
  · rcases h2 with h2 | ⟨e2, _⟩
    · exact Or.inl (by omega)
    · exact Or.inl (by omega)
  · rcases h2 with h2 | ⟨e2, h2 | ⟨f2, _⟩⟩
    · exact Or.inl (by omega)
    · exact Or.inr ⟨by omega, Or.inl (by omega)⟩
    · exact Or.inr ⟨by omega, Or.inl (by omega)⟩
  · rcases h2 with h2 | ⟨e2, h2 | ⟨f2, h2⟩⟩
    · exact Or.inl (by omega)
    · exact Or.inr ⟨by omega, Or.inl (by omega)⟩
    · refine Or.inr ⟨by omega, Or.inr ⟨by omega, ?_⟩⟩
      have lab : a.solve_times.length = b.solve_times.length := by omega
      have lbc : b.solve_times.length = c.solve_times.length := by omega
      rcases h1 with h1 | ⟨n1, s1⟩
      · rcases h2 with h2 | ⟨n2, _⟩
        · exact Or.inl (solve_times_loop_trans _ _ _ h1 h2)
        · rw [← solve_times_loop_none_eq _ _ lbc n2]
          exact Or.inl h1
      · rw [solve_times_loop_none_eq _ _ lab n1]
        rcases h2 with h2 | ⟨n2, s2⟩
        · exact Or.inl h2
        · exact Or.inr ⟨n2, str_lt_trans _ _ _ s1 s2⟩

theorem team_lt_asymm (a b : Team) (h : Team.lt a b = true) : Team.lt b a = false := by
  rw [← Bool.not_eq_true]
  intro h'
  rw [team_lt_iff] at h h'
  rcases h with h | ⟨e1, h | ⟨f1, h⟩⟩
  · rcases h' with h' | ⟨e2, _⟩ <;> omega
  · rcases h' with h' | ⟨e2, h' | ⟨f2, _⟩⟩ <;> omega
  · rcases h' with h' | ⟨e2, h' | ⟨f2, h'⟩⟩
    · omega
    · omega
    · rcases h with h | ⟨n1, s1⟩
      · have := solve_times_loop_swap _ _ _ h
        rcases h' with h' | ⟨n2, _⟩
        · rw [this] at h'; simp at h'
        · rw [this] at n2; simp at n2
      · rcases h' with h' | ⟨n2, s2⟩
        · have := solve_times_loop_swap _ _ _ h'
          rw [this] at n1; simp at n1
        · rw [str_lt_asymm _ _ s1] at s2; simp at s2

theorem team_lt_total (a b : Team) (h : a.name ≠ b.name) :
    Team.lt a b = true ∨ Team.lt b a = true := by
  rw [team_lt_iff, team_lt_iff]
  rcases lt_trichotomy a.solved_count b.solved_count with h1 | h1 | h1
  · exact Or.inr (Or.inl h1)
  · rcases lt_trichotomy a.penalty_time b.penalty_time with h2 | h2 | h2
    · exact Or.inl (Or.inr ⟨h1, Or.inl h2⟩)
    · cases hl : solve_times_loop a.solve_times b.solve_times with
      | none =>
        have hl' : solve_times_loop b.solve_times a.solve_times = none := by
          cases hr : solve_times_loop b.solve_times a.solve_times with
          | none => rfl
          | some r => have := solve_times_loop_swap _ _ _ hr; rw [hl] at this; simp at this
        rcases str_lt_total _ _ h with hs | hs
        · exact Or.inl (Or.inr ⟨h1, Or.inr ⟨h2, Or.inr ⟨rfl, hs⟩⟩⟩)
        · exact Or.inr (Or.inr ⟨h1.symm, Or.inr ⟨h2.symm, Or.inr ⟨hl', hs⟩⟩⟩)
      | some r =>
        have hl' := solve_times_loop_swap _ _ _ hl
        cases r with
        | true => exact Or.inl (Or.inr ⟨h1, Or.inr ⟨h2, Or.inl rfl⟩⟩)
        | false => exact Or.inr (Or.inr ⟨h1.symm, Or.inr ⟨h2.symm, Or.inl hl'⟩⟩)
    · exact Or.inr (Or.inr ⟨h1.symm, Or.inl h2⟩)
  · exact Or.inl (Or.inl h1)

theorem solve_times_loop_some_iff (xs ys : List Int) (r : Bool) :
    solve_times_loop xs ys = some r ↔
      ∃ i, i < min xs.length ys.length ∧ (∀ j, j < i → xs.getD j 0 = ys.getD j 0) ∧
        xs.getD i 0 ≠ ys.getD i 0 ∧ r = decide (xs.getD i 0 < ys.getD i 0) := by
  induction xs generalizing ys with
  | nil => simp [solve_times_loop]
  | cons x xs ih => cases ys with
    | nil => simp [solve_times_loop]
    | cons y ys =>
      simp only [solve_times_loop]
      by_cases hxy : x = y
      · subst hxy
        simp only [ne_eq, not_true_eq_false, if_false, ih]
        constructor
        · rintro ⟨i, hi, hj, hne, hr⟩
          refine ⟨i + 1, by simpa using hi, ?_, by simpa using hne, by simpa using hr⟩
          intro j hj'
          cases j with
          | zero => simp
          | succ j => simpa using hj j (by omega)
        · rintro ⟨i, hi, hj, hne, hr⟩
          cases i with
          | zero => simp at hne
          | succ i =>
            refine ⟨i, by simpa using hi, ?_, by simpa using hne, by simpa using hr⟩
            intro j hj'
            simpa using hj (j + 1) (by omega)
      · simp only [ne_eq, hxy, not_false_eq_true, if_true, Option.some.injEq]
        constructor
        · intro h
          exact ⟨0, by simp, by simp, by simpa using hxy, by simpa using h.symm⟩
        · rintro ⟨i, hi, hj, hne, hr⟩
          cases i with
          | zero => simpa using hr.symm
          | succ i => exact absurd (by simpa using hj 0 (by omega)) hxy

theorem solve_times_loop_none_iff (xs ys : List Int) :
    solve_times_loop xs ys = none ↔
      ∀ j, j < min xs.length ys.length → xs.getD j 0 = ys.getD j 0 := by
  induction xs generalizing ys with
  | nil => simp [solve_times_loop]
  | cons x xs ih => cases ys with
    | nil => simp [solve_times_loop]
    | cons y ys =>
      simp only [solve_times_loop]
      by_cases hxy : x = y
      · subst hxy
        simp only [ne_eq, not_true_eq_false, if_false, ih]
        constructor
        · intro h j hj
          cases j with
          | zero => simp
          | succ j => simpa using h j (by simpa using hj)
        · intro h j hj
          simpa using h (j + 1) (by simpa using hj)
      · simp only [ne_eq, hxy, not_false_eq_true, if_true, false_iff, not_forall]
        simp only [reduceCtorEq, false_iff, not_forall]
        exact ⟨0, by simp, by simpa using hxy⟩

/-- C5: `Team::operator<` is a strict total order on teams whose derived fields
come from `calculate_stats`: it is irreflexive and transitive, and of two such teams
with different names exactly one ranks before the other. -/
theorem lt_strict_total_on_derived (a0 b0 c0 : Team) (pa pb pc : Int) :
    let a := a0.calculate_stats pa
    let b := b0.calculate_stats pb
    let c := c0.calculate_stats pc
    ((a.solve_times.length : Int) = a.solved_count) ∧
    Team.lt a a = false ∧
    (Team.lt a b = true → Team.lt b c = true → Team.lt a c = true) ∧
    (a.name ≠ b.name →
      (Team.lt a b = true ∧ Team.lt b a = false) ∨ (Team.lt a b = false ∧ Team.lt b a = true)) := by
  intro a b c
  refine ⟨calculate_stats_length a0 pa, team_lt_irrefl a, ?_, ?_⟩
  · exact team_lt_trans_of_length a b c (calculate_stats_length a0 pa) (calculate_stats_length b0 pb)
      (calculate_stats_length c0 pc)
  · intro hne
    rcases team_lt_total a b hne with h | h
    · exact Or.inl ⟨h, team_lt_asymm _ _ h⟩
    · exact Or.inr ⟨team_lt_asymm _ _ h, h⟩

/-- C6: `a < b` holds exactly when the first differing key, in the order solved
count, penalty time, solve times position by position up to the shorter length,
name, favours `a`; in particular a higher solved count always ranks first. -/
theorem lt_iff_ranks_before (a b : Team) :
    (Team.lt a b = true ↔ ranks_before a b) ∧
    (a.solved_count > b.solved_count → Team.lt a b = true ∧ Team.lt b a = false) := by
  constructor
  · rw [team_lt_iff, ranks_before, solve_times_loop_some_iff, solve_times_loop_none_iff, str_lt_iff]
    constructor
    · rintro (h | ⟨e, h | ⟨f, h | h⟩⟩)
      · exact Or.inl h
      · exact Or.inr ⟨e, Or.inl h⟩
      · obtain ⟨i, hi, hj, _, hr⟩ := h
        exact Or.inr ⟨e, Or.inr ⟨f, Or.inl ⟨i, hi, hj, by simpa using hr.symm⟩⟩⟩
      · exact Or.inr ⟨e, Or.inr ⟨f, Or.inr h⟩⟩
    · rintro (h | ⟨e, h | ⟨f, h | h⟩⟩)
      · exact Or.inl h
      · exact Or.inr ⟨e, Or.inl h⟩
      · obtain ⟨i, hi, hj, hlt⟩ := h
        exact Or.inr ⟨e, Or.inr ⟨f, Or.inl ⟨i, hi, hj, ne_of_lt hlt, by simpa using hlt⟩⟩⟩
      · exact Or.inr ⟨e, Or.inr ⟨f, Or.inr h⟩⟩
  · intro h
    have hab : Team.lt a b = true := (team_lt_iff a b).2 (Or.inl h)
    exact ⟨hab, team_lt_asymm _ _ hab⟩

theorem mem_scoring (t : Team) (pc : Int) (p : Nat) :
    p ∈ scoring t pc ↔
      (∃ i : Nat, (i : Int) < pc ∧ p = 65 + i) ∧
        (map_get t.problems p).solved = true ∧ (map_get t.problems p).is_frozen = false := by
  simp only [scoring, letters, List.mem_filter, List.mem_map, List.mem_range, scores,
    Bool.and_eq_true, Bool.not_eq_true']
  constructor
  · rintro ⟨⟨i, hi, rfl⟩, h⟩
    exact ⟨⟨i, by omega, rfl⟩, h⟩
  · rintro ⟨⟨i, hi, rfl⟩, h⟩
    exact ⟨⟨i, by omega, rfl⟩, h⟩

/-- C8, as stated, fails: in the state `overflow_demo` (one wrong attempt, then
`Accepted` at time `2147483647`) the only scoring problem of team `T` contributes
`2147483647 + 20 * 1 = 2147483667`, which no `int` holds; `calculate_stats` leaves
`penalty_time = -2147483629`, and so does the `FLUSH` that built the state. -/
theorem calculate_stats_penalty_counterexample :
    ¬ (∀ (t : Team) (problem_count : Int), problem_count ≤ 26 →
        (t.calculate_stats problem_count).penalty_time =
          ((scoring t problem_count).map (fun p =>
            (map_get t.problems p).solve_time + 20 * (map_get t.problems p).wrong_attempts)).sum) ∧
    ((overflow_demo.team "T").calculate_stats 1).penalty_time = -2147483629 ∧
    ((scoring (overflow_demo.team "T") 1).map (fun p =>
      (map_get (overflow_demo.team "T").problems p).solve_time
        + 20 * (map_get (overflow_demo.team "T").problems p).wrong_attempts)).sum = 2147483667 ∧
    (overflow_demo.team "T").penalty_time = -2147483629 := by
  refine ⟨fun h => ?_, by decide, by decide, by decide⟩
  have h1 := h (overflow_demo.team "T") 1 (by decide)
  have h2 : ((overflow_demo.team "T").calculate_stats 1).penalty_time = -2147483629 := by decide
  have h3 : ((scoring (overflow_demo.team "T") 1).map (fun p =>
      (map_get (overflow_demo.team "T").problems p).solve_time
        + 20 * (map_get (overflow_demo.team "T").problems p).wrong_attempts)).sum
      = 2147483667 := by decide
  rw [h2, h3] at h1
  exact absurd h1 (by decide)

/-- C8, amended: for at most 26 problems `calculate_stats` leaves every problem status
as it is, sets `solved_count` to the number of problems among the first
`problem_count` letters that are solved and not frozen, `penalty_time` to the sum of
`solve_time + 20 * wrong_attempts` over exactly those problems reduced to the range
of a 32-bit `int` (so to the sum itself whenever the sum lies in that range), and
`solve_times` to their solve times in non-increasing order. -/
theorem calculate_stats_derives (t : Team) (problem_count : Int) (_h : problem_count ≤ 26) :
    (∀ p, map_get (t.calculate_stats problem_count).problems p = map_get t.problems p) ∧
    (scoring t problem_count).Nodup ∧
    (∀ p, p ∈ scoring t problem_count ↔
      (∃ i : Nat, (i : Int) < problem_count ∧ p = 65 + i) ∧
        (map_get t.problems p).solved = true ∧ (map_get t.problems p).is_frozen = false) ∧
    (t.calculate_stats problem_count).solved_count = ((scoring t problem_count).length : Int) ∧
    (t.calculate_stats problem_count).penalty_time =
      wrap_int ((scoring t problem_count).map (fun p =>
        (map_get t.problems p).solve_time + 20 * (map_get t.problems p).wrong_attempts)).sum ∧
    (-2147483648 ≤ ((scoring t problem_count).map (fun p =>
        (map_get t.problems p).solve_time + 20 * (map_get t.problems p).wrong_attempts)).sum →
      ((scoring t problem_count).map (fun p =>
        (map_get t.problems p).solve_time + 20 * (map_get t.problems p).wrong_attempts)).sum
        < 2147483648 →
      (t.calculate_stats problem_count).penalty_time =
        ((scoring t problem_count).map (fun p =>
          (map_get t.problems p).solve_time + 20 * (map_get t.problems p).wrong_attempts)).sum) ∧
    (-2147483648 ≤ (t.calculate_stats problem_count).penalty_time ∧
      (t.calculate_stats problem_count).penalty_time < 2147483648) ∧
    (t.calculate_stats problem_count).solve_times.Perm
      ((scoring t problem_count).map (fun p => (map_get t.problems p).solve_time)) ∧
    (t.calculate_stats problem_count).solve_times.Pairwise (fun x y => x ≥ y) := by
  have hp : (t.calculate_stats problem_count).penalty_time =
      wrap_int ((scoring t problem_count).map (fun p =>
        (map_get t.problems p).solve_time + 20 * (map_get t.problems p).wrong_attempts)).sum := by
    rw [calculate_stats_eq]
    rfl
  refine ⟨calculate_stats_get t problem_count, (letters_nodup problem_count).filter _,
    mem_scoring t problem_count, ?_, hp, ?_, ?_, ?_, ?_⟩
  · rw [calculate_stats_eq]
  · intro h1 h2
    rw [hp]
    exact wrap_int_of_range _ h1 h2
  · rw [hp]
    exact wrap_int_range _
  · rw [calculate_stats_eq]
    exact sort_desc_perm _
  · rw [calculate_stats_eq]
    exact sort_desc_sorted _

theorem calculate_stats_derives_witness :
    ((3 : Int) ≤ 26) ∧
    (demo_team.calculate_stats 3).solved_count = ((scoring demo_team 3).length : Int) ∧
    (demo_team.calculate_stats 3).solved_count = 1 ∧
    (demo_team.calculate_stats 3).penalty_time = 30 :=
  ⟨by decide, (calculate_stats_derives demo_team 3 (by decide)).2.2.2.1, by decide, by decide⟩

theorem submit_team (s : ICPCSystem) (pn tn st : String) (tm : Int) (n : String) :
    (submit s pn tn st tm).team n =
      if n = tn then
        { s.team n with
          problems := map_modify (s.team n).problems (first_char pn)
            (submit_status s.is_frozen st tm),
          all_submissions := (s.team n).all_submissions ++ [⟨tn, pn, st, tm⟩] }
      else s.team n := by
  simp only [ICPCSystem.team, submit, map_get_modify]
  split
  · next h => subst h; rfl
  · rfl

theorem submit_status_eq (s : ICPCSystem) (pn tn st : String) (tm : Int) (n : String) (q : Nat) :
    (submit s pn tn st tm).status n q =
      if n = tn ∧ q = first_char pn then submit_status s.is_frozen st tm (s.status n q)
      else s.status n q := by
  simp only [ICPCSystem.status, submit_team]
  by_cases h : n = tn
  · subst h
    simp only [if_true, map_get_modify, true_and]
    split
    · next hq => subst hq; rfl
    · rfl
  · simp [h]

theorem calculate_stats_congr (t t' : Team) (pc : Int)
    (h : ∀ p, scores t.problems p = scores t'.problems p)
    (h2 : ∀ p, scores t.problems p = true →
      (map_get t.problems p).solve_time = (map_get t'.problems p).solve_time ∧
      (map_get t.problems p).wrong_attempts = (map_get t'.problems p).wrong_attempts) :
    (t.calculate_stats pc).solved_count = (t'.calculate_stats pc).solved_count ∧
    (t.calculate_stats pc).penalty_time = (t'.calculate_stats pc).penalty_time ∧
    (t.calculate_stats pc).solve_times = (t'.calculate_stats pc).solve_times := by
  have hs : scoring t pc = scoring t' pc := by
    unfold scoring
    exact List.filter_congr (fun p _ => h p)
  have hm : ∀ p ∈ scoring t pc, scores t.problems p = true := by
    intro p hp
    exact (List.mem_filter.1 hp).2
  rw [calculate_stats_eq t, calculate_stats_eq t']
  simp only []
  rw [← hs]
  refine ⟨rfl, ?_, ?_⟩
  · congr 2
    apply List.map_congr_left
    intro p hp
    have := h2 p (hm p hp)
    simp [penalty_of, this.1, this.2]
  · congr 1
    apply List.map_congr_left
    intro p hp
    exact (h2 p (hm p hp)).1

/-- C9: while the board is frozen, `submit` queues the submission on a problem that
is neither solved nor solved before the freeze and marks it frozen, and leaves the
status as it is otherwise; no other status changes; `solved`, `wrong_attempts` and
`solve_time` of every problem stay as they are, and so does what `calculate_stats`
derives for every team. -/
theorem submit_frozen (s : ICPCSystem) (problem_name team_name status : String) (time : Int)
    (h : s.is_frozen = true) :
    (submit s problem_name team_name status time).status team_name (first_char problem_name) =
      (if (s.status team_name (first_char problem_name)).solved = false ∧
          (s.status team_name (first_char problem_name)).was_solved_before_freeze = false then
        { s.status team_name (first_char problem_name) with
          frozen_subs := (s.status team_name (first_char problem_name)).frozen_subs
            ++ [(status, time)],
          is_frozen := true }
      else s.status team_name (first_char problem_name)) ∧
    (∀ n q, ¬ (n = team_name ∧ q = first_char problem_name) →
      (submit s problem_name team_name status time).status n q = s.status n q) ∧
    (∀ n q,
      ((submit s problem_name team_name status time).status n q).solved = (s.status n q).solved ∧
      ((submit s problem_name team_name status time).status n q).wrong_attempts
        = (s.status n q).wrong_attempts ∧
      ((submit s problem_name team_name status time).status n q).solve_time
        = (s.status n q).solve_time) ∧
    (∀ n pc,
      (((submit s problem_name team_name status time).team n).calculate_stats pc).solved_count
        = ((s.team n).calculate_stats pc).solved_count ∧
      (((submit s problem_name team_name status time).team n).calculate_stats pc).penalty_time
        = ((s.team n).calculate_stats pc).penalty_time ∧
      (((submit s problem_name team_name status time).team n).calculate_stats pc).solve_times
        = ((s.team n).calculate_stats pc).solve_times) := by
  have key : ∀ n q,
      ((submit s problem_name team_name status time).status n q).solved = (s.status n q).solved ∧
      ((submit s problem_name team_name status time).status n q).wrong_attempts
        = (s.status n q).wrong_attempts ∧
      ((submit s problem_name team_name status time).status n q).solve_time
        = (s.status n q).solve_time ∧
      (((submit s problem_name team_name status time).status n q).solved = true →
        ((submit s problem_name team_name status time).status n q).is_frozen
          = (s.status n q).is_frozen) := by
    intro n q
    rw [submit_status_eq]
    split
    · simp only [submit_status, h, if_true]
      split
      · next hc =>
        simp only [Bool.and_eq_true, Bool.not_eq_true'] at hc
        simp [hc.1]
      · simp
    · simp
  refine ⟨?_, ?_, fun n q => ⟨(key n q).1, (key n q).2.1, (key n q).2.2.1⟩, ?_⟩
  · rw [submit_status_eq]
    simp only [and_self, if_true, submit_status, h, Bool.and_eq_true, Bool.not_eq_true']
  · intro n q hne
    rw [submit_status_eq, if_neg hne]
  · intro n pc
    apply calculate_stats_congr
    · intro p
      have := key n p
      simp only [ICPCSystem.status] at this
      simp only [scores]
      rcases this with ⟨h1, _, _, h4⟩
      cases hsol : (map_get ((submit s problem_name team_name status time).team n).problems p).solved with
      | true => rw [← h1, hsol, h4 hsol]
      | false => rw [← h1, hsol]; rfl
    · intro p _
      have := key n p
      simp only [ICPCSystem.status] at this
      exact ⟨this.2.2.1, this.2.1⟩

theorem submit_frozen_witness :
    demo_frozen.is_frozen = true ∧
    (submit demo_frozen "B" "B" "Rejected" 30).status "B" (first_char "B") =
      (if (demo_frozen.status "B" (first_char "B")).solved = false ∧
          (demo_frozen.status "B" (first_char "B")).was_solved_before_freeze = false then
        { demo_frozen.status "B" (first_char "B") with
          frozen_subs := (demo_frozen.status "B" (first_char "B")).frozen_subs
            ++ [("Rejected", 30)],
          is_frozen := true }
      else demo_frozen.status "B" (first_char "B")) :=
  ⟨by decide, (submit_frozen demo_frozen "B" "B" "Rejected" 30 (by decide)).1⟩

/-- C10: while the board is not frozen, `submit` leaves a solved problem as it is,
marks an unsolved one solved at `time` on the verdict `Accepted` (wrong attempts
unchanged), and adds one wrong attempt on any other verdict (`solved` and
`solve_time` unchanged); no other problem of any team changes. -/
theorem submit_unfrozen (s : ICPCSystem) (problem_name team_name status : String) (time : Int)
    (h : s.is_frozen = false) :
    ((s.status team_name (first_char problem_name)).solved = true →
      (submit s problem_name team_name status time).status team_name (first_char problem_name)
        = s.status team_name (first_char problem_name)) ∧
    ((s.status team_name (first_char problem_name)).solved = false → status = "Accepted" →
      (submit s problem_name team_name status time).status team_name (first_char problem_name)
        = { s.status team_name (first_char problem_name) with
            solved := true, solve_time := time }) ∧
    ((s.status team_name (first_char problem_name)).solved = false → status ≠ "Accepted" →
      (submit s problem_name team_name status time).status team_name (first_char problem_name)
        = { s.status team_name (first_char problem_name) with
            wrong_attempts :=
              (s.status team_name (first_char problem_name)).wrong_attempts + 1 }) ∧
    (∀ n q, ¬ (n = team_name ∧ q = first_char problem_name) →
      (submit s problem_name team_name status time).status n q = s.status n q) := by
  refine ⟨?_, ?_, ?_, ?_⟩
  · intro hs
    rw [submit_status_eq]
    simp [submit_status, h, hs]
  · intro hs ha
    rw [submit_status_eq]
    simp [submit_status, h, hs, ha]
  · intro hs ha
    rw [submit_status_eq]
    simp [submit_status, h, hs, ha]
  · intro n q hne
    rw [submit_status_eq, if_neg hne]

theorem submit_unfrozen_witness :
    demo_running.is_frozen = false ∧
    ((demo_running.status "A" (first_char "B")).solved = false → "Rejected" ≠ "Accepted" →
      (submit demo_running "B" "A" "Rejected" 30).status "A" (first_char "B")
        = { demo_running.status "A" (first_char "B") with
            wrong_attempts := (demo_running.status "A" (first_char "B")).wrong_attempts + 1 }) :=
  ⟨by decide, (submit_unfrozen demo_running "B" "A" "Rejected" 30 (by decide)).2.2.1⟩

theorem replay_eq (ps : ProblemStatus) :
    replay ps = { replay_loop ps.frozen_subs ps with is_frozen := false, frozen_subs := [] } := rfl

theorem replay_loop_eq_submit (subs : List (String × Int)) (acc : ProblemStatus) :
    replay_loop subs acc = subs.foldl (fun a sub => submit_status false sub.1 sub.2 a) acc := by
  unfold replay_loop
  congr 1

theorem replay_loop_solved (subs : List (String × Int)) (acc : ProblemStatus)
    (h : acc.solved = true) : replay_loop subs acc = acc := by
  induction subs with
  | nil => rfl
  | cons x xs ih =>
    simp only [replay_loop, List.foldl_cons, h, Bool.not_true, Bool.false_eq_true, if_false] at ih ⊢
    exact ih

theorem replay_loop_none (subs : List (String × Int)) (acc : ProblemStatus)
    (h : acc.solved = false) (hn : ∀ e ∈ subs, e.1 ≠ "Accepted") :
    replay_loop subs acc = { acc with wrong_attempts := acc.wrong_attempts + subs.length } := by
  induction subs generalizing acc with
  | nil => simp [replay_loop]
  | cons x xs ih =>
    have hx : x.1 ≠ "Accepted" := hn x (List.mem_cons_self _ _)
    have := ih { acc with wrong_attempts := acc.wrong_attempts + 1 } h
      (fun e he => hn e (List.mem_cons_of_mem _ he))
    simp only [replay_loop, List.foldl_cons, h, Bool.not_false, if_true, hx, if_false] at this ⊢
    rw [this]
    simp only [List.length_cons, Nat.cast_add, Nat.cast_one]
    congr 1
    ring

theorem replay_loop_first (subs : List (String × Int)) (acc : ProblemStatus) (i : Nat) (t : Int)
    (h : acc.solved = false) (hi : subs[i]? = some ("Accepted", t))
    (hn : ∀ j, j < i → ∀ e, subs[j]? = some e → e.1 ≠ "Accepted") :
    replay_loop subs acc =
      { acc with solved := true, solve_time := t, wrong_attempts := acc.wrong_attempts + i } := by
  induction subs generalizing acc i with
  | nil => simp at hi
  | cons x xs ih =>
    cases i with
    | zero =>
      simp only [List.getElem?_cons_zero, Option.some.injEq] at hi
      subst hi
      have := replay_loop_solved xs { acc with solved := true, solve_time := t } rfl
      simp only [replay_loop, List.foldl_cons, h, Bool.not_false, if_true] at this ⊢
      rw [this]
      simp
    | succ i =>
      have hx : x.1 ≠ "Accepted" := hn 0 (by omega) x (by simp)
      have := ih { acc with wrong_attempts := acc.wrong_attempts + 1 } i h
        (by simpa using hi)
        (fun j hj e he => hn (j + 1) (by omega) e (by simpa using he))
      simp only [replay_loop, List.foldl_cons, h, Bool.not_false, if_true, hx, if_false] at this ⊢
      rw [this]
      simp only [Nat.cast_add, Nat.cast_one]
      congr 1
      ring

theorem team_sim_refl (a : Team) : Team.sim a a :=
  ⟨rfl, rfl, rfl, rfl, rfl, rfl, fun _ => rfl⟩

theorem team_sim_symm {a b : Team} (h : Team.sim a b) : Team.sim b a :=
  ⟨h.1.symm, h.2.1.symm, h.2.2.1.symm, h.2.2.2.1.symm, h.2.2.2.2.1.symm, h.2.2.2.2.2.1.symm,
    fun p => (h.2.2.2.2.2.2 p).symm⟩

theorem team_sim_trans {a b c : Team} (h : Team.sim a b) (h' : Team.sim b c) : Team.sim a c :=
  ⟨h.1.trans h'.1, h.2.1.trans h'.2.1, h.2.2.1.trans h'.2.2.1, h.2.2.2.1.trans h'.2.2.2.1,
    h.2.2.2.2.1.trans h'.2.2.2.2.1, h.2.2.2.2.2.1.trans h'.2.2.2.2.2.1,
    fun p => (h.2.2.2.2.2.2 p).trans (h'.2.2.2.2.2.2 p)⟩

theorem team_lt_congr {a a' b b' : Team} (ha : Team.sim a a') (hb : Team.sim b b') :
    Team.lt a b = Team.lt a' b' := by
  unfold Team.lt
  rw [ha.1, ha.2.2.1, ha.2.2.2.1, ha.2.2.2.2.1, hb.1, hb.2.2.1, hb.2.2.2.1, hb.2.2.2.2.1]

theorem team_lt_ranking (a b : Team) (i j : Int) :
    Team.lt { a with ranking := i } { b with ranking := j } = Team.lt a b := rfl

/-! ### `assign_loop` -/

theorem assign_loop_get_of_not_mem (l : List String) (i : Nat) (teams : List (String × Team))
    (n : String) (h : n ∉ l) : map_get (assign_loop l i teams) n = map_get teams n := by
  induction l generalizing i teams with
  | nil => rfl
  | cons a l ih =>
    simp only [List.mem_cons, not_or] at h
    simp only [assign_loop]
    rw [ih _ _ h.2, map_get_modify_ne _ _ _ _ h.1]

theorem assign_loop_get (l : List String) (i : Nat) (teams : List (String × Team)) (n : String) :
    map_get (assign_loop l i teams) n =
      { map_get teams n with ranking := (map_get (assign_loop l i teams) n).ranking } := by
  induction l generalizing i teams with
  | nil => rfl
  | cons a l ih =>
    simp only [assign_loop]
    rw [ih]
    by_cases h : n = a
    · subst h
      simp [map_get_modify_self]
    · simp [map_get_modify_ne _ _ _ _ h]

theorem assign_loop_ranking (l : List String) (i : Nat) (teams : List (String × Team))
    (n : String) (hl : l.Nodup) (h : n ∈ l) :
    (map_get (assign_loop l i teams) n).ranking = ((i + l.indexOf n : Nat) : Int) + 1 := by
  induction l generalizing i teams with
  | nil => simp at h
  | cons a l ih =>
    rw [List.nodup_cons] at hl
    simp only [assign_loop]
    by_cases hna : n = a
    · subst hna
      rw [assign_loop_get_of_not_mem _ _ _ _ hl.1, map_get_modify_self]
      simp
    · have hm : n ∈ l := by
        rcases List.mem_cons.1 h with h | h
        · exact absurd h hna
        · exact h
      rw [ih _ _ hl.2 hm, List.indexOf_cons_ne _ (fun e => hna e.symm)]
      push_cast
      ring

theorem assign_loop_ranking_bounds (l : List String) (i : Nat) (teams : List (String × Team))
    (n : String) (h : n ∈ l) :
    (i : Int) + 1 ≤ (map_get (assign_loop l i teams) n).ranking ∧
    (map_get (assign_loop l i teams) n).ranking ≤ (i : Int) + l.length := by
  induction l generalizing i teams with
  | nil => simp at h
  | cons a l ih =>
    simp only [assign_loop]
    by_cases hm : n ∈ l
    · have := ih (i + 1) (map_modify teams a fun t => { t with ranking := (i : Int) + 1 }) hm
      simp only [List.length_cons]
      push_cast at this ⊢
      omega
    · have hna : n = a := by
        rcases List.mem_cons.1 h with h | h
        · exact h
        · exact absurd h hm
      subst hna
      rw [assign_loop_get_of_not_mem _ _ _ _ hm, map_get_modify_self]
      simp only [List.length_cons]
      push_cast
      omega

theorem assign_loop_ranking_inj (l : List String) (i : Nat) (teams : List (String × Team))
    (a b : String) (ha : a ∈ l) (hb : b ∈ l)
    (e : (map_get (assign_loop l i teams) a).ranking = (map_get (assign_loop l i teams) b).ranking) :
    a = b := by
  induction l generalizing i teams with
  | nil => simp at ha
  | cons x l ih =>
    simp only [assign_loop] at e
    by_cases hal : a ∈ l
    · by_cases hbl : b ∈ l
      · exact ih _ _ hal hbl e
      · have hbx : b = x := by
          rcases List.mem_cons.1 hb with h | h
          · exact h
          · exact absurd h hbl
        subst hbx
        rw [assign_loop_get_of_not_mem _ _ _ _ hbl, map_get_modify_self] at e
        have := assign_loop_ranking_bounds l (i + 1)
          (map_modify teams b fun t => { t with ranking := (i : Int) + 1 }) a hal
        simp only [] at e
        push_cast at this
        omega
    · have hax : a = x := by
        rcases List.mem_cons.1 ha with h | h
        · exact h
        · exact absurd h hal
      subst hax
      by_cases hbl : b ∈ l
      · rw [assign_loop_get_of_not_mem _ _ _ _ hal, map_get_modify_self] at e
        have := assign_loop_ranking_bounds l (i + 1)
          (map_modify teams a fun t => { t with ranking := (i : Int) + 1 }) b hbl
        simp only [] at e
        push_cast at this
        omega
      · rcases List.mem_cons.1 hb with h | h
        · exact h.symm
        · exact absurd h hbl

/-! ### `get_sorted_teams` and `assign_rankings` -/

theorem get_sorted_teams_team (s : ICPCSystem) (n : String) :
    (get_sorted_teams s).1.team n = s.team n := by
  simp only [get_sorted_teams, ICPCSystem.team]
  exact map_get_foldl_touch _ _ _

theorem sorted_names_perm (s : ICPCSystem) : (sorted_names s).Perm s.team_names := by
  simp only [sorted_names, get_sorted_teams]
  exact List.perm_insertionSort _ _

theorem sorted_names_eq (s : ICPCSystem) :
    sorted_names s =
      List.insertionSort (fun a b => Team.lt (s.team a) (s.team b) = true) s.team_names := by
  simp only [sorted_names, get_sorted_teams, ICPCSystem.team, map_get_foldl_touch]

theorem assign_rankings_fields (s : ICPCSystem) :
    (assign_rankings s).team_names = s.team_names ∧
    (assign_rankings s).competition_started = s.competition_started ∧
    (assign_rankings s).is_frozen = s.is_frozen ∧
    (assign_rankings s).duration_time = s.duration_time ∧
    (assign_rankings s).problem_count = s.problem_count :=
  ⟨rfl, rfl, rfl, rfl, rfl⟩

theorem assign_rankings_team (s : ICPCSystem) (n : String) :
    (assign_rankings s).team n =
      { s.team n with ranking := ((assign_rankings s).team n).ranking } := by
  have h := assign_loop_get (get_sorted_teams s).2 0 (get_sorted_teams s).1.teams n
  have h2 := get_sorted_teams_team s n
  simp only [ICPCSystem.team] at h2 ⊢
  simp only [assign_rankings]
  rw [← h2]
  exact h

theorem assign_rankings_team_of_not_mem (s : ICPCSystem) (n : String) (h : n ∉ s.team_names) :
    (assign_rankings s).team n = s.team n := by
  have h2 := get_sorted_teams_team s n
  simp only [ICPCSystem.team] at h2 ⊢
  simp only [assign_rankings]
  rw [assign_loop_get_of_not_mem, h2]
  intro hm
  exact h ((sorted_names_perm s).mem_iff.1 hm)

theorem assign_rankings_ranking (s : ICPCSystem) (n : String) (hl : s.team_names.Nodup)
    (h : n ∈ s.team_names) :
    ((assign_rankings s).team n).ranking = ((sorted_names s).indexOf n : Int) + 1 := by
  have := assign_loop_ranking (sorted_names s) 0 (get_sorted_teams s).1.teams n
    ((sorted_names_perm s).nodup_iff.2 hl) ((sorted_names_perm s).mem_iff.2 h)
  simp only [ICPCSystem.team, assign_rankings]
  simpa using this

theorem assign_rankings_bounds (s : ICPCSystem) (n : String) (h : n ∈ s.team_names) :
    1 ≤ ((assign_rankings s).team n).ranking ∧
    ((assign_rankings s).team n).ranking ≤ s.team_names.length := by
  have := assign_loop_ranking_bounds (sorted_names s) 0 (get_sorted_teams s).1.teams n
    ((sorted_names_perm s).mem_iff.2 h)
  rw [(sorted_names_perm s).length_eq] at this
  simp only [ICPCSystem.team, assign_rankings]
  simpa using this

theorem assign_rankings_inj (s : ICPCSystem) (a b : String) (ha : a ∈ s.team_names)
    (hb : b ∈ s.team_names)
    (e : ((assign_rankings s).team a).ranking = ((assign_rankings s).team b).ranking) : a = b :=
  assign_loop_ranking_inj (sorted_names s) 0 (get_sorted_teams s).1.teams a b
    ((sorted_names_perm s).mem_iff.2 ha) ((sorted_names_perm s).mem_iff.2 hb) e

theorem assign_rankings_status (s : ICPCSystem) (n : String) (p : Nat) :
    (assign_rankings s).status n p = s.status n p := by
  simp only [ICPCSystem.status]
  rw [assign_rankings_team]

theorem pairwise_indexOf {α : Type} [DecidableEq α] (S : α → α → Prop) (l : List α) (a b : α)
    (hp : l.Pairwise S) (hb : b ∈ l) (hlt : l.indexOf a < l.indexOf b) : S a b := by
  induction l with
  | nil => simp at hb
  | cons x l ih =>
    rw [List.pairwise_cons] at hp
    have hbx : b ≠ x := by
      intro e
      subst e
      simp at hlt
    have hbl : b ∈ l := by
      rcases List.mem_cons.1 hb with h | h
      · exact absurd h hbx
      · exact h
    by_cases hax : a = x
    · subst hax
      exact hp.1 b hbl
    · rw [List.indexOf_cons_ne _ (fun e => hax e.symm),
        List.indexOf_cons_ne _ (fun e => hbx e.symm)] at hlt
      exact ih hp.2 hbl (by omega)

theorem map_indexOf_eq_range {α : Type} [DecidableEq α] (l : List α) (h : l.Nodup) :
    l.map (fun x => l.indexOf x) = List.range l.length := by
  apply List.ext_getElem
  · simp
  · intro i h1 h2
    simp only [List.getElem_map, List.getElem_range]
    exact List.indexOf_getElem h i _

theorem map_find_map {κ ν : Type} [DecidableEq κ] (m : List (κ × ν)) (g : ν → ν) (k : κ) :
    map_find (m.map (fun p => (p.1, g p.2))) k = (map_find m k).map g := by
  induction m with
  | nil => rfl
  | cons hd tl ih =>
    obtain ⟨k', v⟩ := hd
    by_cases h : k' = k
    · simp [map_find, h]
    · simp [map_find, h, ih]

theorem calculate_stats_default_sim (pc : Int) :
    Team.sim (default : Team) ((default : Team).calculate_stats pc) := by
  have hsc : scoring (default : Team) pc = [] := by
    unfold scoring
    rw [List.filter_eq_nil_iff]
    intro p _
    simp [scores, map_get, map_find, default]
  rw [calculate_stats_eq, hsc]
  refine ⟨rfl, rfl, rfl, rfl, rfl, rfl, ?_⟩
  intro p
  simp only []
  rw [map_get_foldl_touch]

theorem update_all_stats_sim (s : ICPCSystem) (n : String) :
    Team.sim ((update_all_stats s).team n) ((s.team n).calculate_stats s.problem_count) := by
  simp only [ICPCSystem.team, update_all_stats, map_get]
  rw [map_find_map s.teams (fun t => t.calculate_stats s.problem_count) n]
  cases h : map_find s.teams n with
  | none => exact calculate_stats_default_sim _
  | some t => exact team_sim_refl _

theorem update_all_stats_status (s : ICPCSystem) (n : String) (p : Nat) :
    (update_all_stats s).status n p = s.status n p := by
  simp only [ICPCSystem.status]
  rw [(update_all_stats_sim s n).2.2.2.2.2.2 p, calculate_stats_get]

theorem update_all_stats_name (s : ICPCSystem) (n : String) :
    ((update_all_stats s).team n).name = (s.team n).name := by
  rw [(update_all_stats_sim s n).1, calculate_stats_eq]

theorem update_all_stats_ranking (s : ICPCSystem) (n : String) :
    ((update_all_stats s).team n).ranking = (s.team n).ranking := by
  rw [(update_all_stats_sim s n).2.2.2.2.2.1, calculate_stats_eq]

theorem update_all_stats_length (s : ICPCSystem) (n : String) :
    (((update_all_stats s).team n).solve_times.length : Int)
      = ((update_all_stats s).team n).solved_count := by
  rw [(update_all_stats_sim s n).2.2.2.2.1, (update_all_stats_sim s n).2.2.1]
  exact calculate_stats_length _ _

/-- The sorted vector is in comparator order when the teams compared carry distinct
names and derived statistics. -/
theorem sorted_names_pairwise (s : ICPCSystem)
    (hname : ∀ n ∈ s.team_names, (s.team n).name = n)
    (hlen : ∀ n ∈ s.team_names, ((s.team n).solve_times.length : Int) = (s.team n).solved_count) :
    (sorted_names s).Pairwise (fun a b => Team.lt (s.team b) (s.team a) = false) := by
  rw [sorted_names_eq]
  apply pairwise_insertionSort
  · intro a _ b _ h
    exact team_lt_asymm _ _ h
  · intro a _ b _ h
    simpa using h
  · intro a ha b hb c hc h1 h2
    rw [← Bool.not_eq_true] at h1 h2 ⊢
    intro hca
    by_cases hab : a = b
    · subst hab; exact h2 hca
    · have hn : (s.team a).name ≠ (s.team b).name := by
        rw [hname a ha, hname b hb]; exact hab
      rcases team_lt_total _ _ hn with h | h
      · exact h2 (team_lt_trans_of_length _ _ _ (hlen c hc) (hlen a ha) (hlen b hb) hca h)
      · exact h1 h

theorem lt_iff_indexOf (s : ICPCSystem)
    (hname : ∀ n ∈ s.team_names, (s.team n).name = n)
    (hlen : ∀ n ∈ s.team_names, ((s.team n).solve_times.length : Int) = (s.team n).solved_count)
    (a b : String) (ha : a ∈ s.team_names) (hb : b ∈ s.team_names) :
    (sorted_names s).indexOf a < (sorted_names s).indexOf b ↔
      Team.lt (s.team a) (s.team b) = true := by
  have hp := sorted_names_pairwise s hname hlen
  have hma : a ∈ sorted_names s := (sorted_names_perm s).mem_iff.2 ha
  have hmb : b ∈ sorted_names s := (sorted_names_perm s).mem_iff.2 hb
  constructor
  · intro hlt
    have h1 := pairwise_indexOf _ _ a b hp hmb hlt
    have hab : a ≠ b := by
      intro e; subst e; exact absurd hlt (lt_irrefl _)
    have hn : (s.team a).name ≠ (s.team b).name := by
      rw [hname a ha, hname b hb]; exact hab
    rcases team_lt_total _ _ hn with h | h
    · exact h
    · rw [h] at h1; simp at h1
  · intro h
    have hab : a ≠ b := by
      intro e; subst e; rw [team_lt_irrefl] at h; simp at h
    rcases lt_trichotomy ((sorted_names s).indexOf a) ((sorted_names s).indexOf b) with
      h1 | h1 | h1
    · exact h1
    · exact absurd ((List.indexOf_inj hma hmb).1 h1) hab
    · have := pairwise_indexOf _ _ b a hp hma h1
      rw [h] at this; simp at this

theorem flush_team (s : ICPCSystem) (n : String) :
    Team.sim ((flush s).1.team n)
      { (s.team n).calculate_stats s.problem_count with
        ranking := ((flush s).1.team n).ranking } := by
  simp only [flush]
  rw [assign_rankings_team]
  have h := update_all_stats_sim s n
  exact ⟨h.1, h.2.1, h.2.2.1, h.2.2.2.1, h.2.2.2.2.1, rfl, h.2.2.2.2.2.2⟩

/-- C7: after `flush` on a state with `n` registered teams, the ranks of the
registered teams are the numbers `1..n`, each used once; every team carries freshly
derived statistics; and of two registered teams the one with the smaller rank is the
one that the comparator puts first. -/
theorem flush_ranks (s : ICPCSystem) (h : Registered s) :
    (flush s).1.team_names = s.team_names ∧
    (s.team_names.map (fun n => ((flush s).1.team n).ranking)).Perm
      ((List.range s.team_names.length).map (fun (i : Nat) => (i : Int) + 1)) ∧
    (∀ n,
      ((flush s).1.team n).solved_count
        = ((s.team n).calculate_stats s.problem_count).solved_count ∧
      ((flush s).1.team n).penalty_time
        = ((s.team n).calculate_stats s.problem_count).penalty_time ∧
      ((flush s).1.team n).solve_times
        = ((s.team n).calculate_stats s.problem_count).solve_times) ∧
    (∀ a ∈ s.team_names, ∀ b ∈ s.team_names,
      ((flush s).1.team a).ranking < ((flush s).1.team b).ranking ↔
        Team.lt ((flush s).1.team a) ((flush s).1.team b) = true) := by
  have hnames : (update_all_stats s).team_names = s.team_names := rfl
  have hnd : (update_all_stats s).team_names.Nodup := h.1
  have hname : ∀ n ∈ (update_all_stats s).team_names, ((update_all_stats s).team n).name = n := by
    intro n hn
    rw [update_all_stats_name]
    exact h.2 n hn
  have hlen : ∀ n ∈ (update_all_stats s).team_names,
      (((update_all_stats s).team n).solve_times.length : Int)
        = ((update_all_stats s).team n).solved_count :=
    fun n _ => update_all_stats_length s n
  have hrank : ∀ n ∈ s.team_names, ((flush s).1.team n).ranking
      = ((sorted_names (update_all_stats s)).indexOf n : Int) + 1 :=
    fun n hn => assign_rankings_ranking (update_all_stats s) n hnd hn
  refine ⟨rfl, ?_, ?_, ?_⟩
  · have hperm := sorted_names_perm (update_all_stats s)
    have hsnd : (sorted_names (update_all_stats s)).Nodup := hperm.nodup_iff.2 hnd
    have e1 : s.team_names.map (fun n => ((flush s).1.team n).ranking)
        = s.team_names.map
            (fun n => ((sorted_names (update_all_stats s)).indexOf n : Int) + 1) :=
      List.map_congr_left hrank
    rw [e1]
    refine (hperm.symm.map _).trans ?_
    have e2 := map_indexOf_eq_range _ hsnd
    rw [hperm.length_eq] at e2
    rw [← hnames, ← e2, List.map_map]
    exact List.Perm.refl _
  · intro n
    have := flush_team s n
    exact ⟨this.2.2.1, this.2.2.2.1, this.2.2.2.2.1⟩
  · intro a ha b hb
    rw [hrank a ha, hrank b hb]
    have hlt : Team.lt ((flush s).1.team a) ((flush s).1.team b)
        = Team.lt ((update_all_stats s).team a) ((update_all_stats s).team b) := by
      simp only [flush]
      rw [assign_rankings_team (update_all_stats s) a, assign_rankings_team (update_all_stats s) b]
      rfl
    rw [hlt, ← lt_iff_indexOf (update_all_stats s) hname hlen a b ha hb]
    omega

theorem flush_ranks_witness :
    Registered demo_running ∧
    (demo_running.team_names.map (fun n => ((flush demo_running).1.team n).ranking)).Perm
      ((List.range demo_running.team_names.length).map (fun (i : Nat) => (i : Int) + 1)) :=
  ⟨by unfold Registered; decide,
   (flush_ranks demo_running (by unfold Registered; decide)).2.1⟩

theorem system_sim_refl (a : ICPCSystem) : ICPCSystem.sim a a :=
  ⟨rfl, rfl, rfl, rfl, rfl, fun _ => team_sim_refl _⟩

theorem system_sim_symm {a b : ICPCSystem} (h : ICPCSystem.sim a b) : ICPCSystem.sim b a :=
  ⟨h.1.symm, h.2.1.symm, h.2.2.1.symm, h.2.2.2.1.symm, h.2.2.2.2.1.symm,
    fun n => team_sim_symm (h.2.2.2.2.2 n)⟩

theorem system_sim_trans {a b c : ICPCSystem} (h : ICPCSystem.sim a b)
    (h' : ICPCSystem.sim b c) : ICPCSystem.sim a c :=
  ⟨h.1.trans h'.1, h.2.1.trans h'.2.1, h.2.2.1.trans h'.2.2.1, h.2.2.2.1.trans h'.2.2.2.1,
    h.2.2.2.2.1.trans h'.2.2.2.2.1, fun n => team_sim_trans (h.2.2.2.2.2 n) (h'.2.2.2.2.2 n)⟩

theorem system_sim_status {a b : ICPCSystem} (h : ICPCSystem.sim a b) (n : String) (p : Nat) :
    a.status n p = b.status n p :=
  (h.2.2.2.2.2 n).2.2.2.2.2.2 p

theorem system_sim_ranking {a b : ICPCSystem} (h : ICPCSystem.sim a b) (n : String) :
    (a.team n).ranking = (b.team n).ranking :=
  (h.2.2.2.2.2 n).2.2.2.2.2.1

theorem map_modify_sim (m : List (String × Team)) (k : String) (f : Team → Team)
    (hf : ∀ t, Team.sim (f t) t) (n : String) :
    Team.sim (map_get (map_modify m k f) n) (map_get m n) := by
  rw [map_get_modify]
  split
  · next h => subst h; exact hf _
  · exact team_sim_refl _

theorem touch_problems_sim (t : Team) (m : List (Nat × ProblemStatus))
    (h : ∀ p, map_get m p = map_get t.problems p) : Team.sim { t with problems := m } t :=
  ⟨rfl, rfl, rfl, rfl, rfl, rfl, h⟩

/-! ### `print_scoreboard` -/

theorem print_row_fold (ls : List Nat) (t : Team) (str : String) :
    (ls.foldl
      (fun (acc : Team × String) p =>
        let probs := map_touch acc.1.problems p
        ({ acc.1 with problems := probs }, acc.2 ++ " " ++ cell (map_get probs p)))
      (t, str)).1 = { t with problems := ls.foldl map_touch t.problems } := by
  induction ls generalizing t str with
  | nil => rfl
  | cons p ls ih =>
    simp only [List.foldl_cons]
    rw [ih]

theorem print_row_sim (t : Team) (pc : Int) : Team.sim (print_row t pc).1 t := by
  unfold print_row
  rw [print_row_fold]
  exact touch_problems_sim _ _ (fun p => map_get_foldl_touch _ _ _)

theorem print_loop_sim (pc : Int) (l : List String) (teams : List (String × Team)) (n : String) :
    Team.sim (map_get (print_loop pc l teams).1 n) (map_get teams n) := by
  induction l generalizing teams with
  | nil => exact team_sim_refl _
  | cons a l ih =>
    simp only [print_loop]
    exact team_sim_trans (ih _) (map_modify_sim _ _ _ (fun t => print_row_sim t pc) n)

theorem print_scoreboard_sim (s : ICPCSystem) : ICPCSystem.sim (print_scoreboard s).1 s := by
  refine ⟨rfl, rfl, rfl, rfl, rfl, fun n => ?_⟩
  have h := print_loop_sim s.problem_count (get_sorted_teams s).2 (get_sorted_teams s).1.teams n
  have h2 := get_sorted_teams_team s n
  simp only [ICPCSystem.team] at h2 ⊢
  simp only [print_scoreboard]
  rw [← h2]
  exact h

/-! ### the selection of `scroll` -/

theorem has_frozen_loop_spec (ls : List Nat) (m : List (Nat × ProblemStatus)) :
    (∀ p, map_get (has_frozen_loop ls m).1 p = map_get m p) ∧
    (has_frozen_loop ls m).2 = ls.any (fun p => (map_get m p).is_frozen) := by
  induction ls generalizing m with
  | nil => exact ⟨fun _ => rfl, rfl⟩
  | cons q ls ih =>
    simp only [has_frozen_loop, map_get_touch, List.any_cons]
    cases hq : (map_get m q).is_frozen with
    | true => simp [map_get_touch]
    | false =>
      simp only [Bool.false_eq_true, if_false, Bool.false_or]
      have := ih (map_touch m q)
      simp only [map_get_touch] at this
      exact this

theorem select_visit_spec (pc : Int) (teams : List (String × Team)) (a : String) :
    (∀ n, Team.sim (map_get (select_visit pc teams a).1 n) (map_get teams n)) ∧
    (select_visit pc teams a).2
      = (letters pc).any (fun p => (map_get (map_get teams a).problems p).is_frozen) := by
  constructor
  · intro n
    simp only [select_visit]
    rw [map_get_modify]
    split
    · next h =>
      subst h
      rw [map_get_touch]
      exact touch_problems_sim _ _ (has_frozen_loop_spec _ _).1
    · rw [map_get_touch]
      exact team_sim_refl _
  · simp only [select_visit]
    rw [(has_frozen_loop_spec _ _).2, map_get_touch]

theorem select_loop_spec (pc : Int) (l : List String) (teams : List (String × Team))
    (low : Int) (tgt : Option String) :
    (∀ n, Team.sim (map_get (select_loop pc l teams low tgt).1 n) (map_get teams n)) ∧
    (select_loop pc l teams low tgt).2 =
      select_pure (fun n => (map_get teams n).ranking)
        (fun n => (letters pc).any (fun p => (map_get (map_get teams n).problems p).is_frozen))
        l low tgt := by
  induction l generalizing teams low tgt with
  | nil => exact ⟨fun _ => team_sim_refl _, rfl⟩
  | cons a l ih =>
    have hsim := (select_visit_spec pc teams a).1
    have hflag := (select_visit_spec pc teams a).2
    have hrank : (fun n => (map_get (select_visit pc teams a).1 n).ranking)
        = (fun n => (map_get teams n).ranking) := by
      funext n
      exact (hsim n).2.2.2.2.2.1
    have hhid : (fun n => (letters pc).any (fun p =>
          (map_get (map_get (select_visit pc teams a).1 n).problems p).is_frozen))
        = (fun n => (letters pc).any (fun p => (map_get (map_get teams n).problems p).is_frozen)) := by
      funext n
      congr 1
      funext p
      rw [(hsim n).2.2.2.2.2.2 p]
    simp only [select_loop, select_pure]
    rw [hflag, (hsim a).2.2.2.2.2.1]
    split
    · have := ih (select_visit pc teams a).1 (map_get teams a).ranking (some a)
      rw [hrank, hhid] at this
      exact ⟨fun n => team_sim_trans (this.1 n) (hsim n), this.2⟩
    · have := ih (select_visit pc teams a).1 low tgt
      rw [hrank, hhid] at this
      exact ⟨fun n => team_sim_trans (this.1 n) (hsim n), this.2⟩

theorem select_pure_spec (rank : String → Int) (hid : String → Bool) (l : List String)
    (low : Int) (tgt : Option String) :
    (select_pure rank hid l low tgt = tgt ∧ ∀ n ∈ l, hid n = true → rank n ≤ low) ∨
    (∃ t ∈ l, select_pure rank hid l low tgt = some t ∧ hid t = true ∧ rank t > low ∧
      ∀ n ∈ l, hid n = true → rank n ≤ rank t) := by
  induction l generalizing low tgt with
  | nil => exact Or.inl ⟨rfl, by simp⟩
  | cons a l ih =>
    simp only [select_pure]
    by_cases hc : (hid a && decide (rank a > low)) = true
    · simp only [hc, if_true]
      simp only [Bool.and_eq_true, decide_eq_true_eq] at hc
      rcases ih (rank a) (some a) with ⟨h1, h2⟩ | ⟨t, ht, h1, h2, h3, h4⟩
      · refine Or.inr ⟨a, List.mem_cons_self _ _, h1, hc.1, hc.2, ?_⟩
        intro n hn hh
        rcases List.mem_cons.1 hn with rfl | hn
        · exact le_refl _
        · exact h2 n hn hh
      · refine Or.inr ⟨t, List.mem_cons_of_mem _ ht, h1, h2, by omega, ?_⟩
        intro n hn hh
        rcases List.mem_cons.1 hn with rfl | hn
        · omega
        · exact h4 n hn hh
    · simp only [hc, if_false]
      have hc' : hid a = true → rank a ≤ low := by
        intro hh
        simp only [hh, Bool.true_and, decide_eq_true_eq, not_lt] at hc
        exact hc
      rcases ih low tgt with ⟨h1, h2⟩ | ⟨t, ht, h1, h2, h3, h4⟩
      · refine Or.inl ⟨h1, ?_⟩
        intro n hn hh
        rcases List.mem_cons.1 hn with rfl | hn
        · exact hc' hh
        · exact h2 n hn hh
      · refine Or.inr ⟨t, List.mem_cons_of_mem _ ht, h1, h2, h3, ?_⟩
        intro n hn hh
        rcases List.mem_cons.1 hn with rfl | hn
        · have := hc' hh
          omega
        · exact h4 n hn hh

theorem scroll_select_sim (s : ICPCSystem) : ICPCSystem.sim (scroll_select s).1 s :=
  ⟨rfl, rfl, rfl, rfl, rfl, fun n => (select_loop_spec _ _ _ _ _).1 n⟩

theorem scroll_select_eq (s : ICPCSystem) :
    (scroll_select s).2 =
      select_pure (fun n => (s.team n).ranking) (has_hidden s) s.team_names 0 none :=
  (select_loop_spec _ _ _ _ _).2

theorem letters_sorted (pc : Int) : (letters pc).Pairwise (fun a b => a < b) := by
  unfold letters
  rw [List.pairwise_map]
  exact (List.pairwise_lt_range _).imp (fun h => by omega)

theorem unfreeze_prob_loop_get (ls : List Nat) (m : List (Nat × ProblemStatus)) (p : Nat) :
    map_get (unfreeze_prob_loop ls m).1 p = map_get m p := by
  induction ls generalizing m with
  | nil => rfl
  | cons q ls ih =>
    simp only [unfreeze_prob_loop]
    split
    · exact map_get_touch _ _ _
    · rw [ih, map_get_touch]

theorem unfreeze_prob_loop_spec (ls : List Nat) (m : List (Nat × ProblemStatus))
    (hs : ls.Pairwise (fun a b => a < b)) (h : ∃ p ∈ ls, (map_get m p).is_frozen = true) :
    (unfreeze_prob_loop ls m).2 ∈ ls ∧
    (map_get m (unfreeze_prob_loop ls m).2).is_frozen = true ∧
    ∀ q ∈ ls, (map_get m q).is_frozen = true → (unfreeze_prob_loop ls m).2 ≤ q := by
  induction ls generalizing m with
  | nil => simp at h
  | cons x ls ih =>
    rw [List.pairwise_cons] at hs
    simp only [unfreeze_prob_loop, map_get_touch]
    by_cases hx : (map_get m x).is_frozen = true
    · simp only [hx, if_true]
      refine ⟨List.mem_cons_self _ _, trivial, ?_⟩
      intro q hq _
      rcases List.mem_cons.1 hq with rfl | hq
      · exact le_refl _
      · exact le_of_lt (hs.1 q hq)
    · simp only [hx, if_false]
      have h' : ∃ p ∈ ls, (map_get (map_touch m x) p).is_frozen = true := by
        obtain ⟨p, hp, hf⟩ := h
        rcases List.mem_cons.1 hp with rfl | hp
        · exact absurd hf hx
        · exact ⟨p, hp, by rw [map_get_touch]; exact hf⟩
      have := ih (map_touch m x) hs.2 h'
      simp only [map_get_touch] at this
      refine ⟨List.mem_cons_of_mem _ this.1, this.2.1, ?_⟩
      intro q hq hf
      rcases List.mem_cons.1 hq with rfl | hq
      · exact absurd hf hx
      · exact this.2.2 q hq hf

theorem replay_not_frozen (ps : ProblemStatus) :
    (replay ps).is_frozen = false ∧ (replay ps).frozen_subs = [] := ⟨rfl, rfl⟩

/-! ### the reveal -/

theorem reveal_team_fields (pc : Int) (t : Team) :
    (reveal_team pc t).name = t.name ∧ (reveal_team pc t).all_submissions = t.all_submissions ∧
    (reveal_team pc t).ranking = t.ranking := by
  simp only [reveal_team, replay_target]
  rw [calculate_stats_eq]
  exact ⟨rfl, rfl, rfl⟩

theorem reveal_team_get (pc : Int) (t : Team) (q : Nat) :
    map_get (reveal_team pc t).problems q =
      if q = (unfreeze_prob_loop (letters pc) t.problems).2 then replay (map_get t.problems q)
      else map_get t.problems q := by
  simp only [reveal_team, replay_target]
  rw [calculate_stats_get]
  simp only []
  rw [map_get_modify]
  split
  · next h => rw [unfreeze_prob_loop_get, ← h]
  · rw [unfreeze_prob_loop_get]

theorem reveal_team_length (pc : Int) (t : Team) :
    ((reveal_team pc t).solve_times.length : Int) = (reveal_team pc t).solved_count := by
  simp only [reveal_team]
  exact calculate_stats_length _ _

theorem reveal_target_team (s : ICPCSystem) (tgt n : String) :
    (reveal_target s tgt).team n =
      if n = tgt then reveal_team s.problem_count (s.team n) else s.team n := by
  simp only [reveal_target, ICPCSystem.team, map_get_modify]
  split
  · next h => subst h; rfl
  · rfl

theorem reveal_target_status (s : ICPCSystem) (tgt n : String) (q : Nat) :
    (reveal_target s tgt).status n q =
      if n = tgt ∧ q = unfreeze_prob s tgt then replay (s.status n q) else s.status n q := by
  simp only [ICPCSystem.status, reveal_target_team, unfreeze_prob]
  by_cases h : n = tgt
  · subst h
    simp only [if_true, reveal_team_get, true_and]
  · simp [h]

theorem replaced_loop_get (rank : Int) (l : List String) (teams : List (String × Team))
    (n : String) : map_get (replaced_loop rank l teams).1 n = map_get teams n := by
  induction l generalizing teams with
  | nil => rfl
  | cons a l ih =>
    simp only [replaced_loop]
    split
    · exact map_get_touch _ _ _
    · rw [ih, map_get_touch]

theorem replaced_loop_spec (rank : Int) (l : List String) (teams : List (String × Team)) :
    ((∃ n ∈ l, (map_get teams n).ranking = rank + 1) →
      (replaced_loop rank l teams).2 ∈ l ∧
      (map_get teams (replaced_loop rank l teams).2).ranking = rank + 1) ∧
    ((∀ n ∈ l, (map_get teams n).ranking ≠ rank + 1) → (replaced_loop rank l teams).2 = "") := by
  induction l generalizing teams with
  | nil => simp [replaced_loop]
  | cons a l ih =>
    simp only [replaced_loop, map_get_touch]
    by_cases ha : (map_get teams a).ranking = rank + 1
    · simp only [ha, if_true]
      exact ⟨fun _ => ⟨List.mem_cons_self _ _, trivial⟩,
        fun h => absurd ha (h a (List.mem_cons_self _ _))⟩
    · simp only [ha, if_false]
      have := ih (map_touch teams a)
      simp only [map_get_touch] at this
      constructor
      · rintro ⟨n, hn, hr⟩
        rcases List.mem_cons.1 hn with rfl | hn
        · exact absurd hr ha
        · have h2 := this.1 ⟨n, hn, hr⟩
          exact ⟨List.mem_cons_of_mem _ h2.1, h2.2⟩
      · intro h
        exact this.2 (fun n hn => h n (List.mem_cons_of_mem _ hn))

theorem scroll_reveal_team (s : ICPCSystem) (tgt n : String) :
    (scroll_reveal s tgt).1.team n = (assign_rankings (reveal_target s tgt)).team n := by
  simp only [scroll_reveal]
  split
  · simp only [ICPCSystem.team]
    exact replaced_loop_get _ _ _ _
  · rfl

theorem scroll_reveal_fields (s : ICPCSystem) (tgt : String) :
    (scroll_reveal s tgt).1.team_names = s.team_names ∧
    (scroll_reveal s tgt).1.competition_started = s.competition_started ∧
    (scroll_reveal s tgt).1.is_frozen = s.is_frozen ∧
    (scroll_reveal s tgt).1.duration_time = s.duration_time ∧
    (scroll_reveal s tgt).1.problem_count = s.problem_count := by
  simp only [scroll_reveal]
  split <;> exact ⟨rfl, rfl, rfl, rfl, rfl⟩

theorem scroll_reveal_letter (s : ICPCSystem) (tgt : String) :
    (scroll_reveal s tgt).2.2 = unfreeze_prob s tgt := by
  simp only [scroll_reveal, unfreeze_prob, ICPCSystem.team]
  split <;> rfl

theorem scroll_reveal_status (s : ICPCSystem) (tgt n : String) (q : Nat) :
    (scroll_reveal s tgt).1.status n q =
      if n = tgt ∧ q = unfreeze_prob s tgt then replay (s.status n q) else s.status n q := by
  have h := scroll_reveal_team s tgt n
  simp only [ICPCSystem.status] at h ⊢
  rw [h]
  exact (assign_rankings_status _ n q).trans (reveal_target_status s tgt n q)

theorem has_hidden_iff (s : ICPCSystem) (n : String) :
    has_hidden s n = true ↔ ∃ p ∈ letters s.problem_count, (s.status n p).is_frozen = true := by
  simp [has_hidden, List.any_eq_true]

theorem has_hidden_congr {a b : ICPCSystem} (h : ICPCSystem.sim a b) :
    has_hidden a = has_hidden b := by
  funext n
  simp only [has_hidden, h.2.2.2.2.1]
  congr 1
  funext p
  rw [system_sim_status h]

theorem RankInv_congr {a b : ICPCSystem} (h : ICPCSystem.sim a b) (hb : RankInv b) : RankInv a := by
  unfold RankInv at hb ⊢
  simp only [h.1, system_sim_ranking h]
  exact hb

theorem assign_rankings_RankInv (s : ICPCSystem) : RankInv (assign_rankings s) := by
  refine ⟨fun n hn => assign_rankings_bounds s n hn,
    fun a ha b hb e => assign_rankings_inj s a b ha hb e, fun hnd => ?_⟩
  · intro k hk
    have hnd' : s.team_names.Nodup := hnd
    have hk' : k < (sorted_names s).length := by
      rw [(sorted_names_perm s).length_eq]; exact hk
    have hsnd : (sorted_names s).Nodup := (sorted_names_perm s).nodup_iff.2 hnd'
    have hmem : (sorted_names s)[k] ∈ s.team_names :=
      (sorted_names_perm s).mem_iff.1 (List.getElem_mem hk')
    refine ⟨(sorted_names s)[k], hmem, ?_⟩
    rw [assign_rankings_ranking s _ hnd' hmem, List.indexOf_getElem hsnd k hk']

theorem scroll_init_sim (s : ICPCSystem) :
    ICPCSystem.sim (scroll_init s).1 (assign_rankings (update_all_stats s)) :=
  print_scoreboard_sim _

theorem scroll_reveal_sim (s : ICPCSystem) (tgt : String) :
    ICPCSystem.sim (scroll_reveal s tgt).1 (assign_rankings (reveal_target s tgt)) := by
  have h := scroll_reveal_fields s tgt
  refine ⟨h.1, h.2.1, h.2.2.1, h.2.2.2.1, h.2.2.2.2, fun n => ?_⟩
  rw [scroll_reveal_team]
  exact team_sim_refl _

theorem scroll_reveal_RankInv (s : ICPCSystem) (tgt : String) :
    RankInv (scroll_reveal s tgt).1 :=
  RankInv_congr (scroll_reveal_sim s tgt) (assign_rankings_RankInv _)

theorem ScrollHead_inv (s0 s : ICPCSystem) (h : ScrollHead s0 s) :
    s.team_names = s0.team_names ∧ s.problem_count = s0.problem_count ∧
    s.is_frozen = s0.is_frozen ∧ RankInv s := by
  induction h with
  | init =>
    have h := scroll_init_sim s0
    exact ⟨h.1, h.2.2.2.2.1, h.2.2.1, RankInv_congr h (assign_rankings_RankInv _)⟩
  | @step s target _ _ ih =>
    have h1 := scroll_reveal_fields (scroll_select s).1 target
    have h2 := scroll_select_sim s
    exact ⟨h1.1.trans (h2.1.trans ih.1), h1.2.2.2.2.trans (h2.2.2.2.2.1.trans ih.2.1),
      h1.2.2.1.trans (h2.2.2.1.trans ih.2.2.1), scroll_reveal_RankInv _ _⟩

/-! ### what the selection returns -/

theorem scroll_select_none_iff (s : ICPCSystem)
    (hpos : ∀ n ∈ s.team_names, 1 ≤ (s.team n).ranking) :
    (scroll_select s).2 = none ↔ ∀ n ∈ s.team_names, has_hidden s n = false := by
  rw [scroll_select_eq]
  rcases select_pure_spec (fun n => (s.team n).ranking) (has_hidden s) s.team_names 0 none with
    ⟨h1, h2⟩ | ⟨t, ht, h1, h2, h3, _⟩
  · rw [h1]
    simp only [true_iff]
    intro n hn
    cases hh : has_hidden s n with
    | false => rfl
    | true =>
      have := h2 n hn hh
      have := hpos n hn
      omega
  · rw [h1]
    simp only [reduceCtorEq, false_iff, not_forall]
    exact ⟨t, ht, by simp [h2]⟩

theorem scroll_select_some (s : ICPCSystem) (tgt : String) (h : (scroll_select s).2 = some tgt) :
    tgt ∈ s.team_names ∧ has_hidden s tgt = true ∧
    ∀ n ∈ s.team_names, has_hidden s n = true → (s.team n).ranking ≤ (s.team tgt).ranking := by
  rw [scroll_select_eq] at h
  rcases select_pure_spec (fun n => (s.team n).ranking) (has_hidden s) s.team_names 0 none with
    ⟨h1, _⟩ | ⟨t, ht, h1, h2, _, h4⟩
  · rw [h1] at h; simp at h
  · rw [h1] at h
    simp only [Option.some.injEq] at h
    subst h
    exact ⟨ht, h2, h4⟩

theorem unfreeze_prob_spec (s : ICPCSystem) (n : String) (h : has_hidden s n = true) :
    unfreeze_prob s n ∈ letters s.problem_count ∧
    (s.status n (unfreeze_prob s n)).is_frozen = true ∧
    ∀ q ∈ letters s.problem_count, (s.status n q).is_frozen = true → unfreeze_prob s n ≤ q :=
  unfreeze_prob_loop_spec _ _ (letters_sorted _) ((has_hidden_iff s n).1 h)

theorem unfreeze_prob_congr {a b : ICPCSystem} (h : ICPCSystem.sim a b) (n : String)
    (hh : has_hidden b n = true) : unfreeze_prob a n = unfreeze_prob b n := by
  have ha := unfreeze_prob_spec a n (by rw [has_hidden_congr h]; exact hh)
  have hb := unfreeze_prob_spec b n hh
  rw [h.2.2.2.2.1] at ha
  simp only [system_sim_status h] at ha
  exact le_antisymm (ha.2.2 _ hb.1 hb.2.1) (hb.2.2 _ ha.1 ha.2.1)

theorem has_hidden_false_iff (s : ICPCSystem) (n : String) :
    has_hidden s n = false ↔ ∀ p ∈ letters s.problem_count, (s.status n p).is_frozen = false := by
  rw [← Bool.not_eq_true, has_hidden_iff]
  simp

/-- The reveal of one pass, read from the state `s` at the loop head. -/
theorem scroll_pass_status (s : ICPCSystem) (tgt : String) (h : (scroll_select s).2 = some tgt)
    (n : String) (q : Nat) :
    (scroll_reveal (scroll_select s).1 tgt).2.2 = unfreeze_prob s tgt ∧
    (scroll_reveal (scroll_select s).1 tgt).1.status n q =
      if n = tgt ∧ q = unfreeze_prob s tgt then replay (s.status n q) else s.status n q := by
  have hsim := scroll_select_sim s
  have hh := (scroll_select_some s tgt h).2.1
  have hu := unfreeze_prob_congr hsim tgt hh
  rw [scroll_reveal_letter, scroll_reveal_status, hu, system_sim_status hsim]
  exact ⟨rfl, rfl⟩

/-- C1: at every head of the loop of `scroll` the selection returns no team exactly
when no registered team has a frozen problem among the active letters; otherwise it
returns the registered team with a frozen active problem whose rank number is the
largest, and the pass reveals the smallest frozen letter of that team and no other
problem. -/
theorem scroll_selects_lowest_rank (s0 s : ICPCSystem) (hs : ScrollHead s0 s) :
    ((scroll_select s).2 = none ↔
      ∀ n ∈ s.team_names, ∀ p ∈ letters s.problem_count, (s.status n p).is_frozen = false) ∧
    (∀ target, (scroll_select s).2 = some target →
      target ∈ s.team_names ∧
      (∃ p ∈ letters s.problem_count, (s.status target p).is_frozen = true) ∧
      (∀ n ∈ s.team_names, n ≠ target →
        (∃ p ∈ letters s.problem_count, (s.status n p).is_frozen = true) →
        (s.team n).ranking < (s.team target).ranking) ∧
      (scroll_reveal (scroll_select s).1 target).2.2 ∈ letters s.problem_count ∧
      (s.status target (scroll_reveal (scroll_select s).1 target).2.2).is_frozen = true ∧
      (∀ q ∈ letters s.problem_count, (s.status target q).is_frozen = true →
        (scroll_reveal (scroll_select s).1 target).2.2 ≤ q) ∧
      (∀ n q, (scroll_reveal (scroll_select s).1 target).1.status n q =
        if n = target ∧ q = (scroll_reveal (scroll_select s).1 target).2.2
        then replay (s.status n q) else s.status n q)) := by
  have hinv := ScrollHead_inv s0 s hs
  have hrank := hinv.2.2.2
  constructor
  · rw [scroll_select_none_iff s (fun n hm => (hrank.1 n hm).1)]
    exact forall₂_congr (fun n _ => has_hidden_false_iff s n)
  · intro target ht
    have hsel := scroll_select_some s target ht
    have hu := unfreeze_prob_spec s target hsel.2.1
    have hp := fun n q => scroll_pass_status s target ht n q
    rw [(hp target 0).1]
    refine ⟨hsel.1, (has_hidden_iff s target).1 hsel.2.1, ?_, hu.1, hu.2.1, hu.2.2,
      fun n q => (hp n q).2⟩
    intro n hm hne hh
    have hle := hsel.2.2 n hm ((has_hidden_iff s n).2 hh)
    rcases lt_or_eq_of_le hle with h | h
    · exact h
    · exact absurd (hrank.2.1 n hm target hsel.1 h) hne

theorem scroll_selects_lowest_rank_witness :
    ScrollHead demo_frozen (scroll_init demo_frozen).1 ∧
    ((scroll_select (scroll_init demo_frozen).1).2 = none ↔
      ∀ n ∈ (scroll_init demo_frozen).1.team_names,
        ∀ p ∈ letters (scroll_init demo_frozen).1.problem_count,
          ((scroll_init demo_frozen).1.status n p).is_frozen = false) :=
  ⟨ScrollHead.init,
   (scroll_selects_lowest_rank demo_frozen (scroll_init demo_frozen).1 ScrollHead.init).1⟩

/-- C2: the reveal made by a pass of `scroll` replaces the status of the revealed
problem by its replay. The replay is the queue fed in arrival order through the rule
of `submit` on an unfrozen board, followed by the reset of `is_frozen` and of the
queue. On an unsolved problem whose first `Accepted` entry is at position `i` with
time `t` it gives solved at `t` with `i` more wrong attempts; without an `Accepted`
entry it gives unsolved with one more wrong attempt per entry. Two rejections
followed by an acceptance on an untouched problem print as `+2`. -/
theorem reveal_is_replay (s : ICPCSystem) (target : String) (ps : ProblemStatus) :
    ((scroll_reveal s target).1.status target (scroll_reveal s target).2.2
      = replay (s.status target (scroll_reveal s target).2.2)) ∧
    (replay ps =
      { ps.frozen_subs.foldl (fun acc sub => submit_status false sub.1 sub.2 acc) ps with
        is_frozen := false, frozen_subs := [] }) ∧
    (ps.solved = false →
      (∀ (i : Nat) (t : Int), ps.frozen_subs[i]? = some ("Accepted", t) →
        (∀ j, j < i → ∀ e, ps.frozen_subs[j]? = some e → e.1 ≠ "Accepted") →
        (replay ps).solved = true ∧ (replay ps).solve_time = t ∧
        (replay ps).wrong_attempts = ps.wrong_attempts + i) ∧
      ((∀ e ∈ ps.frozen_subs, e.1 ≠ "Accepted") →
        (replay ps).solved = false ∧
        (replay ps).wrong_attempts = ps.wrong_attempts + ps.frozen_subs.length)) ∧
    ((replay ps).is_frozen = false ∧ (replay ps).frozen_subs = []) ∧
    (∀ (v1 v2 : String) (t1 t2 t3 : Int), v1 ≠ "Accepted" → v2 ≠ "Accepted" →
      cell (replay { frozen_subs := [(v1, t1), (v2, t2), ("Accepted", t3)], is_frozen := true })
        = "+2") := by
  refine ⟨?_, ?_, ?_, replay_not_frozen ps, ?_⟩
  · rw [scroll_reveal_status, scroll_reveal_letter]
    simp
  · rw [replay_eq, replay_loop_eq_submit]
  · intro hsol
    constructor
    · intro i t hi hj
      rw [replay_eq, replay_loop_first _ _ i t hsol hi hj]
      exact ⟨rfl, rfl, rfl⟩
    · intro hnone
      rw [replay_eq, replay_loop_none _ _ hsol hnone]
      exact ⟨hsol, rfl⟩
  · intro v1 v2 t1 t2 t3 h1 h2
    rw [replay_eq]
    rw [replay_loop_first _ _ 2 t3 rfl (by simp)]
    · rfl
    · intro j hj e he
      have : j = 0 ∨ j = 1 := by omega
      rcases this with rfl | rfl
      · simp at he; subst he; exact h1
      · simp at he; subst he; exact h2

theorem scroll_reveal_out (s : ICPCSystem) (tgt : String) :
    (scroll_reveal s tgt).2.1 =
      if ((scroll_reveal s tgt).1.team tgt).ranking < (s.team tgt).ranking then
        [((scroll_reveal s tgt).1.team tgt).name ++ " "
          ++ (replaced_loop ((scroll_reveal s tgt).1.team tgt).ranking s.team_names
                (assign_rankings (reveal_target s tgt)).teams).2
          ++ " " ++ toString ((scroll_reveal s tgt).1.team tgt).solved_count
          ++ " " ++ toString ((scroll_reveal s tgt).1.team tgt).penalty_time]
      else [] := by
  rw [scroll_reveal_team]
  simp only [scroll_reveal, ICPCSystem.team]
  split
  · rfl
  · rfl

theorem calculate_stats_rerank (x : Team) (pc : Int) (i : Int) :
    (x.calculate_stats pc).solved_count
      = (Team.calculate_stats { x.calculate_stats pc with ranking := i } pc).solved_count ∧
    (x.calculate_stats pc).penalty_time
      = (Team.calculate_stats { x.calculate_stats pc with ranking := i } pc).penalty_time ∧
    (x.calculate_stats pc).solve_times
      = (Team.calculate_stats { x.calculate_stats pc with ranking := i } pc).solve_times := by
  have h := calculate_stats_congr { x.calculate_stats pc with ranking := i } x pc
    (fun p => by simp only [scores, calculate_stats_get])
    (fun p _ => by simp [calculate_stats_get])
  exact ⟨h.1.symm, h.2.1.symm, h.2.2.symm⟩

theorem scroll_reveal_target_stats (s : ICPCSystem) (tgt : String) :
    ((scroll_reveal s tgt).1.team tgt).solved_count
      = (((scroll_reveal s tgt).1.team tgt).calculate_stats s.problem_count).solved_count ∧
    ((scroll_reveal s tgt).1.team tgt).penalty_time
      = (((scroll_reveal s tgt).1.team tgt).calculate_stats s.problem_count).penalty_time ∧
    ((scroll_reveal s tgt).1.team tgt).solve_times
      = (((scroll_reveal s tgt).1.team tgt).calculate_stats s.problem_count).solve_times := by
  rw [scroll_reveal_team, assign_rankings_team, reveal_target_team]
  simp only [if_true, reveal_team]
  exact calculate_stats_rerank _ _ _

/-- C4: a pass of the loop of `scroll` writes a rank-change line exactly when the rank
of the target team after the ranks are assigned again is smaller than its rank
before the reveal; the line is the name of the target team, the name of a registered
team whose rank is now the new rank of the target plus one, and the solved count and
penalty time of the target, which are those derived from its statuses after the
reveal. No line is written when the rank did not become smaller. -/
theorem scroll_rank_change_line (s0 s : ICPCSystem) (target : String)
    (hn : s0.team_names.Nodup) (hs : ScrollHead s0 s)
    (ht : (scroll_select s).2 = some target) :
    ((scroll_reveal (scroll_select s).1 target).2.1 ≠ [] ↔
      ((scroll_reveal (scroll_select s).1 target).1.team target).ranking
        < (s.team target).ranking) ∧
    (((scroll_reveal (scroll_select s).1 target).1.team target).ranking
        < (s.team target).ranking →
      ∃ other ∈ s.team_names,
        ((scroll_reveal (scroll_select s).1 target).1.team other).ranking
          = ((scroll_reveal (scroll_select s).1 target).1.team target).ranking + 1 ∧
        (scroll_reveal (scroll_select s).1 target).2.1 =
          [((scroll_reveal (scroll_select s).1 target).1.team target).name ++ " " ++ other
            ++ " "
            ++ toString ((scroll_reveal (scroll_select s).1 target).1.team target).solved_count
            ++ " "
            ++ toString
                ((scroll_reveal (scroll_select s).1 target).1.team target).penalty_time]) ∧
    (¬ ((scroll_reveal (scroll_select s).1 target).1.team target).ranking
        < (s.team target).ranking →
      (scroll_reveal (scroll_select s).1 target).2.1 = []) ∧
    (((scroll_reveal (scroll_select s).1 target).1.team target).solved_count
      = (((scroll_reveal (scroll_select s).1 target).1.team target).calculate_stats
          s.problem_count).solved_count ∧
     ((scroll_reveal (scroll_select s).1 target).1.team target).penalty_time
      = (((scroll_reveal (scroll_select s).1 target).1.team target).calculate_stats
          s.problem_count).penalty_time) := by
  have hinv := ScrollHead_inv s0 s hs
  have hsim := scroll_select_sim s
  have hnd : s.team_names.Nodup := by rw [hinv.1]; exact hn
  have hsel := scroll_select_some s target ht
  have hout := scroll_reveal_out (scroll_select s).1 target
  rw [system_sim_ranking hsim target, hsim.1] at hout
  have hstats := scroll_reveal_target_stats (scroll_select s).1 target
  rw [hsim.2.2.2.2.1] at hstats
  refine ⟨?_, ?_, ?_, ⟨hstats.1, hstats.2.1⟩⟩
  · rw [hout]
    split <;> simp [*]
  · intro hlt
    rw [hout, if_pos hlt]
    have hR := scroll_reveal_RankInv (scroll_select s).1 target
    have hnames : (scroll_reveal (scroll_select s).1 target).1.team_names = s.team_names :=
      (scroll_reveal_fields _ _).1.trans hsim.1
    have hnd' : (scroll_reveal (scroll_select s).1 target).1.team_names.Nodup := by
      rw [hnames]; exact hnd
    have hnew := hR.1 target (by rw [hnames]; exact hsel.1)
    have hold := hinv.2.2.2.1 target hsel.1
    obtain ⟨w, hw, hwr⟩ := hR.2.2 hnd'
      (((scroll_reveal (scroll_select s).1 target).1.team target).ranking).toNat
      (by rw [hnames]; omega)
    rw [hnames] at hw
    have hwr' : ((scroll_reveal (scroll_select s).1 target).1.team w).ranking
        = ((scroll_reveal (scroll_select s).1 target).1.team target).ranking + 1 := by
      rw [hwr]; omega
    have hex : ∃ n ∈ s.team_names,
        (map_get (assign_rankings (reveal_target (scroll_select s).1 target)).teams n).ranking
          = ((scroll_reveal (scroll_select s).1 target).1.team target).ranking + 1 := by
      refine ⟨w, hw, ?_⟩
      rw [← hwr', scroll_reveal_team]
      rfl
    have hrep := (replaced_loop_spec _ _ _).1 hex
    refine ⟨_, hrep.1, ?_, rfl⟩
    rw [scroll_reveal_team (scroll_select s).1 target
      (replaced_loop _ s.team_names _).2]
    exact hrep.2
  · intro hlt
    rw [hout, if_neg hlt]

theorem scroll_rank_change_line_witness :
    demo_frozen.team_names.Nodup ∧
    ScrollHead demo_frozen (scroll_init demo_frozen).1 ∧
    (scroll_select (scroll_init demo_frozen).1).2 = some "B" ∧
    ((scroll_reveal (scroll_select (scroll_init demo_frozen).1).1 "B").2.1 ≠ [] ↔
      ((scroll_reveal (scroll_select (scroll_init demo_frozen).1).1 "B").1.team "B").ranking
        < ((scroll_init demo_frozen).1.team "B").ranking) :=
  ⟨by decide, ScrollHead.init, by decide,
   (scroll_rank_change_line demo_frozen (scroll_init demo_frozen).1 "B" (by decide)
      ScrollHead.init (by decide)).1⟩

theorem filter_length_flip {α : Type} [DecidableEq α] (l : List α) (P Q : α → Bool) (x : α)
    (hnd : l.Nodup) (hx : x ∈ l) (hP : P x = true) (hQ : Q x = false)
    (h : ∀ y ∈ l, y ≠ x → Q y = P y) : (l.filter P).length = (l.filter Q).length + 1 := by
  induction l with
  | nil => simp at hx
  | cons a l ih =>
    rw [List.nodup_cons] at hnd
    by_cases hax : a = x
    · subst hax
      have e : l.filter Q = l.filter P := by
        apply List.filter_congr
        intro y hy
        exact h y (List.mem_cons_of_mem _ hy) (fun e => hnd.1 (e ▸ hy))
      simp [List.filter_cons, hP, hQ, e]
    · have hxl : x ∈ l := by
        rcases List.mem_cons.1 hx with e | e
        · exact absurd e.symm hax
        · exact e
      have := ih hnd.2 hxl (fun y hy => h y (List.mem_cons_of_mem _ hy))
      have ha := h a (List.mem_cons_self _ _) hax
      simp only [List.filter_cons, ha]
      split <;> simp [this]

theorem hidden_pairs_nil_iff (s : ICPCSystem) :
    hidden_pairs s = [] ↔ ∀ n ∈ s.team_names, has_hidden s n = false := by
  simp only [hidden_pairs, List.filter_eq_nil_iff, Prod.forall, List.pair_mem_product,
    has_hidden_false_iff, List.mem_dedup]
  constructor
  · intro h n hn p hp
    simpa using h n p ⟨hn, hp⟩
  · intro h n p hnp
    simpa using h n hnp.1 p hnp.2

theorem hidden_pairs_congr {a b : ICPCSystem} (h : ICPCSystem.sim a b) :
    hidden_pairs a = hidden_pairs b := by
  simp only [hidden_pairs, h.1, h.2.2.2.2.1]
  congr 1
  funext np
  rw [system_sim_status h]

theorem scroll_pass_hidden (s : ICPCSystem) (tgt : String)
    (h : (scroll_select s).2 = some tgt) :
    (hidden_pairs s).length
      = (hidden_pairs (scroll_reveal (scroll_select s).1 tgt).1).length + 1 := by
  have hsim := scroll_select_sim s
  have hsel := scroll_select_some s tgt h
  have hu := unfreeze_prob_spec s tgt hsel.2.1
  have hf := scroll_reveal_fields (scroll_select s).1 tgt
  simp only [hidden_pairs, hf.1, hf.2.2.2.2, hsim.1, hsim.2.2.2.2.1]
  apply filter_length_flip _ _ _ (tgt, unfreeze_prob s tgt)
    ((List.nodup_dedup _).product (letters_nodup _))
    (List.pair_mem_product.2 ⟨List.mem_dedup.2 hsel.1, hu.1⟩)
  · exact hu.2.1
  · simp only []
    rw [(scroll_pass_status s tgt h _ _).2]
    simp [replay]
  · rintro ⟨n, q⟩ _ hne
    simp only []
    rw [(scroll_pass_status s tgt h _ _).2, if_neg]
    rintro ⟨rfl, rfl⟩
    exact hne rfl

theorem scroll_loop_none (fuel : Nat) (s : ICPCSystem) (h : (scroll_select s).2 = none) :
    scroll_loop (fuel + 1) s = some ⟨(scroll_select s).1, [], []⟩ := by
  rcases hs : scroll_select s with ⟨s1, o⟩
  rw [hs] at h
  simp only at h
  subst h
  simp only [scroll_loop, hs]

theorem scroll_loop_some (fuel : Nat) (s : ICPCSystem) (tgt : String)
    (h : (scroll_select s).2 = some tgt) :
    scroll_loop (fuel + 1) s =
      match scroll_loop fuel (scroll_reveal (scroll_select s).1 tgt).1 with
      | none => none
      | some run =>
        some ⟨run.state, (scroll_reveal (scroll_select s).1 tgt).2.1 ++ run.out,
          (tgt, (scroll_reveal (scroll_select s).1 tgt).2.2) :: run.reveals⟩ := by
  rcases hs : scroll_select s with ⟨s1, o⟩
  rw [hs] at h
  simp only at h
  subst h
  simp only [scroll_loop, hs]

theorem scroll_loop_terminates (k : Nat) : ∀ (s : ICPCSystem) (fuel : Nat),
    RankInv s → (hidden_pairs s).length = k → k < fuel →
    ∃ run, scroll_loop fuel s = some run ∧ run.reveals.length = k ∧
      run.state.team_names = s.team_names ∧ run.state.problem_count = s.problem_count ∧
      run.state.is_frozen = s.is_frozen ∧
      (∀ n ∈ s.team_names, ∀ p ∈ letters s.problem_count,
        (run.state.status n p).is_frozen = false) ∧
      (∀ n ∈ s.team_names, ∀ p ∈ letters s.problem_count,
        ((s.status n p).is_frozen = true ∨ (s.status n p).frozen_subs = []) →
        (run.state.status n p).frozen_subs = []) := by
  induction k with
  | zero =>
    intro s fuel hr hk hf
    obtain ⟨f, rfl⟩ : ∃ f, fuel = f + 1 := ⟨fuel - 1, by omega⟩
    have hnil : hidden_pairs s = [] := List.length_eq_zero.1 hk
    have hno := (hidden_pairs_nil_iff s).1 hnil
    have hsel : (scroll_select s).2 = none :=
      (scroll_select_none_iff s (fun n hn => (hr.1 n hn).1)).2 hno
    have hsim := scroll_select_sim s
    refine ⟨_, scroll_loop_none f s hsel, rfl, hsim.1, hsim.2.2.2.2.1, hsim.2.2.1, ?_, ?_⟩
    · intro n hn p hp
      simp only []
      rw [system_sim_status hsim]
      exact (has_hidden_false_iff s n).1 (hno n hn) p hp
    · intro n hn p hp hq
      simp only []
      rw [system_sim_status hsim]
      rcases hq with hq | hq
      · rw [(has_hidden_false_iff s n).1 (hno n hn) p hp] at hq
        simp at hq
      · exact hq
  | succ k ih =>
    intro s fuel hr hk hf
    obtain ⟨f, rfl⟩ : ∃ f, fuel = f + 1 := ⟨fuel - 1, by omega⟩
    have hsome : ∃ tgt, (scroll_select s).2 = some tgt := by
      cases hsel : (scroll_select s).2 with
      | some t => exact ⟨t, rfl⟩
      | none =>
        have := (hidden_pairs_nil_iff s).2
          ((scroll_select_none_iff s (fun n hn => (hr.1 n hn).1)).1 hsel)
        rw [this] at hk
        simp at hk
    obtain ⟨tgt, hsel⟩ := hsome
    have hsim := scroll_select_sim s
    have hfl := scroll_reveal_fields (scroll_select s).1 tgt
    have hnames : (scroll_reveal (scroll_select s).1 tgt).1.team_names = s.team_names :=
      hfl.1.trans hsim.1
    have hpc : (scroll_reveal (scroll_select s).1 tgt).1.problem_count = s.problem_count :=
      hfl.2.2.2.2.trans hsim.2.2.2.2.1
    have hfr : (scroll_reveal (scroll_select s).1 tgt).1.is_frozen = s.is_frozen :=
      hfl.2.2.1.trans hsim.2.2.1
    have hcount := scroll_pass_hidden s tgt hsel
    obtain ⟨run, hrun, hlen, h1, h2, h3, h4, h5⟩ :=
      ih (scroll_reveal (scroll_select s).1 tgt).1 f
        (scroll_reveal_RankInv _ _) (by omega) (by omega)
    rw [hnames, hpc] at h4 h5
    refine ⟨⟨run.state, (scroll_reveal (scroll_select s).1 tgt).2.1 ++ run.out,
        (tgt, (scroll_reveal (scroll_select s).1 tgt).2.2) :: run.reveals⟩,
      by rw [scroll_loop_some f s tgt hsel, hrun], by simp [hlen],
      h1.trans hnames, h2.trans hpc, h3.trans hfr, h4, ?_⟩
    intro n hn p hp hq
    apply h5 n hn p hp
    rw [(scroll_pass_status s tgt hsel n p).2]
    split
    · exact Or.inr rfl
    · exact hq

/-- C3: on a frozen state with at most 26 problems `scroll` returns as soon as the
fuel exceeds the number of hidden pairs (registered team, active letter); its loop
makes exactly that many reveals; in the state it returns no registered team has a
frozen active problem, the queue of every problem that was frozen (or had an empty
queue) is empty, and the frozen flag is cleared. -/
theorem scroll_terminates (s : ICPCSystem) (fuel : Nat) (hf : s.is_frozen = true)
    (_hpc : s.problem_count ≤ 26) (hfuel : (hidden_pairs s).length < fuel) :
    ∃ run s' out,
      scroll_loop fuel (scroll_init s).1 = some run ∧
      run.reveals.length = (hidden_pairs s).length ∧
      scroll fuel s = some (s', out) ∧
      s'.is_frozen = false ∧ s'.team_names = s.team_names ∧
      s'.problem_count = s.problem_count ∧
      (∀ n ∈ s.team_names, ∀ p ∈ letters s.problem_count, (s'.status n p).is_frozen = false) ∧
      (∀ n ∈ s.team_names, ∀ p ∈ letters s.problem_count,
        ((s.status n p).is_frozen = true ∨ (s.status n p).frozen_subs = []) →
        (s'.status n p).frozen_subs = []) := by
  have hi := scroll_init_sim s
  have hst : ∀ n p, (scroll_init s).1.status n p = s.status n p := by
    intro n p
    rw [system_sim_status hi, assign_rankings_status, update_all_stats_status]
  have hnames : (scroll_init s).1.team_names = s.team_names := hi.1
  have hpc : (scroll_init s).1.problem_count = s.problem_count := hi.2.2.2.2.1
  have hhp : hidden_pairs (scroll_init s).1 = hidden_pairs s := by
    simp only [hidden_pairs, hnames, hpc]
    congr 1
    funext np
    rw [hst]
  obtain ⟨run, hrun, hlen, h1, h2, _, h4, h5⟩ :=
    scroll_loop_terminates (hidden_pairs s).length (scroll_init s).1 fuel
      (RankInv_congr hi (assign_rankings_RankInv _)) (by rw [hhp]) hfuel
  rw [hnames, hpc] at h4 h5
  have hp := print_scoreboard_sim run.state
  refine ⟨run, { (print_scoreboard run.state).1 with is_frozen := false },
    ["[Info]Scroll scoreboard."] ++ (scroll_init s).2 ++ run.out ++ (print_scoreboard run.state).2,
    hrun, hlen, ?_, rfl, ?_, ?_, ?_, ?_⟩
  · simp only [scroll, hf, Bool.not_true, Bool.false_eq_true, if_false, hrun]
  · exact hp.1.trans (h1.trans hnames)
  · exact hp.2.2.2.2.1.trans (h2.trans hpc)
  · intro n hn p hq
    have := h4 n hn p hq
    rw [← system_sim_status hp] at this
    exact this
  · intro n hn p hq hor
    have := h5 n hn p hq (by rw [hst]; exact hor)
    rw [← system_sim_status hp] at this
    exact this

theorem scroll_terminates_witness :
    demo_frozen.is_frozen = true ∧ demo_frozen.problem_count ≤ 26 ∧
    (hidden_pairs demo_frozen).length < 2 ∧
    ∃ run s' out,
      scroll_loop 2 (scroll_init demo_frozen).1 = some run ∧
      run.reveals.length = (hidden_pairs demo_frozen).length ∧
      scroll 2 demo_frozen = some (s', out) ∧
      s'.is_frozen = false ∧ s'.team_names = demo_frozen.team_names ∧
      s'.problem_count = demo_frozen.problem_count ∧
      (∀ n ∈ demo_frozen.team_names, ∀ p ∈ letters demo_frozen.problem_count,
        (s'.status n p).is_frozen = false) ∧
      (∀ n ∈ demo_frozen.team_names, ∀ p ∈ letters demo_frozen.problem_count,
        ((demo_frozen.status n p).is_frozen = true ∨ (demo_frozen.status n p).frozen_subs = []) →
        (s'.status n p).frozen_subs = []) :=
  ⟨by decide, by decide, by decide,
   scroll_terminates demo_frozen 2 (by decide) (by decide) (by decide)⟩

section KeyLemmas

variable {κ ν : Type} [DecidableEq κ] [Inhabited ν]

theorem has_key_modify (m : List (κ × ν)) (k k' : κ) (f : ν → ν) :
    has_key (map_modify m k f) k' ↔ k' = k ∨ has_key m k' := by
  unfold has_key
  by_cases h : k' = k
  · subst h
    simp [map_find_modify_self]
  · rw [map_find_modify_ne m k k' f h]
    simp [h]

theorem has_key_touch (m : List (κ × ν)) (k k' : κ) (h : has_key m k') :
    has_key (map_touch m k) k' :=
  (has_key_modify m k k' id).2 (Or.inr h)

end KeyLemmas

theorem has_key_map {κ ν : Type} [DecidableEq κ] (m : List (κ × ν)) (g : ν → ν) (k : κ) :
    has_key (m.map (fun p => (p.1, g p.2))) k ↔ has_key m k := by
  unfold has_key
  rw [map_find_map]
  simp

theorem has_key_foldl_touch (l : List String) (m : List (String × Team)) (k : String)
    (h : has_key m k) : has_key (l.foldl map_touch m) k := by
  induction l generalizing m with
  | nil => exact h
  | cons a l ih => exact ih _ (has_key_touch m a k h)

theorem has_key_assign_loop (l : List String) (i : Nat) (m : List (String × Team)) (k : String)
    (h : has_key m k) : has_key (assign_loop l i m) k := by
  induction l generalizing i m with
  | nil => exact h
  | cons a l ih => exact ih _ _ ((has_key_modify m a k _).2 (Or.inr h))

theorem has_key_print_loop (pc : Int) (l : List String) (m : List (String × Team)) (k : String)
    (h : has_key m k) : has_key (print_loop pc l m).1 k := by
  induction l generalizing m with
  | nil => exact h
  | cons a l ih => exact ih _ ((has_key_modify m a k _).2 (Or.inr h))

theorem has_key_select_loop (pc : Int) (l : List String) (m : List (String × Team))
    (low : Int) (tgt : Option String) (k : String) (h : has_key m k) :
    has_key (select_loop pc l m low tgt).1 k := by
  induction l generalizing m low tgt with
  | nil => exact h
  | cons a l ih =>
    have hv : has_key (select_visit pc m a).1 k :=
      (has_key_modify _ a k _).2 (Or.inr (has_key_touch m a k h))
    simp only [select_loop]
    split
    · exact ih _ _ _ hv
    · exact ih _ _ _ hv

theorem has_key_replaced_loop (rank : Int) (l : List String) (m : List (String × Team))
    (k : String) (h : has_key m k) : has_key (replaced_loop rank l m).1 k := by
  induction l generalizing m with
  | nil => exact h
  | cons a l ih =>
    simp only [replaced_loop]
    split
    · exact has_key_touch m a k h
    · exact ih _ (has_key_touch m a k h)

theorem has_key_assign_rankings (s : ICPCSystem) (k : String) (h : has_key s.teams k) :
    has_key (assign_rankings s).teams k :=
  has_key_assign_loop _ _ _ _ (has_key_foldl_touch _ _ _ h)

theorem has_key_print_scoreboard (s : ICPCSystem) (k : String) (h : has_key s.teams k) :
    has_key (print_scoreboard s).1.teams k :=
  has_key_print_loop _ _ _ _ (has_key_foldl_touch _ _ _ h)

theorem has_key_scroll_reveal (s : ICPCSystem) (tgt k : String) (h : has_key s.teams k) :
    has_key (scroll_reveal s tgt).1.teams k := by
  have h1 : has_key (assign_rankings (reveal_target s tgt)).teams k :=
    has_key_assign_rankings _ _ ((has_key_modify _ _ _ _).2 (Or.inr h))
  simp only [scroll_reveal]
  split
  · exact has_key_replaced_loop _ _ _ _ h1
  · exact h1

/-! ### what `scroll` keeps -/

theorem scroll_reveal_name (s : ICPCSystem) (tgt n : String) :
    ((scroll_reveal s tgt).1.team n).name = (s.team n).name := by
  rw [scroll_reveal_team, assign_rankings_team, reveal_target_team]
  split
  · exact (reveal_team_fields _ _).1
  · rfl

theorem scroll_loop_keeps (fuel : Nat) : ∀ (s : ICPCSystem) (run : ScrollRun),
    scroll_loop fuel s = some run →
    run.state.team_names = s.team_names ∧
    (∀ n, (run.state.team n).name = (s.team n).name) ∧
    (∀ k, has_key s.teams k → has_key run.state.teams k) := by
  induction fuel with
  | zero => intro s run h; simp [scroll_loop] at h
  | succ f ih =>
    intro s run h
    have hsim := scroll_select_sim s
    cases hsel : (scroll_select s).2 with
    | none =>
      rw [scroll_loop_none f s hsel] at h
      simp only [Option.some.injEq] at h
      subst h
      exact ⟨hsim.1, fun n => (hsim.2.2.2.2.2 n).1,
        fun k hk => has_key_select_loop _ _ _ _ _ _ hk⟩
    | some tgt =>
      rw [scroll_loop_some f s tgt hsel] at h
      cases hrec : scroll_loop f (scroll_reveal (scroll_select s).1 tgt).1 with
      | none => rw [hrec] at h; simp at h
      | some r =>
        rw [hrec] at h
        simp only [Option.some.injEq] at h
        subst h
        have := ih _ r hrec
        refine ⟨this.1.trans ((scroll_reveal_fields _ _).1.trans hsim.1), ?_, ?_⟩
        · intro n
          rw [this.2.1 n, scroll_reveal_name]
          exact (hsim.2.2.2.2.2 n).1
        · intro k hk
          exact this.2.2 k (has_key_scroll_reveal _ _ _ (has_key_select_loop _ _ _ _ _ _ hk))

theorem scroll_keeps (fuel : Nat) (s s' : ICPCSystem) (out : List String)
    (h : scroll fuel s = some (s', out)) :
    s'.team_names = s.team_names ∧
    (∀ n, (s'.team n).name = (s.team n).name) ∧
    (∀ k, has_key s.teams k → has_key s'.teams k) := by
  unfold scroll at h
  split at h
  · simp only [Option.some.injEq, Prod.mk.injEq] at h
    rw [← h.1]
    exact ⟨rfl, fun _ => rfl, fun _ hk => hk⟩
  · simp only [] at h
    cases hrec : scroll_loop fuel (scroll_init s).1 with
    | none => rw [hrec] at h; simp at h
    | some r =>
      rw [hrec] at h
      simp only [Option.some.injEq, Prod.mk.injEq] at h
      have hk := scroll_loop_keeps fuel _ r hrec
      have hi := scroll_init_sim s
      have hp := print_scoreboard_sim r.state
      rw [← h.1]
      refine ⟨hp.1.trans (hk.1.trans hi.1), ?_, ?_⟩
      · intro n
        have e1 : (({ (print_scoreboard r.state).1 with is_frozen := false } : ICPCSystem).team n).name
            = ((print_scoreboard r.state).1.team n).name := rfl
        rw [e1, (hp.2.2.2.2.2 n).1, hk.2.1 n, (hi.2.2.2.2.2 n).1, assign_rankings_team,
          update_all_stats_name]
      · intro k hkey
        apply has_key_print_scoreboard
        apply hk.2.2
        apply has_key_print_scoreboard
        apply has_key_assign_rankings
        exact (has_key_map s.teams (fun t => t.calculate_stats s.problem_count) k).2 hkey

theorem map_get_map_name (m : List (String × Team)) (g : Team → Team)
    (hg : ∀ t, (g t).name = t.name) (k : String) :
    (map_get (m.map (fun p => (p.1, g p.2))) k).name = (map_get m k).name := by
  unfold map_get
  rw [map_find_map]
  cases map_find m k with
  | none => rfl
  | some t => exact hg t

theorem registered_of_names (s s' : ICPCSystem) (h : Registered s ∧ NamesPresent s)
    (h1 : s'.team_names = s.team_names) (h2 : ∀ n, (s'.team n).name = (s.team n).name)
    (h3 : ∀ k, has_key s.teams k → has_key s'.teams k) : Registered s' ∧ NamesPresent s' := by
  refine ⟨⟨by rw [h1]; exact h.1.1, ?_⟩, ?_⟩
  · intro n hn
    rw [h1] at hn
    rw [h2 n]
    exact h.1.2 n hn
  · intro n hn
    rw [h1] at hn
    exact h3 n (h.2 n hn)

theorem add_team_registered (s : ICPCSystem) (team_name : String)
    (h : Registered s ∧ NamesPresent s) :
    Registered (add_team s team_name).1 ∧ NamesPresent (add_team s team_name).1 := by
  unfold add_team
  split
  · exact h
  · split
    · exact h
    · next hfind =>
      have hnot : team_name ∉ s.team_names := fun hm => hfind (h.2 team_name hm)
      refine ⟨⟨?_, ?_⟩, ?_⟩
      · refine List.Nodup.append h.1.1 (List.nodup_singleton _) ?_
        intro a ha hb
        rw [List.mem_singleton] at hb
        subst hb
        exact hnot ha
      · intro n hn
        simp only [List.mem_append, List.mem_singleton] at hn
        simp only [ICPCSystem.team, map_get_modify]
        split
        · next e => exact e.symm
        · next e =>
          rcases hn with hn | hn
          · exact h.1.2 n hn
          · exact absurd hn e
      · intro n hn
        simp only [List.mem_append, List.mem_singleton] at hn
        apply (has_key_modify _ _ _ _).2
        rcases hn with hn | hn
        · exact Or.inr (h.2 n hn)
        · exact Or.inl hn

theorem start_competition_registered (s : ICPCSystem) (duration problems : Int)
    (h : Registered s ∧ NamesPresent s) :
    Registered (start_competition s duration problems).1 ∧
    NamesPresent (start_competition s duration problems).1 := by
  unfold start_competition
  split
  · exact h
  · dsimp only
    refine registered_of_names s _ h ?_ ?_ ?_
    · rfl
    · intro n
      simp only [ICPCSystem.team]
      rw [assign_loop_get]
      exact map_get_map_name s.teams (start_team problems) (fun _ => rfl) n
    · intro k hk
      apply has_key_assign_loop
      exact (has_key_map s.teams (start_team problems) k).2 hk

theorem submit_registered (s : ICPCSystem) (pn tn st : String) (tm : Int)
    (h : Registered s ∧ NamesPresent s) :
    Registered (submit s pn tn st tm) ∧ NamesPresent (submit s pn tn st tm) := by
  refine registered_of_names s _ h ?_ ?_ ?_
  · rfl
  · intro n
    rw [submit_team]
    split <;> rfl
  · intro k hk
    exact (has_key_modify _ _ _ _).2 (Or.inr hk)

theorem flush_registered (s : ICPCSystem) (h : Registered s ∧ NamesPresent s) :
    Registered (flush s).1 ∧ NamesPresent (flush s).1 := by
  refine registered_of_names s _ h ?_ ?_ ?_
  · rfl
  · intro n
    simp only [flush]
    rw [assign_rankings_team, update_all_stats_name]
  · intro k hk
    apply has_key_assign_rankings
    exact (has_key_map s.teams (fun t => t.calculate_stats s.problem_count) k).2 hk

theorem freeze_registered (s : ICPCSystem) (h : Registered s ∧ NamesPresent s) :
    Registered (freeze s).1 ∧ NamesPresent (freeze s).1 := by
  unfold freeze
  split
  · exact h
  · dsimp only
    refine registered_of_names s _ h ?_ ?_ ?_
    · rfl
    · intro n
      simp only [ICPCSystem.team]
      exact map_get_map_name s.teams (freeze_team s.problem_count) (fun _ => rfl) n
    · intro k hk
      exact (has_key_map s.teams (freeze_team s.problem_count) k).2 hk

/-- In every state the engine can be in, no name is registered twice, every
registered team carries its own name, and every registered name is a key of `teams`. -/
theorem reachable_registered (s : ICPCSystem) (h : Reachable s) :
    Registered s ∧ NamesPresent s := by
  induction h with
  | init =>
    refine ⟨⟨List.nodup_nil, ?_⟩, ?_⟩
    · intro n hn
      cases hn
    · intro n hn
      cases hn
  | add_team team_name _ ih => exact add_team_registered _ _ ih
  | start_competition duration problems _ ih => exact start_competition_registered _ _ _ ih
  | submit pn tn st tm _ ih => exact submit_registered _ _ _ _ _ ih
  | flush _ ih => exact flush_registered _ ih
  | freeze _ ih => exact freeze_registered _ ih
  | scroll fuel _ hs ih =>
    have hk := scroll_keeps fuel _ _ _ hs
    exact registered_of_names _ _ ih hk.1 hk.2.1 hk.2.2

/-- C16: the end-to-end scenario of the specification. After the first `FLUSH` team
`A` has rank 1 and its cells are `+` and `.`; after the second `FLUSH` the first cell
of `B` is `+1`, both teams have solved one problem and `B` has rank 2 behind `A`;
after `FREEZE` and the submission of `B` its second cell is `0/1` and a flush leaves
its solved count at 1; `SCROLL` then makes that cell `+`, the solved count of `B` 2
and its rank 1, and writes, between the two boards, the single line `B A 2 55`. -/
theorem end_to_end_scenario :
    (run 0 {} scenario_first).map (fun r => scenario_view r.1)
      = some [(1, 1, 10, "+", "."), (2, 0, 0, ".", ".")] ∧
    (run 0 {} scenario_second).map (fun r => scenario_view r.1)
      = some [(1, 1, 10, "+", "."), (2, 1, 35, "+1", ".")] ∧
    (run 0 {} scenario_frozen).map (fun r => scenario_view r.1)
      = some [(1, 1, 10, "+", "."), (2, 1, 35, "+1", "0/1")] ∧
    (run 0 {} (scenario_frozen ++ [.FLUSH])).map (fun r => scenario_view r.1)
      = some [(1, 1, 10, "+", "."), (2, 1, 35, "+1", "0/1")] ∧
    (run 2 {} (scenario_frozen ++ [.SCROLL])).map (fun r => scenario_view r.1)
      = some [(2, 1, 10, "+", "."), (1, 2, 55, "+1", "+")] ∧
    (run 2 {} (scenario_frozen ++ [.SCROLL])).map (fun r => r.2)
      = some ["[Info]Add successfully.", "[Info]Add successfully.", "[Info]Competition starts.",
          "[Info]Flush scoreboard.", "[Info]Flush scoreboard.", "[Info]Freeze scoreboard.",
          "[Info]Scroll scoreboard.", "A 1 1 10 + .", "B 2 1 35 +1 0/1", "B A 2 55",
          "B 1 2 55 +1 +", "A 2 1 10 + ."] := by
  refine ⟨?_, ?_, ?_, ?_, ?_, ?_⟩ <;> decide

theorem add_team_started (s : ICPCSystem) (n : String) (h : s.competition_started = true) :
    add_team s n = (s, ["[Error]Add failed: competition has started."]) := by
  simp [add_team, h]

theorem add_team_duplicate (s : ICPCSystem) (n : String) (h : s.competition_started = false)
    (hk : has_key s.teams n) :
    add_team s n = (s, ["[Error]Add failed: duplicated team name."]) := by
  unfold has_key at hk
  simp [add_team, h, hk]

theorem add_team_success (s : ICPCSystem) (n : String) (h : s.competition_started = false)
    (hk : ¬ has_key s.teams n) :
    add_team s n =
      ({ s with
         teams := map_modify s.teams n (fun _ => { name := n })
         team_names := s.team_names ++ [n] },
       ["[Info]Add successfully."]) := by
  unfold has_key at hk
  simp [add_team, h, hk]

/-- C13: each failing operation writes exactly one line, which begins with `[Error]`,
and leaves the state as it is: `add_team` after the start or on a name that is
already a key of `teams` (as every registered name is), `start_competition` after the
start, `freeze` on a frozen board, `scroll` on a board that is not frozen, and the two
queries on a name that is not a key of `teams`. -/
theorem failing_operations (s : ICPCSystem) (n pf sf : String) (d p : Int) (fuel : Nat) :
    (s.competition_started = true →
      add_team s n = (s, ["[Error]Add failed: competition has started."])) ∧
    (s.competition_started = false → has_key s.teams n →
      add_team s n = (s, ["[Error]Add failed: duplicated team name."])) ∧
    (Reachable s → n ∈ s.team_names → has_key s.teams n) ∧
    (s.competition_started = true →
      start_competition s d p = (s, ["[Error]Start failed: competition has started."])) ∧
    (s.is_frozen = true →
      freeze s = (s, ["[Error]Freeze failed: scoreboard has been frozen."])) ∧
    (s.is_frozen = false →
      scroll fuel s = some (s, ["[Error]Scroll failed: scoreboard has not been frozen."])) ∧
    (¬ has_key s.teams n →
      exec fuel s (.QUERY_RANKING n)
        = some (s, ["[Error]Query ranking failed: cannot find the team."])) ∧
    (¬ has_key s.teams n →
      exec fuel s (.QUERY_SUBMISSION n pf sf)
        = some (s, ["[Error]Query submission failed: cannot find the team."])) ∧
    (∀ line ∈ ["[Error]Add failed: competition has started.",
        "[Error]Add failed: duplicated team name.",
        "[Error]Start failed: competition has started.",
        "[Error]Freeze failed: scoreboard has been frozen.",
        "[Error]Scroll failed: scoreboard has not been frozen.",
        "[Error]Query ranking failed: cannot find the team.",
        "[Error]Query submission failed: cannot find the team."],
      "[Error]".data <+: line.data) := by
  refine ⟨add_team_started s n, add_team_duplicate s n, ?_, ?_, ?_, ?_, ?_, ?_, by decide⟩
  · intro hr hn
    exact (reachable_registered s hr).2 n hn
  · intro h
    simp [start_competition, h]
  · intro h
    simp [freeze, h]
  · intro h
    simp [scroll, h]
  · intro h
    unfold has_key at h
    simp only [Bool.not_eq_true, Option.not_isSome, Option.isNone_iff_eq_none] at h
    simp [exec, query_ranking, h]
  · intro h
    unfold has_key at h
    simp only [Bool.not_eq_true, Option.not_isSome, Option.isNone_iff_eq_none] at h
    simp [exec, query_submission, h]

/-- C14: `add_team` on a registered name fails with the duplicated-name error when the
competition has not started, and with the competition-started error when it has;
it succeeds only when the competition has not started and the name is not
registered, and then appends the name to `team_names` and stores under it a team
with that name, an empty history and no other data, leaving every other team and
field of the state as it is. -/
theorem add_team_outcomes (s : ICPCSystem) (n : String) :
    (Reachable s → n ∈ s.team_names → s.competition_started = false →
      add_team s n = (s, ["[Error]Add failed: duplicated team name."])) ∧
    (s.competition_started = true →
      add_team s n = (s, ["[Error]Add failed: competition has started."])) ∧
    ((add_team s n).2 = ["[Info]Add successfully."] ↔
      (s.competition_started = false ∧ ¬ has_key s.teams n)) ∧
    (Reachable s → (add_team s n).2 = ["[Info]Add successfully."] →
      s.competition_started = false ∧ n ∉ s.team_names) ∧
    ((add_team s n).2 = ["[Info]Add successfully."] →
      (add_team s n).1.team_names = s.team_names ++ [n] ∧
      (add_team s n).1.team n = { name := n } ∧
      ((add_team s n).1.team n).all_submissions = [] ∧
      (∀ m, m ≠ n → (add_team s n).1.team m = s.team m) ∧
      (add_team s n).1.competition_started = s.competition_started ∧
      (add_team s n).1.is_frozen = s.is_frozen ∧
      (add_team s n).1.duration_time = s.duration_time ∧
      (add_team s n).1.problem_count = s.problem_count) := by
  have hiff : (add_team s n).2 = ["[Info]Add successfully."] ↔
      (s.competition_started = false ∧ ¬ has_key s.teams n) := by
    constructor
    · intro h
      cases hs : s.competition_started with
      | true => rw [add_team_started s n hs] at h; simp at h
      | false =>
        refine ⟨rfl, fun hk => ?_⟩
        rw [add_team_duplicate s n hs hk] at h
        simp at h
    · rintro ⟨hs, hk⟩
      rw [add_team_success s n hs hk]
  refine ⟨?_, add_team_started s n, hiff, ?_, ?_⟩
  · intro hr hn hs
    exact add_team_duplicate s n hs ((reachable_registered s hr).2 n hn)
  · intro hr h
    have := hiff.1 h
    exact ⟨this.1, fun hn => this.2 ((reachable_registered s hr).2 n hn)⟩
  · intro h
    have := hiff.1 h
    rw [add_team_success s n this.1 this.2]
    refine ⟨rfl, ?_, ?_, ?_, rfl, rfl, rfl, rfl⟩
    · simp only [ICPCSystem.team, map_get_modify_self]
    · simp only [ICPCSystem.team, map_get_modify_self]
    · intro m hm
      simp only [ICPCSystem.team]
      exact map_get_modify_ne _ _ _ _ hm

section KeyLemmas2

variable {κ ν : Type} [DecidableEq κ] [Inhabited ν]

theorem map_modify_of_has_key (m : List (κ × ν)) (k : κ) (f : ν → ν) (hk : has_key m k)
    (hf : f (map_get m k) = map_get m k) : map_modify m k f = m := by
  induction m with
  | nil => simp [has_key, map_find] at hk
  | cons hd tl ih =>
    obtain ⟨k', v⟩ := hd
    by_cases h : k' = k
    · subst h
      simp only [map_get, map_find, if_true, Option.getD_some] at hf
      simp [map_modify, hf]
    · simp only [has_key, map_find, h, if_false] at hk
      simp only [map_get, map_find, h, if_false] at hf
      simp only [map_modify, h, if_false]
      rw [ih hk hf]

theorem map_touch_of_has_key (m : List (κ × ν)) (k : κ) (hk : has_key m k) :
    map_touch m k = m :=
  map_modify_of_has_key m k id hk rfl

theorem has_key_foldl_touch_mono (ls : List κ) (m : List (κ × ν)) (k : κ) (h : has_key m k) :
    has_key (ls.foldl map_touch m) k := by
  induction ls generalizing m with
  | nil => exact h
  | cons a l ih => exact ih _ (has_key_touch m a k h)

theorem has_key_foldl_touch_mem (ls : List κ) (m : List (κ × ν)) (k : κ) (h : k ∈ ls) :
    has_key (ls.foldl map_touch m) k := by
  induction ls generalizing m with
  | nil => simp at h
  | cons a l ih =>
    simp only [List.foldl_cons]
    rcases List.mem_cons.1 h with rfl | h
    · exact has_key_foldl_touch_mono _ _ _ ((has_key_modify m k k id).2 (Or.inl rfl))
    · exact ih _ h

theorem foldl_touch_of_has_key (ls : List κ) (m : List (κ × ν)) (h : ∀ k ∈ ls, has_key m k) :
    ls.foldl map_touch m = m := by
  induction ls generalizing m with
  | nil => rfl
  | cons a l ih =>
    simp only [List.foldl_cons]
    rw [map_touch_of_has_key m a (h a (List.mem_cons_self _ _))]
    exact ih m (fun k hk => h k (List.mem_cons_of_mem _ hk))

end KeyLemmas2

theorem calculate_stats_idem (t : Team) (pc : Int) :
    (t.calculate_stats pc).calculate_stats pc = t.calculate_stats pc := by
  have hc := calculate_stats_congr (t.calculate_stats pc) t pc
    (fun p => by simp only [scores, calculate_stats_get])
    (fun p _ => by simp [calculate_stats_get])
  have hp : ((t.calculate_stats pc).calculate_stats pc).problems = (t.calculate_stats pc).problems := by
    rw [calculate_stats_eq (t.calculate_stats pc)]
    simp only []
    apply foldl_touch_of_has_key
    intro k hk
    rw [calculate_stats_eq t]
    exact has_key_foldl_touch_mem _ _ _ hk
  have hn : ((t.calculate_stats pc).calculate_stats pc).name = (t.calculate_stats pc).name := by
    rw [calculate_stats_eq (t.calculate_stats pc)]
  have hs : ((t.calculate_stats pc).calculate_stats pc).all_submissions
      = (t.calculate_stats pc).all_submissions := by
    rw [calculate_stats_eq (t.calculate_stats pc)]
  have hr : ((t.calculate_stats pc).calculate_stats pc).ranking = (t.calculate_stats pc).ranking := by
    rw [calculate_stats_eq (t.calculate_stats pc)]
  cases h1 : (t.calculate_stats pc).calculate_stats pc
  cases h2 : t.calculate_stats pc
  rw [h1, h2] at hc hp hn hs hr
  simp only [Team.mk.injEq] at *
  exact ⟨hn, hp, hs, hc.1, hc.2.1, hc.2.2, hr⟩

/-- C17: `calculate_stats` is idempotent: a second call with the same problem count
leaves the team exactly as the first call left it, problem map included. -/
theorem calculate_stats_idempotent (t : Team) (problem_count : Int) :
    (t.calculate_stats problem_count).calculate_stats problem_count
      = t.calculate_stats problem_count ∧
    ((t.calculate_stats problem_count).calculate_stats problem_count).solved_count
      = (t.calculate_stats problem_count).solved_count ∧
    ((t.calculate_stats problem_count).calculate_stats problem_count).penalty_time
      = (t.calculate_stats problem_count).penalty_time ∧
    ((t.calculate_stats problem_count).calculate_stats problem_count).solve_times
      = (t.calculate_stats problem_count).solve_times ∧
    ((t.calculate_stats problem_count).calculate_stats problem_count).problems
      = (t.calculate_stats problem_count).problems := by
  rw [calculate_stats_idem]
  exact ⟨rfl, rfl, rfl, rfl, rfl⟩

/-! ### statuses under the commands -/

theorem map_get_of_not_has_key {κ ν : Type} [DecidableEq κ] [Inhabited ν] (m : List (κ × ν))
    (k : κ) (h : ¬ has_key m k) : map_get m k = default := by
  unfold has_key at h
  unfold map_get
  simp only [Bool.not_eq_true, Option.not_isSome, Option.isNone_iff_eq_none] at h
  rw [h]
  rfl

theorem map_get_map_of_has_key (m : List (String × Team)) (g : Team → Team) (k : String)
    (h : has_key m k) : map_get (m.map (fun p => (p.1, g p.2))) k = g (map_get m k) := by
  unfold has_key at h
  unfold map_get
  rw [map_find_map]
  cases hf : map_find m k with
  | none => rw [hf] at h; simp at h
  | some t => rfl

theorem map_get_map_of_not_has_key (m : List (String × Team)) (g : Team → Team) (k : String)
    (h : ¬ has_key m k) : map_get (m.map (fun p => (p.1, g p.2))) k = default :=
  map_get_of_not_has_key _ _ (fun hk => h ((has_key_map m g k).1 hk))

theorem start_team_get (pr : Int) (t : Team) (p : Nat) :
    map_get (start_team pr t).problems p
      = if p ∈ letters pr then default else map_get t.problems p := by
  unfold start_team
  simp only []
  generalize letters pr = ls
  generalize t.problems = m
  induction ls generalizing m with
  | nil => simp
  | cons a l ih =>
    simp only [List.foldl_cons, List.mem_cons]
    rw [ih]
    by_cases hl : p ∈ l
    · simp [hl]
    · simp only [hl, if_false, or_false]
      rw [map_get_modify]
      rfl

theorem freeze_team_get (pc : Int) (t : Team) (p : Nat) :
    map_get (freeze_team pc t).problems p
      = if p ∈ letters pc ∧ (map_get t.problems p).solved = true then
          { map_get t.problems p with was_solved_before_freeze := true }
        else map_get t.problems p := by
  unfold freeze_team
  simp only []
  have hnd := letters_nodup pc
  generalize letters pc = ls at hnd
  generalize t.problems = m
  induction ls generalizing m with
  | nil => simp
  | cons a l ih =>
    rw [List.nodup_cons] at hnd
    simp only [List.foldl_cons, List.mem_cons]
    rw [ih hnd.2]
    by_cases hpa : p = a
    · subst hpa
      simp only [hnd.1, false_and, if_false, true_or, true_and, map_get_touch]
      split
      · next hs => rw [map_get_modify_self, map_get_touch]
      · rw [map_get_touch]
    · have hg : map_get (if (map_get (map_touch m a) a).solved = true then
            map_modify (map_touch m a) a fun ps => { ps with was_solved_before_freeze := true }
          else map_touch m a) p = map_get m p := by
        split
        · rw [map_get_modify_ne _ _ _ _ hpa, map_get_touch]
        · rw [map_get_touch]
      simp only [hpa, false_or]
      rw [hg]

theorem start_competition_status (s : ICPCSystem) (d pr : Int) (n : String) (p : Nat) :
    (start_competition s d pr).1.status n p =
      if s.competition_started = false ∧ p ∈ letters pr then default else s.status n p := by
  unfold start_competition
  cases hs : s.competition_started with
  | true => simp
  | false =>
    simp only [Bool.false_eq_true, if_false, ICPCSystem.status, ICPCSystem.team, true_and]
    rw [assign_loop_get]
    simp only []
    by_cases hk : has_key s.teams n
    · rw [map_get_map_of_has_key _ _ _ hk]
      exact start_team_get pr _ p
    · rw [map_get_map_of_not_has_key _ _ _ hk, map_get_of_not_has_key _ _ hk]
      split <;> rfl

theorem freeze_status (s : ICPCSystem) (hf : s.is_frozen = false) (n : String) (p : Nat) :
    (freeze s).1.status n p =
      if p ∈ letters s.problem_count ∧ (s.status n p).solved = true then
        { s.status n p with was_solved_before_freeze := true }
      else s.status n p := by
  unfold freeze
  simp only [hf, Bool.false_eq_true, if_false, ICPCSystem.status, ICPCSystem.team]
  by_cases hk : has_key s.teams n
  · rw [map_get_map_of_has_key _ _ _ hk]
    exact freeze_team_get _ _ p
  · rw [map_get_map_of_not_has_key _ _ _ hk, map_get_of_not_has_key _ _ hk]
    split
    · next h => exact absurd h.2 (by simp [map_get, map_find, default])
    · rfl

theorem freeze_history (s : ICPCSystem) (n : String) :
    ((freeze s).1.team n).all_submissions = (s.team n).all_submissions := by
  unfold freeze
  split
  · rfl
  · simp only [ICPCSystem.team]
    by_cases hk : has_key s.teams n
    · rw [map_get_map_of_has_key _ _ _ hk]
      rfl
    · rw [map_get_map_of_not_has_key _ _ _ hk, map_get_of_not_has_key _ _ hk]

theorem add_team_status (s : ICPCSystem) (m n : String) (p : Nat) :
    (add_team s m).1.status n p = s.status n p ∨ (add_team s m).1.status n p = default := by
  unfold add_team
  split
  · exact Or.inl rfl
  · split
    · exact Or.inl rfl
    · simp only [ICPCSystem.status, ICPCSystem.team, map_get_modify]
      split
      · exact Or.inr rfl
      · exact Or.inl rfl

theorem flush_status (s : ICPCSystem) (n : String) (p : Nat) :
    (flush s).1.status n p = s.status n p := by
  simp only [flush]
  rw [assign_rankings_status, update_all_stats_status]

/-! ### invariants of `scroll` -/

theorem scroll_loop_invariant (P : ICPCSystem → Prop)
    (hsim : ∀ a b, ICPCSystem.sim a b → P b → P a)
    (hstep : ∀ s tgt, P s → (scroll_select s).2 = some tgt →
      P (scroll_reveal (scroll_select s).1 tgt).1)
    (fuel : Nat) : ∀ (s : ICPCSystem) (run : ScrollRun),
    P s → scroll_loop fuel s = some run → P run.state := by
  induction fuel with
  | zero => intro s run _ h; simp [scroll_loop] at h
  | succ f ih =>
    intro s run hP h
    cases hsel : (scroll_select s).2 with
    | none =>
      rw [scroll_loop_none f s hsel] at h
      simp only [Option.some.injEq] at h
      subst h
      exact hsim _ _ (scroll_select_sim s) hP
    | some tgt =>
      rw [scroll_loop_some f s tgt hsel] at h
      cases hrec : scroll_loop f (scroll_reveal (scroll_select s).1 tgt).1 with
      | none => rw [hrec] at h; simp at h
      | some r =>
        rw [hrec] at h
        simp only [Option.some.injEq] at h
        subst h
        exact ih _ r (hstep s tgt hP hsel) hrec

/-- What `scroll` returns on a frozen board, in terms of the run of its loop. -/
theorem scroll_frozen_eq (fuel : Nat) (s s' : ICPCSystem) (out : List String)
    (hf : s.is_frozen = true) (h : scroll fuel s = some (s', out)) :
    ∃ run, scroll_loop fuel (scroll_init s).1 = some run ∧
      s' = { (print_scoreboard run.state).1 with is_frozen := false } ∧
      out = ["[Info]Scroll scoreboard."] ++ (scroll_init s).2 ++ run.out
        ++ (print_scoreboard run.state).2 := by
  unfold scroll at h
  simp only [hf, Bool.not_true, Bool.false_eq_true, if_false] at h
  cases hrec : scroll_loop fuel (scroll_init s).1 with
  | none => rw [hrec] at h; simp at h
  | some r =>
    rw [hrec] at h
    simp only [Option.some.injEq, Prod.mk.injEq] at h
    exact ⟨r, rfl, h.1.symm, h.2.symm⟩

theorem scroll_unfrozen_eq (fuel : Nat) (s s' : ICPCSystem) (out : List String)
    (hf : s.is_frozen = false) (h : scroll fuel s = some (s', out)) : s' = s := by
  unfold scroll at h
  simp only [hf, Bool.not_false, if_true, Option.some.injEq, Prod.mk.injEq] at h
  exact h.1.symm

/-- A property of single statuses that the replay keeps is kept by `scroll`. -/
theorem scroll_status_invariant (Q : ProblemStatus → Prop) (hQ : ∀ ps, Q ps → Q (replay ps))
    (fuel : Nat) (s s' : ICPCSystem) (out : List String)
    (h : scroll fuel s = some (s', out)) (hs : ∀ n p, Q (s.status n p)) :
    ∀ n p, Q (s'.status n p) := by
  cases hf : s.is_frozen with
  | false =>
    rw [scroll_unfrozen_eq fuel s s' out hf h]
    exact hs
  | true =>
    obtain ⟨run, hrun, hs', _⟩ := scroll_frozen_eq fuel s s' out hf h
    have hinit : ∀ n p, Q ((scroll_init s).1.status n p) := by
      intro n p
      rw [system_sim_status (scroll_init_sim s), assign_rankings_status,
        update_all_stats_status]
      exact hs n p
    have hrunQ := scroll_loop_invariant (fun x => ∀ n p, Q (x.status n p))
      (fun a b hab hb n p => by rw [system_sim_status hab]; exact hb n p)
      (fun x tgt hx hsel n p => by
        rw [(scroll_pass_status x tgt hsel n p).2]
        split
        · exact hQ _ (hx n p)
        · exact hx n p)
      fuel _ run hinit hrun
    intro n p
    rw [hs']
    have : ({ (print_scoreboard run.state).1 with is_frozen := false } : ICPCSystem).status n p
        = (print_scoreboard run.state).1.status n p := rfl
    rw [this, system_sim_status (print_scoreboard_sim run.state)]
    exact hrunQ n p

/-- A property of single statuses that holds of a fresh status and is kept by the
rule of `submit`, by the mark set in `freeze` and by the replay holds in every state
the engine can be in. -/
theorem reachable_status_invariant (Q : ProblemStatus → Prop) (h0 : Q default)
    (hsub : ∀ fr st tm ps, Q ps → Q (submit_status fr st tm ps))
    (hfr : ∀ ps : ProblemStatus, Q ps → ps.solved = true →
      Q { ps with was_solved_before_freeze := true })
    (hrep : ∀ ps, Q ps → Q (replay ps))
    (s : ICPCSystem) (h : Reachable s) : ∀ n p, Q (s.status n p) := by
  induction h with
  | init =>
    intro n p
    exact h0
  | add_team team_name _ ih =>
    intro n p
    rcases add_team_status _ team_name n p with e | e
    · rw [e]; exact ih n p
    · rw [e]; exact h0
  | start_competition duration problems _ ih =>
    intro n p
    rw [start_competition_status]
    split
    · exact h0
    · exact ih n p
  | submit pn tn st tm _ ih =>
    intro n p
    rw [submit_status_eq]
    split
    · exact hsub _ _ _ _ (ih n p)
    · exact ih n p
  | flush _ ih =>
    intro n p
    rw [flush_status]
    exact ih n p
  | @freeze s _ ih =>
    intro n p
    cases hf : s.is_frozen with
    | true =>
      have : (freeze s).1 = s := by simp [freeze, hf]
      rw [this]
      exact ih n p
    | false =>
      rw [freeze_status s hf]
      split
      · next hc => exact hfr _ (ih n p) hc.2
      · exact ih n p
  | scroll fuel _ hs ih => exact scroll_status_invariant Q hrep fuel _ _ _ hs ih

theorem replay_loop_was (subs : List (String × Int)) (acc : ProblemStatus) :
    (replay_loop subs acc).was_solved_before_freeze = acc.was_solved_before_freeze := by
  induction subs generalizing acc with
  | nil => rfl
  | cons x xs ih =>
    simp only [replay_loop, List.foldl_cons] at ih ⊢
    rw [ih]
    split
    · split <;> rfl
    · rfl

theorem reachable_was_solved (s : ICPCSystem) (h : Reachable s) (n : String) (p : Nat) :
    (s.status n p).was_solved_before_freeze = true → (s.status n p).solved = true := by
  apply reachable_status_invariant
    (fun ps => ps.was_solved_before_freeze = true → ps.solved = true) _ _ _ _ s h n p
  · intro h; simp [default] at h
  · intro fr st tm ps hps
    unfold submit_status
    split
    · split
      · next hc =>
        simp only [Bool.and_eq_true, Bool.not_eq_true'] at hc
        intro hw
        simp only [] at hw
        rw [hc.2] at hw
        simp at hw
      · exact hps
    · split
      · split
        · intro _; rfl
        · exact hps
      · exact hps
  · intro ps _ hs _
    exact hs
  · intro ps hps hw
    have hw' : ps.was_solved_before_freeze = true := by
      rw [replay_eq] at hw
      simp only [] at hw
      rw [replay_loop_was] at hw
      exact hw
    have := hps hw'
    rw [replay_eq, replay_loop_solved _ _ this]
    exact this

/-- C11: in every state the engine can be in, a successful `freeze` sets the frozen
flag and leaves, for every team and every active letter, `was_solved_before_freeze`
equal to `solved`; it changes no `solved`, `wrong_attempts`, `solve_time`,
`is_frozen`, queue or history, and no other field of the state. -/
theorem freeze_snapshot (s : ICPCSystem) (hr : Reachable s) (hf : s.is_frozen = false) :
    (freeze s).2 = ["[Info]Freeze scoreboard."] ∧
    (freeze s).1.is_frozen = true ∧
    (∀ n, ∀ p ∈ letters s.problem_count,
      ((freeze s).1.status n p).was_solved_before_freeze = ((freeze s).1.status n p).solved) ∧
    (∀ n p,
      ((freeze s).1.status n p).solved = (s.status n p).solved ∧
      ((freeze s).1.status n p).wrong_attempts = (s.status n p).wrong_attempts ∧
      ((freeze s).1.status n p).solve_time = (s.status n p).solve_time ∧
      ((freeze s).1.status n p).is_frozen = (s.status n p).is_frozen ∧
      ((freeze s).1.status n p).frozen_subs = (s.status n p).frozen_subs) ∧
    (∀ n, ((freeze s).1.team n).all_submissions = (s.team n).all_submissions) ∧
    (freeze s).1.team_names = s.team_names ∧
    (freeze s).1.competition_started = s.competition_started ∧
    (freeze s).1.problem_count = s.problem_count ∧
    (freeze s).1.duration_time = s.duration_time := by
  have hfields : (freeze s).2 = ["[Info]Freeze scoreboard."] ∧
      (freeze s).1.is_frozen = true ∧
      (freeze s).1.team_names = s.team_names ∧
      (freeze s).1.competition_started = s.competition_started ∧
      (freeze s).1.problem_count = s.problem_count ∧
      (freeze s).1.duration_time = s.duration_time := by
    simp [freeze, hf]
  refine ⟨hfields.1, hfields.2.1, ?_, ?_, freeze_history s, hfields.2.2.1, hfields.2.2.2.1,
    hfields.2.2.2.2.1, hfields.2.2.2.2.2⟩
  · intro n p hp
    rw [freeze_status s hf]
    cases hsol : (s.status n p).solved with
    | true => simp [hp, hsol]
    | false =>
      simp only [hp, hsol, Bool.false_eq_true, and_false, if_false]
      cases hw : (s.status n p).was_solved_before_freeze with
      | false => rfl
      | true =>
        have := reachable_was_solved s hr n p hw
        rw [hsol] at this
        simp at this
  · intro n p
    rw [freeze_status s hf]
    split <;> exact ⟨rfl, rfl, rfl, rfl, rfl⟩

theorem freeze_snapshot_witness :
    Reachable demo_running ∧ demo_running.is_frozen = false ∧
    (freeze demo_running).1.is_frozen = true ∧
    (∀ n, ∀ p ∈ letters demo_running.problem_count,
      ((freeze demo_running).1.status n p).was_solved_before_freeze
        = ((freeze demo_running).1.status n p).solved) :=
  have hr : Reachable demo_running :=
    Reachable.flush (Reachable.submit "A" "B" "Accepted" 15
      (Reachable.submit "A" "B" "Rejected" 5 (Reachable.submit "A" "A" "Accepted" 10
        (Reachable.start_competition 180 2
          (Reachable.add_team "B" (Reachable.add_team "A" Reachable.init))))))
  ⟨hr, by decide, (freeze_snapshot demo_running hr (by decide)).2.1,
    (freeze_snapshot demo_running hr (by decide)).2.2.1⟩

/-! ### the history -/

theorem add_team_history (s : ICPCSystem) (m n : String) :
    ((add_team s m).1.team n).all_submissions = (s.team n).all_submissions := by
  cases hs : s.competition_started with
  | true => rw [add_team_started s m hs]
  | false =>
    by_cases hk : has_key s.teams m
    · rw [add_team_duplicate s m hs hk]
    · rw [add_team_success s m hs hk]
      simp only [ICPCSystem.team, map_get_modify]
      split
      · next e =>
        subst e
        rw [map_get_of_not_has_key _ _ hk]
        rfl
      · rfl

theorem start_competition_history (s : ICPCSystem) (d pr : Int) (n : String) :
    ((start_competition s d pr).1.team n).all_submissions = (s.team n).all_submissions := by
  unfold start_competition
  split
  · rfl
  · simp only [ICPCSystem.team]
    rw [assign_loop_get]
    simp only []
    by_cases hk : has_key s.teams n
    · rw [map_get_map_of_has_key _ _ _ hk]
      rfl
    · rw [map_get_map_of_not_has_key _ _ _ hk, map_get_of_not_has_key _ _ hk]

theorem flush_history (s : ICPCSystem) (n : String) :
    ((flush s).1.team n).all_submissions = (s.team n).all_submissions := by
  rw [(flush_team s n).2.1, calculate_stats_eq]

theorem scroll_reveal_history (s : ICPCSystem) (tgt n : String) :
    ((scroll_reveal s tgt).1.team n).all_submissions = (s.team n).all_submissions := by
  rw [scroll_reveal_team, assign_rankings_team, reveal_target_team]
  split
  · exact (reveal_team_fields _ _).2.1
  · rfl

theorem scroll_history (fuel : Nat) (s s' : ICPCSystem) (out : List String)
    (h : scroll fuel s = some (s', out)) (n : String) :
    (s'.team n).all_submissions = (s.team n).all_submissions := by
  cases hf : s.is_frozen with
  | false => rw [scroll_unfrozen_eq fuel s s' out hf h]
  | true =>
    obtain ⟨run, hrun, hs', _⟩ := scroll_frozen_eq fuel s s' out hf h
    have hinit : ∀ n, ((scroll_init s).1.team n).all_submissions = (s.team n).all_submissions := by
      intro n
      rw [((scroll_init_sim s).2.2.2.2.2 n).2.1]
      exact flush_history s n
    have hrunP := scroll_loop_invariant
      (fun x => ∀ n, (x.team n).all_submissions = (s.team n).all_submissions)
      (fun a b hab hb n => by rw [(hab.2.2.2.2.2 n).2.1]; exact hb n)
      (fun x tgt hx _ n => by
        rw [scroll_reveal_history, ((scroll_select_sim x).2.2.2.2.2 n).2.1]
        exact hx n)
      fuel _ run hinit hrun
    rw [hs']
    have : (({ (print_scoreboard run.state).1 with is_frozen := false } : ICPCSystem).team n)
        = (print_scoreboard run.state).1.team n := rfl
    rw [this, ((print_scoreboard_sim run.state).2.2.2.2.2 n).2.1]
    exact hrunP n

theorem exec_history (fuel : Nat) (s s1 : ICPCSystem) (c : Command) (o : List String)
    (h : exec fuel s c = some (s1, o)) (n : String) :
    (s1.team n).all_submissions = (s.team n).all_submissions ++ submits_of n [c] := by
  cases c with
  | ADDTEAM m =>
    simp only [exec, Option.some.injEq] at h
    have : s1 = (add_team s m).1 := by rw [h]
    rw [this]
    simp [submits_of, add_team_history]
  | START d pr =>
    simp only [exec, Option.some.injEq] at h
    have : s1 = (start_competition s d pr).1 := by rw [h]
    rw [this]
    simp [submits_of, start_competition_history]
  | SUBMIT pn tn st tm =>
    simp only [exec, Option.some.injEq, Prod.mk.injEq] at h
    rw [← h.1, submit_team]
    by_cases e : n = tn
    · subst e
      simp [submits_of]
    · have e' : ¬ tn = n := fun x => e x.symm
      simp [submits_of, e, e']
  | FLUSH =>
    simp only [exec, Option.some.injEq] at h
    have : s1 = (flush s).1 := by rw [h]
    rw [this]
    simp [submits_of, flush_history]
  | FREEZE =>
    simp only [exec, Option.some.injEq] at h
    have : s1 = (freeze s).1 := by rw [h]
    rw [this]
    simp [submits_of, freeze_history]
  | SCROLL =>
    simp only [exec] at h
    simp [submits_of, scroll_history fuel s s1 o h n]
  | QUERY_RANKING m =>
    simp only [exec, Option.some.injEq, Prod.mk.injEq] at h
    rw [← h.1]
    simp [submits_of]
  | QUERY_SUBMISSION m pf sf =>
    simp only [exec, Option.some.injEq, Prod.mk.injEq] at h
    rw [← h.1]
    simp [submits_of]
  | END =>
    simp only [exec, Option.some.injEq, Prod.mk.injEq] at h
    rw [← h.1]
    simp [submits_of]

theorem submits_of_cons (n : String) (c : Command) (rest : List Command) (hc : c ≠ Command.END) :
    submits_of n (c :: rest) = submits_of n [c] ++ submits_of n rest := by
  cases c with
  | END => exact absurd rfl hc
  | SUBMIT pn tn st tm =>
    simp only [submits_of]
    split <;> simp
  | _ => simp [submits_of]

/-- Unfolding of `run` on a command that is not `END`. -/
theorem run_cons (fuel : Nat) (s s' : ICPCSystem) (c : Command) (rest : List Command)
    (out : List String) (hc : c ≠ Command.END) (h : run fuel s (c :: rest) = some (s', out)) :
    ∃ s1 o1 o2, exec fuel s c = some (s1, o1) ∧ run fuel s1 rest = some (s', o2) ∧
      out = o1 ++ o2 := by
  simp only [run] at h
  cases he : exec fuel s c with
  | none => rw [he] at h; simp at h
  | some r =>
    rw [he] at h
    simp only [hc, if_false] at h
    cases hr : run fuel r.1 rest with
    | none => rw [hr] at h; simp at h
    | some r2 =>
      rw [hr] at h
      simp only [Option.some.injEq, Prod.mk.injEq] at h
      exact ⟨r.1, r.2, r2.2, rfl, by rw [← h.1]; exact hr, h.2.symm⟩

theorem run_end (fuel : Nat) (s s' : ICPCSystem) (rest : List Command) (out : List String)
    (h : run fuel s (Command.END :: rest) = some (s', out)) : s' = s := by
  simp only [run, exec, if_true, Option.some.injEq, Prod.mk.injEq] at h
  exact h.1.symm

theorem run_history (fuel : Nat) (cmds : List Command) : ∀ (s s' : ICPCSystem)
    (out : List String), run fuel s cmds = some (s', out) → ∀ n,
    (s'.team n).all_submissions = (s.team n).all_submissions ++ submits_of n cmds := by
  induction cmds with
  | nil =>
    intro s s' out h n
    simp only [run, Option.some.injEq, Prod.mk.injEq] at h
    rw [← h.1]
    simp [submits_of]
  | cons c rest ih =>
    intro s s' out h n
    by_cases hc : c = Command.END
    · subst hc
      rw [run_end fuel s s' rest out h]
      simp [submits_of]
    · obtain ⟨s1, o1, o2, he, hr, _⟩ := run_cons fuel s s' c rest out hc h
      rw [ih s1 s' o2 hr n, exec_history fuel s s1 c o1 he n, submits_of_cons n c rest hc,
        List.append_assoc]

theorem exec_reachable (fuel : Nat) (s s1 : ICPCSystem) (c : Command) (o : List String)
    (hr : Reachable s) (h : exec fuel s c = some (s1, o)) : Reachable s1 := by
  cases c with
  | ADDTEAM m =>
    simp only [exec, Option.some.injEq] at h
    have : s1 = (add_team s m).1 := by rw [h]
    rw [this]; exact Reachable.add_team m hr
  | START d pr =>
    simp only [exec, Option.some.injEq] at h
    have : s1 = (start_competition s d pr).1 := by rw [h]
    rw [this]; exact Reachable.start_competition d pr hr
  | SUBMIT pn tn st tm =>
    simp only [exec, Option.some.injEq, Prod.mk.injEq] at h
    rw [← h.1]; exact Reachable.submit pn tn st tm hr
  | FLUSH =>
    simp only [exec, Option.some.injEq] at h
    have : s1 = (flush s).1 := by rw [h]
    rw [this]; exact Reachable.flush hr
  | FREEZE =>
    simp only [exec, Option.some.injEq] at h
    have : s1 = (freeze s).1 := by rw [h]
    rw [this]; exact Reachable.freeze hr
  | SCROLL =>
    simp only [exec] at h
    exact Reachable.scroll fuel hr h
  | QUERY_RANKING m =>
    simp only [exec, Option.some.injEq, Prod.mk.injEq] at h
    rw [← h.1]; exact hr
  | QUERY_SUBMISSION m pf sf =>
    simp only [exec, Option.some.injEq, Prod.mk.injEq] at h
    rw [← h.1]; exact hr
  | END =>
    simp only [exec, Option.some.injEq, Prod.mk.injEq] at h
    rw [← h.1]; exact hr

theorem run_reachable (fuel : Nat) (cmds : List Command) : ∀ (s s' : ICPCSystem)
    (out : List String), Reachable s → run fuel s cmds = some (s', out) → Reachable s' := by
  induction cmds with
  | nil =>
    intro s s' out hr h
    simp only [run, Option.some.injEq, Prod.mk.injEq] at h
    rw [← h.1]; exact hr
  | cons c rest ih =>
    intro s s' out hr h
    by_cases hc : c = Command.END
    · subst hc
      rw [run_end fuel s s' rest out h]; exact hr
    · obtain ⟨s1, o1, o2, he, hrun, _⟩ := run_cons fuel s s' c rest out hc h
      exact ih s1 s' o2 (exec_reachable fuel s s1 c o1 hr he) hrun

theorem query_loop_reverse (pf sf : String) (l : List Submission) :
    query_loop pf sf l.reverse = (l.filter (matches_filters pf sf)).getLast? := by
  induction l using List.reverseRecOn with
  | nil => rfl
  | append_singleton xs a ih =>
    rw [List.reverse_append, List.reverse_singleton, List.singleton_append, List.filter_append]
    simp only [query_loop]
    by_cases hm : matches_filters pf sf a = true
    · have hm' : ((pf = "ALL" || a.problem_name = pf) && (sf = "ALL" || a.status = sf)) = true := hm
      rw [if_pos hm']
      simp [List.filter_cons, hm]
    · have hm' : ¬ ((pf = "ALL" || a.problem_name = pf) && (sf = "ALL" || a.status = sf)) = true := hm
      rw [if_neg hm', ih]
      simp [List.filter_cons, hm]

/-! ### fuel -/

theorem scroll_loop_mono (f : Nat) : ∀ (s : ICPCSystem) (r : ScrollRun),
    scroll_loop f s = some r → ∀ g, f ≤ g → scroll_loop g s = some r := by
  induction f with
  | zero => intro s r h; simp [scroll_loop] at h
  | succ f ih =>
    intro s r h g hg
    obtain ⟨g', rfl⟩ : ∃ g', g = g' + 1 := ⟨g - 1, by omega⟩
    cases hsel : (scroll_select s).2 with
    | none =>
      rw [scroll_loop_none f s hsel] at h
      rw [scroll_loop_none g' s hsel]
      exact h
    | some tgt =>
      rw [scroll_loop_some f s tgt hsel] at h
      rw [scroll_loop_some g' s tgt hsel]
      cases hrec : scroll_loop f (scroll_reveal (scroll_select s).1 tgt).1 with
      | none => rw [hrec] at h; simp at h
      | some r' =>
        rw [hrec] at h
        rw [ih _ r' hrec g' (by omega)]
        exact h

theorem scroll_mono (f g : Nat) (s : ICPCSystem) (r : ICPCSystem × List String)
    (h : scroll f s = some r) (hg : f ≤ g) : scroll g s = some r := by
  unfold scroll at h ⊢
  split
  · next hf => simp only [hf, if_true] at h; exact h
  · next hf =>
    simp only [hf, if_false] at h
    simp only []
    cases hrec : scroll_loop f (scroll_init s).1 with
    | none => rw [hrec] at h; simp at h
    | some r' =>
      rw [hrec] at h
      rw [scroll_loop_mono f _ r' hrec g hg]
      exact h

theorem scroll_total (s : ICPCSystem) : ∃ f r, scroll f s = some r := by
  cases hf : s.is_frozen with
  | false =>
    exact ⟨0, (s, ["[Error]Scroll failed: scoreboard has not been frozen."]),
      by simp [scroll, hf]⟩
  | true =>
    obtain ⟨run, hrun, _⟩ := scroll_loop_terminates (hidden_pairs (scroll_init s).1).length
      (scroll_init s).1 ((hidden_pairs (scroll_init s).1).length + 1)
      (RankInv_congr (scroll_init_sim s) (assign_rankings_RankInv _)) rfl (by omega)
    refine ⟨(hidden_pairs (scroll_init s).1).length + 1,
      ({ (print_scoreboard run.state).1 with is_frozen := false },
        ["[Info]Scroll scoreboard."] ++ (scroll_init s).2 ++ run.out
          ++ (print_scoreboard run.state).2), ?_⟩
    simp only [scroll, hf, Bool.not_true, Bool.false_eq_true, if_false, hrun]

theorem exec_mono (f g : Nat) (s : ICPCSystem) (c : Command) (r : ICPCSystem × List String)
    (h : exec f s c = some r) (hg : f ≤ g) : exec g s c = some r := by
  cases c with
  | SCROLL => exact scroll_mono f g s r h hg
  | _ => exact h

theorem exec_total (s : ICPCSystem) (c : Command) : ∃ f r, exec f s c = some r := by
  cases c with
  | SCROLL => exact scroll_total s
  | _ => exact ⟨0, _, rfl⟩

theorem run_mono (f g : Nat) (hg : f ≤ g) (cmds : List Command) : ∀ (s : ICPCSystem)
    (r : ICPCSystem × List String), run f s cmds = some r → run g s cmds = some r := by
  induction cmds with
  | nil => intro s r h; exact h
  | cons c rest ih =>
    intro s r h
    simp only [run] at h ⊢
    cases he : exec f s c with
    | none => rw [he] at h; simp at h
    | some r1 =>
      rw [he] at h
      rw [exec_mono f g s c r1 he hg]
      simp only [] at h ⊢
      split
      · next hc => simp only [hc, if_true] at h; exact h
      · next hc =>
        simp only [hc, if_false] at h
        cases hr : run f r1.1 rest with
        | none => rw [hr] at h; simp at h
        | some r2 =>
          rw [hr] at h
          rw [ih r1.1 r2 hr]
          exact h

/-- Every command sequence runs to its end once the fuel is large enough. -/
theorem run_total (cmds : List Command) : ∀ s : ICPCSystem, ∃ f r, run f s cmds = some r := by
  induction cmds with
  | nil => intro s; exact ⟨0, _, rfl⟩
  | cons c rest ih =>
    intro s
    obtain ⟨f1, r1, h1⟩ := exec_total s c
    obtain ⟨f2, r2, h2⟩ := ih r1.1
    by_cases hc : c = Command.END
    · subst hc
      refine ⟨f1, r1, ?_⟩
      simp only [run, h1, if_true]
    · refine ⟨max f1 f2, (r2.1, r1.2 ++ r2.2), ?_⟩
      simp only [run, exec_mono f1 (max f1 f2) s c r1 h1 (le_max_left _ _), hc, if_false,
        run_mono f2 (max f1 f2) (le_max_right _ _) rest r1.1 r2 h2]

/-- C12: every command sequence runs to its end, and in the state it leaves
`query_submission` on a registered team reports the last `SUBMIT` of that team in the
sequence that passes both filters (`ALL` passes everything), whatever the board did
with that submission, and reports that there is none exactly when no submission of
the team passes; with both filters `ALL` it reports the last submission of the team. -/
theorem query_submission_last (cmds : List Command) (n pf sf : String) :
    (∃ fuel r, run fuel {} cmds = some r) ∧
    (∀ fuel s out, run fuel {} cmds = some (s, out) → n ∈ s.team_names →
      query_submission s n pf sf =
        ["[Info]Complete query submission."]
        ++ (match ((submits_of n cmds).filter (matches_filters pf sf)).getLast? with
            | none => ["Cannot find any submission."]
            | some r =>
              [r.team_name ++ " " ++ r.problem_name ++ " " ++ r.status ++ " "
                ++ toString r.time]) ∧
      (((submits_of n cmds).filter (matches_filters pf sf)).getLast? = none ↔
        ∀ sub ∈ submits_of n cmds, matches_filters pf sf sub = false) ∧
      query_submission s n "ALL" "ALL" =
        ["[Info]Complete query submission."]
        ++ (match (submits_of n cmds).getLast? with
            | none => ["Cannot find any submission."]
            | some r =>
              [r.team_name ++ " " ++ r.problem_name ++ " " ++ r.status ++ " "
                ++ toString r.time])) := by
  refine ⟨run_total cmds {}, ?_⟩
  intro fuel s out h hn
  have hr : Reachable s := run_reachable fuel cmds {} s out Reachable.init h
  have hk : (map_find s.teams n).isNone = false := by
    have := (reachable_registered s hr).2 n hn
    unfold has_key at this
    cases hf : map_find s.teams n with
    | none => rw [hf] at this; simp at this
    | some t => rfl
  have hh : (map_get s.teams n).all_submissions = submits_of n cmds := by
    have := run_history fuel cmds {} s out h n
    simpa [ICPCSystem.team, map_get, map_find, default] using this
  have hq : ∀ pf sf, query_submission s n pf sf =
      ["[Info]Complete query submission."]
        ++ (match ((submits_of n cmds).filter (matches_filters pf sf)).getLast? with
            | none => ["Cannot find any submission."]
            | some r =>
              [r.team_name ++ " " ++ r.problem_name ++ " " ++ r.status ++ " "
                ++ toString r.time]) := by
    intro pf sf
    unfold query_submission
    rw [hk, hh, query_loop_reverse]
    simp
  refine ⟨hq pf sf, ?_, ?_⟩
  · rw [List.getLast?_eq_none_iff, List.filter_eq_nil_iff]
    simp
  · rw [hq "ALL" "ALL"]
    have : (submits_of n cmds).filter (matches_filters "ALL" "ALL") = submits_of n cmds := by
      rw [List.filter_eq_self]
      intro a _
      simp [matches_filters]
    rw [this]

/-! ### derived fields that agree with the statuses -/

theorem fresh_calc (pc : Int) (t : Team) : Team.fresh pc (t.calculate_stats pc) := by
  unfold Team.fresh
  rw [calculate_stats_idem]
  exact ⟨rfl, rfl, rfl⟩

theorem fresh_sim (pc : Int) {a b : Team} (h : Team.sim a b) (hb : Team.fresh pc b) :
    Team.fresh pc a := by
  have hc := calculate_stats_congr a b pc
    (fun p => by simp only [scores, h.2.2.2.2.2.2 p])
    (fun p _ => by simp [h.2.2.2.2.2.2 p])
  unfold Team.fresh at hb ⊢
  rw [h.2.2.1, h.2.2.2.1, h.2.2.2.2.1, hc.1, hc.2.1, hc.2.2]
  exact hb

theorem fresh_ranking (pc : Int) (t : Team) (r : Int) (h : Team.fresh pc t) :
    Team.fresh pc { t with ranking := r } :=
  fresh_sim pc (b := { t with ranking := r })
    ⟨rfl, rfl, rfl, rfl, rfl, rfl, fun _ => rfl⟩
    (by
      have hc := calculate_stats_congr { t with ranking := r } t pc (fun _ => rfl)
        (fun _ _ => ⟨rfl, rfl⟩)
      unfold Team.fresh at h ⊢
      rw [hc.1, hc.2.1, hc.2.2]
      exact h)

theorem update_all_stats_fresh (s : ICPCSystem) : FreshObs (update_all_stats s) :=
  fun n => fresh_sim _ (update_all_stats_sim s n) (fresh_calc _ _)

theorem assign_rankings_fresh (s : ICPCSystem) (h : FreshObs s) : FreshObs (assign_rankings s) := by
  intro n
  rw [assign_rankings_team]
  exact fresh_ranking _ _ _ (h n)

theorem FreshObs_congr {a b : ICPCSystem} (h : ICPCSystem.sim a b) (hb : FreshObs b) :
    FreshObs a := by
  intro n
  rw [h.2.2.2.2.1]
  exact fresh_sim _ (h.2.2.2.2.2 n) (hb n)

theorem reveal_target_fresh (s : ICPCSystem) (tgt : String) (h : FreshObs s) :
    FreshObs (reveal_target s tgt) := by
  intro n
  rw [reveal_target_team]
  split
  · exact fresh_calc _ _
  · exact h n

theorem scroll_reveal_fresh (s : ICPCSystem) (tgt : String) (h : FreshObs s) :
    FreshObs (scroll_reveal s tgt).1 :=
  FreshObs_congr (scroll_reveal_sim s tgt) (assign_rankings_fresh _ (reveal_target_fresh s tgt h))

theorem scroll_init_fresh (s : ICPCSystem) : FreshObs (scroll_init s).1 :=
  FreshObs_congr (scroll_init_sim s) (assign_rankings_fresh _ (update_all_stats_fresh s))

theorem ScrollHead_fresh (s0 s : ICPCSystem) (h : ScrollHead s0 s) : FreshObs s := by
  induction h with
  | init => exact scroll_init_fresh s0
  | @step s target _ _ ih =>
    exact scroll_reveal_fresh _ _ (FreshObs_congr (scroll_select_sim s) ih)

theorem scroll_fresh (fuel : Nat) (s s' : ICPCSystem) (out : List String)
    (hf : s.is_frozen = true) (h : scroll fuel s = some (s', out)) : FreshObs s' := by
  obtain ⟨run, hrun, hs', _⟩ := scroll_frozen_eq fuel s s' out hf h
  have hrunP := scroll_loop_invariant FreshObs (fun a b hab hb => FreshObs_congr hab hb)
    (fun x tgt hx _ => scroll_reveal_fresh _ _ (FreshObs_congr (scroll_select_sim x) hx))
    fuel _ run (scroll_init_fresh s) hrun
  rw [hs']
  intro n
  exact FreshObs_congr (print_scoreboard_sim run.state) hrunP n

/-! ### accesses that insert nothing -/

theorem mem_of_has_key {κ ν : Type} [DecidableEq κ] [Inhabited ν] (m : List (κ × ν)) (k : κ)
    (h : has_key m k) : (k, map_get m k) ∈ m := by
  induction m with
  | nil => simp [has_key, map_find] at h
  | cons hd tl ih =>
    obtain ⟨k', v⟩ := hd
    by_cases e : k' = k
    · subst e
      simp [map_get, map_find]
    · simp only [has_key, map_find, e, if_false] at h
      simp only [map_get, map_find, e, if_false]
      exact List.mem_cons_of_mem _ (ih h)

theorem allfresh_modify (pc : Int) (m : List (String × Team)) (k : String) (f : Team → Team)
    (h : AllFresh pc m) (hk : has_key m k)
    (hf : ∀ t, t.calculate_stats pc = t → (f t).calculate_stats pc = f t) :
    AllFresh pc (map_modify m k f) := by
  induction m with
  | nil => simp [has_key, map_find] at hk
  | cons hd tl ih =>
    obtain ⟨k', v⟩ := hd
    by_cases e : k' = k
    · subst e
      simp only [map_modify, if_true]
      intro x hx
      rcases List.mem_cons.1 hx with rfl | hx
      · exact hf v (h (k', v) (List.mem_cons_self _ _))
      · exact h x (List.mem_cons_of_mem _ hx)
    · simp only [has_key, map_find, e, if_false] at hk
      simp only [map_modify, e, if_false]
      intro x hx
      rcases List.mem_cons.1 hx with rfl | hx
      · exact h (k', v) (List.mem_cons_self _ _)
      · exact ih (fun y hy => h y (List.mem_cons_of_mem _ hy)) hk x hx

theorem update_all_stats_allfresh (s : ICPCSystem) :
    AllFresh s.problem_count (update_all_stats s).teams := by
  intro e he
  simp only [update_all_stats, List.mem_map] at he
  obtain ⟨a, _, rfl⟩ := he
  exact calculate_stats_idem _ _

theorem letters_present_of_fixed (pc : Int) (t : Team) (h : t.calculate_stats pc = t) :
    ∀ p ∈ letters pc, has_key t.problems p := by
  intro p hp
  rw [← h, calculate_stats_eq]
  exact has_key_foldl_touch_mem _ _ _ hp

theorem calculate_stats_ranking_fixed (pc : Int) (t : Team) (r : Int)
    (h : t.calculate_stats pc = t) :
    Team.calculate_stats { t with ranking := r } pc = { t with ranking := r } := by
  have e : Team.calculate_stats { t with ranking := r } pc
      = { t.calculate_stats pc with ranking := r } := by
    rw [calculate_stats_eq, calculate_stats_eq t]
    rfl
  rw [e, h]

theorem has_frozen_loop_id (ls : List Nat) (m : List (Nat × ProblemStatus))
    (h : ∀ p ∈ ls, has_key m p) : (has_frozen_loop ls m).1 = m := by
  induction ls with
  | nil => rfl
  | cons a l ih =>
    simp only [has_frozen_loop]
    rw [map_touch_of_has_key m a (h a (List.mem_cons_self _ _))]
    split
    · rfl
    · exact ih (fun p hp => h p (List.mem_cons_of_mem _ hp))

theorem unfreeze_prob_loop_id (ls : List Nat) (m : List (Nat × ProblemStatus))
    (h : ∀ p ∈ ls, has_key m p) : (unfreeze_prob_loop ls m).1 = m := by
  induction ls with
  | nil => rfl
  | cons a l ih =>
    simp only [unfreeze_prob_loop]
    rw [map_touch_of_has_key m a (h a (List.mem_cons_self _ _))]
    split
    · rfl
    · exact ih (fun p hp => h p (List.mem_cons_of_mem _ hp))

theorem replaced_loop_id (rank : Int) (l : List String) (m : List (String × Team))
    (h : ∀ n ∈ l, has_key m n) : (replaced_loop rank l m).1 = m := by
  induction l with
  | nil => rfl
  | cons a l ih =>
    simp only [replaced_loop]
    rw [map_touch_of_has_key m a (h a (List.mem_cons_self _ _))]
    split
    · rfl
    · exact ih (fun p hp => h p (List.mem_cons_of_mem _ hp))

theorem print_row_id (pc : Int) (t : Team) (h : ∀ p ∈ letters pc, has_key t.problems p) :
    (print_row t pc).1 = t := by
  unfold print_row
  rw [print_row_fold, foldl_touch_of_has_key _ _ h]

theorem print_loop_id (pc : Int) (l : List String) (m : List (String × Team))
    (hk : ∀ n ∈ l, has_key m n) (hf : AllFresh pc m) : (print_loop pc l m).1 = m := by
  induction l with
  | nil => rfl
  | cons a l ih =>
    simp only [print_loop]
    have ha := hk a (List.mem_cons_self _ _)
    rw [map_modify_of_has_key m a _ ha
      (print_row_id pc _ (letters_present_of_fixed pc _ (hf _ (mem_of_has_key m a ha))))]
    exact ih (fun p hp => hk p (List.mem_cons_of_mem _ hp))

theorem select_visit_id (pc : Int) (m : List (String × Team)) (a : String)
    (hk : has_key m a) (hf : AllFresh pc m) : (select_visit pc m a).1 = m := by
  simp only [select_visit]
  rw [map_touch_of_has_key m a hk]
  apply map_modify_of_has_key m a _ hk
  rw [has_frozen_loop_id _ _ (letters_present_of_fixed pc _ (hf _ (mem_of_has_key m a hk)))]

theorem select_loop_id (pc : Int) (l : List String) (m : List (String × Team))
    (low : Int) (tgt : Option String) (hk : ∀ n ∈ l, has_key m n) (hf : AllFresh pc m) :
    (select_loop pc l m low tgt).1 = m := by
  induction l generalizing low tgt with
  | nil => rfl
  | cons a l ih =>
    simp only [select_loop]
    rw [select_visit_id pc m a (hk a (List.mem_cons_self _ _)) hf]
    split
    · exact ih _ _ (fun p hp => hk p (List.mem_cons_of_mem _ hp))
    · exact ih _ _ (fun p hp => hk p (List.mem_cons_of_mem _ hp))

theorem assign_loop_allfresh (pc : Int) (l : List String) (i : Nat) (m : List (String × Team))
    (hk : ∀ n ∈ l, has_key m n) (hf : AllFresh pc m) : AllFresh pc (assign_loop l i m) := by
  induction l generalizing i m with
  | nil => exact hf
  | cons a l ih =>
    simp only [assign_loop]
    apply ih
    · intro n hn
      exact (has_key_modify m a n _).2 (Or.inr (hk n (List.mem_cons_of_mem _ hn)))
    · exact allfresh_modify pc m a _ hf (hk a (List.mem_cons_self _ _))
        (fun t ht => calculate_stats_ranking_fixed pc t _ ht)

/-- The two invariants under which the accesses of `scroll` insert nothing. -/
theorem assign_rankings_exact (s : ICPCSystem) (hk : NamesPresent s)
    (hf : AllFresh s.problem_count s.teams) :
    NamesPresent (assign_rankings s) ∧
    AllFresh (assign_rankings s).problem_count (assign_rankings s).teams := by
  have ht : s.team_names.foldl map_touch s.teams = s.teams := foldl_touch_of_has_key _ _ hk
  constructor
  · intro n hn
    exact has_key_assign_rankings s n (hk n hn)
  · simp only [assign_rankings, get_sorted_teams, ht]
    apply assign_loop_allfresh _ _ _ _ _ hf
    intro n hn
    exact hk n ((List.perm_insertionSort _ _).mem_iff.1 hn)

theorem print_scoreboard_exact (s : ICPCSystem) (hk : NamesPresent s)
    (hf : AllFresh s.problem_count s.teams) : (print_scoreboard s).1 = s := by
  have ht : s.team_names.foldl map_touch s.teams = s.teams := foldl_touch_of_has_key _ _ hk
  simp only [print_scoreboard, get_sorted_teams, ht]
  rw [print_loop_id _ _ _ _ hf]
  intro n hn
  exact hk n ((List.perm_insertionSort _ _).mem_iff.1 hn)

theorem scroll_select_exact (s : ICPCSystem) (hk : NamesPresent s)
    (hf : AllFresh s.problem_count s.teams) : (scroll_select s).1 = s := by
  simp only [scroll_select]
  rw [select_loop_id _ _ _ _ _ hk hf]

theorem reveal_team_fixed (pc : Int) (t : Team) :
    (reveal_team pc t).calculate_stats pc = reveal_team pc t :=
  calculate_stats_idem _ _

theorem reveal_target_exact (s : ICPCSystem) (tgt : String) (hk : NamesPresent s)
    (hf : AllFresh s.problem_count s.teams) (ht : has_key s.teams tgt) :
    NamesPresent (reveal_target s tgt) ∧
    AllFresh (reveal_target s tgt).problem_count (reveal_target s tgt).teams :=
  ⟨fun n hn => (has_key_modify _ _ _ _).2 (Or.inr (hk n hn)),
   allfresh_modify _ _ _ _ hf ht (fun t _ => reveal_team_fixed _ t)⟩

theorem scroll_reveal_exact (s : ICPCSystem) (tgt : String) (hk : NamesPresent s)
    (hf : AllFresh s.problem_count s.teams) (ht : has_key s.teams tgt) :
    (scroll_reveal s tgt).1 = assign_rankings (reveal_target s tgt) := by
  have h1 := reveal_target_exact s tgt hk hf ht
  have h2 := assign_rankings_exact _ h1.1 h1.2
  simp only [scroll_reveal]
  split
  · rw [replaced_loop_id _ _ _ h2.1]
  · rfl

theorem ScrollHead_exact (s0 s : ICPCSystem) (h0 : NamesPresent s0) (h : ScrollHead s0 s) :
    NamesPresent s ∧ AllFresh s.problem_count s.teams := by
  induction h with
  | init =>
    have h1 : NamesPresent (update_all_stats s0) :=
      fun n hn => (has_key_map s0.teams (fun t => t.calculate_stats s0.problem_count) n).2
        (h0 n hn)
    have h2 := assign_rankings_exact _ h1 (update_all_stats_allfresh s0)
    unfold scroll_init
    rw [print_scoreboard_exact _ h2.1 h2.2]
    exact h2
  | @step s target _ hsel ih =>
    have e := scroll_select_exact s ih.1 ih.2
    have ht : target ∈ s.team_names := (scroll_select_some s target hsel).1
    rw [e, scroll_reveal_exact s target ih.1 ih.2 (ih.1 target ht)]
    have h1 := reveal_target_exact s target ih.1 ih.2 (ih.1 target ht)
    exact assign_rankings_exact _ h1.1 h1.2

theorem map_calc_modify (pc : Int) (m : List (String × Team)) (k : String) (f : Team → Team)
    (hf : AllFresh pc m) :
    (map_modify m k f).map (fun p => (p.1, p.2.calculate_stats pc))
      = map_modify m k (fun t => (f t).calculate_stats pc) := by
  induction m with
  | nil => rfl
  | cons hd tl ih =>
    obtain ⟨k', v⟩ := hd
    have htl : tl.map (fun p => (p.1, p.2.calculate_stats pc)) = tl := by
      have : ∀ e ∈ tl, (fun p : String × Team => (p.1, p.2.calculate_stats pc)) e = e := by
        intro e he
        simp only []
        rw [hf e (List.mem_cons_of_mem _ he)]
      rw [List.map_congr_left this, List.map_id']
    by_cases e : k' = k
    · simp only [map_modify, e, if_true, List.map_cons, htl]
    · simp only [map_modify, e, if_false, List.map_cons]
      rw [ih (fun y hy => hf y (List.mem_cons_of_mem _ hy)),
        hf (k', v) (List.mem_cons_self _ _)]

theorem reveal_all_eq (s : ICPCSystem) (tgt : String) (hf : AllFresh s.problem_count s.teams) :
    reveal_all s tgt = reveal_target s tgt := by
  simp only [reveal_all, reveal_target, update_all_stats]
  rw [map_calc_modify _ _ _ _ hf]
  rfl

/-- C18: in every pass of the `while` loop of a `scroll` started in a state whose
registered names are keys of the team map (every reachable state is one), calling
`calculate_stats` on the target team only leaves exactly the engine state that
`update_all_stats()` would leave at that point, and so the pass ends in the state
that the ranks assigned after `update_all_stats()` would give. At every rank
assignment of `scroll` (the one before the loop and the one of each pass) and in the
state a scroll of a frozen board returns, the `solved_count`, `penalty_time` and
`solve_times` of every team are those that `calculate_stats` computes from its
current problem statuses; such a scroll returns when given enough fuel. -/
theorem scroll_target_only_recompute (s0 s : ICPCSystem) (target : String)
    (h0 : NamesPresent s0) (hs : ScrollHead s0 s) (ht : (scroll_select s).2 = some target) :
    reveal_target (scroll_select s).1 target = reveal_all (scroll_select s).1 target ∧
    (scroll_reveal (scroll_select s).1 target).1
      = assign_rankings (reveal_all (scroll_select s).1 target) ∧
    FreshObs (update_all_stats s0) ∧
    FreshObs (assign_rankings (update_all_stats s0)) ∧
    FreshObs (reveal_target (scroll_select s).1 target) ∧
    FreshObs (assign_rankings (reveal_target (scroll_select s).1 target)) ∧
    (∃ fuel r, scroll fuel s0 = some r) ∧
    (∀ fuel s' out, s0.is_frozen = true → scroll fuel s0 = some (s', out) →
      ∀ n, (s'.team n).solved_count
            = ((s'.team n).calculate_stats s'.problem_count).solved_count ∧
          (s'.team n).penalty_time
            = ((s'.team n).calculate_stats s'.problem_count).penalty_time ∧
          (s'.team n).solve_times
            = ((s'.team n).calculate_stats s'.problem_count).solve_times) := by
  have hI := ScrollHead_exact s0 s h0 hs
  have e := scroll_select_exact s hI.1 hI.2
  have hF := ScrollHead_fresh s0 s hs
  have hA := reveal_all_eq s target hI.2
  have hk : has_key s.teams target := hI.1 target (scroll_select_some s target ht).1
  rw [e]
  refine ⟨hA.symm, ?_, update_all_stats_fresh s0,
    assign_rankings_fresh _ (update_all_stats_fresh s0), reveal_target_fresh s target hF,
    assign_rankings_fresh _ (reveal_target_fresh s target hF), scroll_total s0, ?_⟩
  · rw [hA]
    exact scroll_reveal_exact s target hI.1 hI.2 hk
  · intro fuel s' out hf h n
    exact scroll_fresh fuel s0 s' out hf h n

theorem scroll_target_only_recompute_witness :
    NamesPresent demo_frozen ∧
    ScrollHead demo_frozen (scroll_init demo_frozen).1 ∧
    (scroll_select (scroll_init demo_frozen).1).2 = some "B" ∧
    reveal_target (scroll_select (scroll_init demo_frozen).1).1 "B"
      = reveal_all (scroll_select (scroll_init demo_frozen).1).1 "B" :=
  have h0 : NamesPresent demo_frozen := by
    unfold NamesPresent has_key
    decide
  ⟨h0, ScrollHead.init, by decide,
   (scroll_target_only_recompute demo_frozen (scroll_init demo_frozen).1 "B" h0
      ScrollHead.init (by decide)).1⟩

/-! ### counting the teams ranked before a team -/

theorem countP_lt_range (n i : Nat) :
    (List.range n).countP (fun j => decide (j < i)) = min i n := by
  induction n with
  | zero => simp
  | succ n ih =>
    rw [List.range_succ, List.countP_append, ih]
    by_cases h : n < i
    · simp [List.countP_cons, h]
      omega
    · simp [List.countP_cons, h]
      omega

theorem countP_indexOf_lt (l : List String) (hnd : l.Nodup) (b : String) (hb : b ∈ l) :
    l.countP (fun c => decide (l.indexOf c < l.indexOf b)) = l.indexOf b := by
  have h1 : l.countP (fun c => decide (l.indexOf c < l.indexOf b))
      = (l.map (fun x => l.indexOf x)).countP (fun j => decide (j < l.indexOf b)) := by
    rw [List.countP_map]
    rfl
  rw [h1, map_indexOf_eq_range l hnd, countP_lt_range]
  have := List.indexOf_lt_length.2 hb
  omega

/-- Ranks that count the names ranked before, are distinct, agree on the order of
the names other than `T`, and under which every name before `T` in the new ranks was
before `T` in the old ones: the rank of `T` did not grow, and if it shrank, the name
now right after `T` held the new rank of `T` before. -/
theorem rank_shift (names : List String) (r r1 : String → Int) (T : String)
    (hT : T ∈ names)
    (hc : ∀ b ∈ names, r b = (names.countP (fun c => decide (r c < r b)) : Int) + 1)
    (hc1 : ∀ b ∈ names, r1 b = (names.countP (fun c => decide (r1 c < r1 b)) : Int) + 1)
    (hi : ∀ a ∈ names, ∀ b ∈ names, r a = r b → a = b)
    (hi1 : ∀ a ∈ names, ∀ b ∈ names, r1 a = r1 b → a = b)
    (ho : ∀ a ∈ names, ∀ b ∈ names, a ≠ T → b ≠ T → (r a < r b ↔ r1 a < r1 b))
    (hm : ∀ c ∈ names, r1 c < r1 T → r c < r T) :
    r1 T ≤ r T ∧
    ∀ o ∈ names, r1 T < r T → r1 o = r1 T + 1 → r o = r1 T := by
  have hle : r1 T ≤ r T := by
    rw [hc T hT, hc1 T hT]
    have := List.countP_mono_left (l := names)
      (p := fun c => decide (r1 c < r1 T)) (q := fun c => decide (r c < r T))
      (fun c hcm h => by
        simp only [decide_eq_true_eq] at h ⊢
        exact hm c hcm h)
    omega
  refine ⟨hle, fun o ho' hlt ho1 => ?_⟩
  have hoT : o ≠ T := by
    intro e
    rw [e] at ho1
    omega
  have hbefore : r o < r T := by
    by_contra hcon
    have hne : r o ≠ r T := fun e => hoT (hi o ho' T hT e)
    have hTo : r T < r o := by omega
    have hge : r T ≤ r1 T := by
      rw [hc T hT, hc1 T hT]
      have := List.countP_mono_left (l := names)
        (p := fun c => decide (r c < r T)) (q := fun c => decide (r1 c < r1 T))
        (fun c hcm h => by
          simp only [decide_eq_true_eq] at h ⊢
          have hcT : c ≠ T := by
            intro e
            rw [e] at h
            omega
          have hco : c ≠ o := by
            intro e
            rw [e] at h
            omega
          have h1 : r1 c < r1 o := (ho c hcm o ho' hcT hoT).1 (by omega)
          have h2 : r1 c ≠ r1 T := fun e => hcT (hi1 c hcm T hT e)
          omega)
      omega
    omega
  rw [hc o ho', hc1 T hT]
  have : names.countP (fun c => decide (r c < r o))
      = names.countP (fun c => decide (r1 c < r1 T)) := by
    apply List.countP_congr
    intro c hcm
    simp only [decide_eq_true_eq]
    by_cases hcT : c = T
    · rw [hcT]
      constructor
      · intro h; omega
      · intro h; omega
    · by_cases hco : c = o
      · rw [hco]
        constructor
        · intro h; omega
        · intro h; omega
      · have h2 : r1 c ≠ r1 T := fun e => hcT (hi1 c hcm T hT e)
        rw [ho c hcm o ho' hcT hoT]
        constructor
        · intro h; omega
        · intro h; omega
  rw [this]

/-! ### the order of the ranks -/

theorem fresh_len (pc : Int) (t : Team) (h : Team.fresh pc t) :
    (t.solve_times.length : Int) = t.solved_count := by
  rw [h.1, h.2.2]
  exact calculate_stats_length t pc

theorem assign_rankings_CountInv (s : ICPCSystem) (hnd : s.team_names.Nodup) :
    CountInv (assign_rankings s) := by
  intro b hb
  have hb' : b ∈ s.team_names := hb
  have hL : (sorted_names s).Nodup := (sorted_names_perm s).nodup_iff.2 hnd
  have hbL : b ∈ sorted_names s := (sorted_names_perm s).mem_iff.2 hb'
  have e : (assign_rankings s).team_names = s.team_names := rfl
  rw [e, assign_rankings_ranking s b hnd hb']
  have h1 : s.team_names.countP
        (fun c => decide (((assign_rankings s).team c).ranking
          < ((sorted_names s).indexOf b : Int) + 1))
      = s.team_names.countP
        (fun c => decide ((sorted_names s).indexOf c < (sorted_names s).indexOf b)) := by
    apply List.countP_congr
    intro c hc
    rw [assign_rankings_ranking s c hnd hc]
    simp only [decide_eq_true_eq]
    omega
  rw [h1, ← (sorted_names_perm s).countP_eq, countP_indexOf_lt _ hL b hbL]

theorem CountInv_congr {a b : ICPCSystem} (h : ICPCSystem.sim a b) (hb : CountInv b) :
    CountInv a := by
  unfold CountInv at hb ⊢
  simp only [h.1, system_sim_ranking h]
  exact hb

theorem assign_rankings_OrderInv (s : ICPCSystem) (hnd : s.team_names.Nodup)
    (hname : ∀ n ∈ s.team_names, (s.team n).name = n) (hf : FreshObs s) :
    OrderInv (assign_rankings s) := by
  intro a ha b hb
  have ha' : a ∈ s.team_names := ha
  have hb' : b ∈ s.team_names := hb
  rw [assign_rankings_ranking s a hnd ha', assign_rankings_ranking s b hnd hb',
    assign_rankings_team s a, assign_rankings_team s b, team_lt_ranking,
    ← lt_iff_indexOf s hname (fun n _ => fresh_len _ _ (hf n)) a b ha' hb']
  omega

theorem OrderInv_congr {a b : ICPCSystem} (h : ICPCSystem.sim a b) (hb : OrderInv b) :
    OrderInv a := by
  intro x hx y hy
  rw [system_sim_ranking h x, system_sim_ranking h y,
    team_lt_congr (h.2.2.2.2.2 x) (h.2.2.2.2.2 y)]
  exact hb x (h.1 ▸ hx) y (h.1 ▸ hy)

theorem ScrollHead_name (s0 s : ICPCSystem) (h : ScrollHead s0 s) (n : String) :
    (s.team n).name = (s0.team n).name := by
  induction h with
  | init =>
    rw [((scroll_init_sim s0).2.2.2.2.2 n).1, assign_rankings_team, update_all_stats_name]
  | @step s target _ _ ih =>
    rw [scroll_reveal_name, ((scroll_select_sim s).2.2.2.2.2 n).1, ih]

/-- What holds of the ranks at every loop head of a `scroll` started with the
registration invariant. -/
theorem ScrollHead_order (s0 s : ICPCSystem) (h0 : Registered s0) (h : ScrollHead s0 s) :
    Registered s ∧ CountInv s ∧ OrderInv s := by
  have hinv := ScrollHead_inv s0 s h
  have hreg : Registered s := by
    refine ⟨by rw [hinv.1]; exact h0.1, fun n hn => ?_⟩
    rw [ScrollHead_name s0 s h n]
    exact h0.2 n (hinv.1 ▸ hn)
  refine ⟨hreg, ?_⟩
  cases h with
  | init =>
    have hname : ∀ n ∈ (update_all_stats s0).team_names, ((update_all_stats s0).team n).name = n :=
      fun n hn => by rw [update_all_stats_name]; exact h0.2 n hn
    exact ⟨CountInv_congr (scroll_init_sim s0) (assign_rankings_CountInv _ h0.1),
      OrderInv_congr (scroll_init_sim s0)
        (assign_rankings_OrderInv _ h0.1 hname (update_all_stats_fresh s0))⟩
  | @step x target hx _ =>
    have hxi := ScrollHead_inv s0 x hx
    have hsim := scroll_select_sim x
    have hnd : (reveal_target (scroll_select x).1 target).team_names.Nodup := by
      show (scroll_select x).1.team_names.Nodup
      rw [hsim.1, hxi.1]
      exact h0.1
    have hname : ∀ n ∈ (reveal_target (scroll_select x).1 target).team_names,
        ((reveal_target (scroll_select x).1 target).team n).name = n := by
      intro n hn
      have hn' : n ∈ s0.team_names := by
        have : n ∈ (scroll_select x).1.team_names := hn
        rw [hsim.1, hxi.1] at this
        exact this
      have e : ((reveal_target (scroll_select x).1 target).team n).name
          = ((scroll_select x).1.team n).name := by
        rw [reveal_target_team]
        split
        · exact (reveal_team_fields _ _).1
        · rfl
      rw [e, (hsim.2.2.2.2.2 n).1, ScrollHead_name s0 x hx n]
      exact h0.2 n hn'
    have hfr : FreshObs (reveal_target (scroll_select x).1 target) :=
      reveal_target_fresh _ _ (FreshObs_congr hsim (ScrollHead_fresh s0 x hx))
    exact ⟨CountInv_congr (scroll_reveal_sim _ _) (assign_rankings_CountInv _ hnd),
      OrderInv_congr (scroll_reveal_sim _ _) (assign_rankings_OrderInv _ hnd hname hfr)⟩

/-! ### what a reveal does to the derived fields of the target -/

theorem reveal_team_better (pc : Int) (T : Team) (hf : Team.fresh pc T)
    (hu : (unfreeze_prob_loop (letters pc) T.problems).2 ∈ letters pc)
    (hz : (map_get T.problems (unfreeze_prob_loop (letters pc) T.problems).2).is_frozen = true) :
    ((reveal_team pc T).solved_count = T.solved_count ∧
      (reveal_team pc T).penalty_time = T.penalty_time ∧
      (reveal_team pc T).solve_times = T.solve_times) ∨
    (reveal_team pc T).solved_count = T.solved_count + 1 := by
  have hid : (reveal_team pc T).calculate_stats pc = reveal_team pc T := reveal_team_fixed pc T
  have hrep : (replay (map_get T.problems (unfreeze_prob_loop (letters pc) T.problems).2)).is_frozen
      = false := rfl
  cases hs : (replay (map_get T.problems (unfreeze_prob_loop (letters pc) T.problems).2)).solved with
  | false =>
    left
    have hc := calculate_stats_congr (reveal_team pc T) T pc
      (fun p => by
        simp only [scores, reveal_team_get]
        split
        · next e => rw [e, hs, hz]; simp
        · rfl)
      (fun p hp => by
        simp only [scores, reveal_team_get] at hp ⊢
        split
        · next e => rw [e, if_pos rfl, hs] at hp; simp at hp
        · exact ⟨rfl, rfl⟩)
    rw [hid] at hc
    exact ⟨hc.1.trans hf.1.symm, hc.2.1.trans hf.2.1.symm, hc.2.2.trans hf.2.2.symm⟩
  | true =>
    right
    have h1 : (reveal_team pc T).solved_count = ((scoring (reveal_team pc T) pc).length : Int) := by
      conv_lhs => rw [← hid, calculate_stats_eq]
    have h2 : T.solved_count = ((scoring T pc).length : Int) := by
      rw [hf.1, calculate_stats_eq]
    have h3 := filter_length_flip (letters pc) (scores (reveal_team pc T).problems)
      (scores T.problems) _ (letters_nodup pc) hu
      (by simp only [scores, reveal_team_get, if_true, hs, hrep]; rfl)
      (by simp only [scores, hz]; simp)
      (fun y _ hy => by simp only [scores, reveal_team_get, if_neg hy])
    rw [h1, h2]
    unfold scoring
    rw [h3]
    push_cast
    rfl

theorem team_lt_of_better (X T T' : Team) (hn : T'.name = T.name)
    (hb : (T'.solved_count = T.solved_count ∧ T'.penalty_time = T.penalty_time ∧
            T'.solve_times = T.solve_times) ∨
          T'.solved_count = T.solved_count + 1)
    (h : Team.lt X T' = true) : Team.lt X T = true := by
  rcases hb with ⟨h1, h2, h3⟩ | h1
  · have e : Team.lt X T' = Team.lt X T := by
      unfold Team.lt
      rw [h1, h2, h3, hn]
    rw [← e]
    exact h
  · rw [team_lt_iff] at h ⊢
    rcases h with h | ⟨e, _⟩
    · exact Or.inl (by omega)
    · exact Or.inl (by omega)

theorem team_lt_fields (a a' b b' : Team)
    (ha : a.name = a'.name ∧ a.solved_count = a'.solved_count ∧
      a.penalty_time = a'.penalty_time ∧ a.solve_times = a'.solve_times)
    (hb : b.name = b'.name ∧ b.solved_count = b'.solved_count ∧
      b.penalty_time = b'.penalty_time ∧ b.solve_times = b'.solve_times) :
    Team.lt a b = Team.lt a' b' := by
  unfold Team.lt
  rw [ha.1, ha.2.1, ha.2.2.1, ha.2.2.2, hb.1, hb.2.1, hb.2.2.1, hb.2.2.2]

theorem scroll_reveal_team_fields (x : ICPCSystem) (tgt n : String) :
    ((scroll_reveal x tgt).1.team n).name = ((reveal_target x tgt).team n).name ∧
    ((scroll_reveal x tgt).1.team n).solved_count
      = ((reveal_target x tgt).team n).solved_count ∧
    ((scroll_reveal x tgt).1.team n).penalty_time
      = ((reveal_target x tgt).team n).penalty_time ∧
    ((scroll_reveal x tgt).1.team n).solve_times
      = ((reveal_target x tgt).team n).solve_times := by
  rw [scroll_reveal_team, assign_rankings_team]
  exact ⟨rfl, rfl, rfl, rfl⟩

theorem reveal_target_team_ne (x : ICPCSystem) (tgt n : String) (h : n ≠ tgt) :
    (reveal_target x tgt).team n = x.team n := by
  rw [reveal_target_team, if_neg h]

theorem reveal_target_team_self (x : ICPCSystem) (tgt : String) :
    (reveal_target x tgt).team tgt = reveal_team x.problem_count (x.team tgt) := by
  rw [reveal_target_team, if_pos rfl]

/-- The line of a pass of `scroll` whose target got a smaller rank names a registered
team that now has the rank after the target. -/
theorem scroll_reveal_line (x : ICPCSystem) (tgt : String) (hnd : x.team_names.Nodup)
    (htm : tgt ∈ x.team_names) (hold : (x.team tgt).ranking ≤ x.team_names.length)
    (hlt : ((scroll_reveal x tgt).1.team tgt).ranking < (x.team tgt).ranking) :
    ∃ other ∈ x.team_names,
      ((scroll_reveal x tgt).1.team other).ranking
        = ((scroll_reveal x tgt).1.team tgt).ranking + 1 ∧
      (scroll_reveal x tgt).2.1 =
        [((scroll_reveal x tgt).1.team tgt).name ++ " " ++ other ++ " "
          ++ toString ((scroll_reveal x tgt).1.team tgt).solved_count ++ " "
          ++ toString ((scroll_reveal x tgt).1.team tgt).penalty_time] := by
  have hout := scroll_reveal_out x tgt
  rw [hout, if_pos hlt]
  have hR := scroll_reveal_RankInv x tgt
  have hnames : (scroll_reveal x tgt).1.team_names = x.team_names := (scroll_reveal_fields _ _).1
  have hnd' : (scroll_reveal x tgt).1.team_names.Nodup := by rw [hnames]; exact hnd
  have hnew := hR.1 tgt (by rw [hnames]; exact htm)
  obtain ⟨w, hw, hwr⟩ := hR.2.2 hnd' (((scroll_reveal x tgt).1.team tgt).ranking).toNat
    (by rw [hnames]; omega)
  rw [hnames] at hw
  have hwr' : ((scroll_reveal x tgt).1.team w).ranking
      = ((scroll_reveal x tgt).1.team tgt).ranking + 1 := by
    rw [hwr]; omega
  have hex : ∃ n ∈ x.team_names,
      (map_get (assign_rankings (reveal_target x tgt)).teams n).ranking
        = ((scroll_reveal x tgt).1.team tgt).ranking + 1 := by
    refine ⟨w, hw, ?_⟩
    rw [← hwr', scroll_reveal_team]
    rfl
  have hrep := (replaced_loop_spec _ _ _).1 hex
  refine ⟨_, hrep.1, ?_, rfl⟩
  rw [scroll_reveal_team x tgt (replaced_loop _ x.team_names _).2]
  exact hrep.2

/-- What a pass of `scroll` does to the ranks, from a state with the invariants of a
loop head. -/
theorem scroll_reveal_ranks (x : ICPCSystem) (tgt : String) (_hreg : Registered x)
    (hf : FreshObs x) (hc : CountInv x) (ho : OrderInv x) (hr : RankInv x)
    (hc1 : CountInv (scroll_reveal x tgt).1) (ho1 : OrderInv (scroll_reveal x tgt).1)
    (hr1 : RankInv (scroll_reveal x tgt).1)
    (htm : tgt ∈ x.team_names) (hh : has_hidden x tgt = true) :
    ((scroll_reveal x tgt).1.team tgt).ranking ≤ (x.team tgt).ranking ∧
    (∀ a ∈ x.team_names, ∀ b ∈ x.team_names, a ≠ tgt → b ≠ tgt →
      ((x.team a).ranking < (x.team b).ranking ↔
        ((scroll_reveal x tgt).1.team a).ranking < ((scroll_reveal x tgt).1.team b).ranking)) ∧
    (∀ o ∈ x.team_names,
      ((scroll_reveal x tgt).1.team tgt).ranking < (x.team tgt).ranking →
      ((scroll_reveal x tgt).1.team o).ranking = ((scroll_reveal x tgt).1.team tgt).ranking + 1 →
      (x.team o).ranking = ((scroll_reveal x tgt).1.team tgt).ranking) := by
  have hnames : (scroll_reveal x tgt).1.team_names = x.team_names := (scroll_reveal_fields _ _).1
  have hord : ∀ a ∈ x.team_names, ∀ b ∈ x.team_names, a ≠ tgt → b ≠ tgt →
      ((x.team a).ranking < (x.team b).ranking ↔
        ((scroll_reveal x tgt).1.team a).ranking
          < ((scroll_reveal x tgt).1.team b).ranking) := by
    intro a ha b hb hat hbt
    rw [ho a ha b hb, ho1 a (hnames ▸ ha) b (hnames ▸ hb)]
    have e : Team.lt ((scroll_reveal x tgt).1.team a) ((scroll_reveal x tgt).1.team b)
        = Team.lt (x.team a) (x.team b) := by
      apply team_lt_fields
      · have := scroll_reveal_team_fields x tgt a
        rw [reveal_target_team_ne x tgt a hat] at this
        exact this
      · have := scroll_reveal_team_fields x tgt b
        rw [reveal_target_team_ne x tgt b hbt] at this
        exact this
    rw [e]
  have hu := unfreeze_prob_spec x tgt hh
  have hbet := reveal_team_better x.problem_count (x.team tgt) (hf tgt) hu.1 hu.2.1
  have hmon : ∀ c ∈ x.team_names,
      ((scroll_reveal x tgt).1.team c).ranking < ((scroll_reveal x tgt).1.team tgt).ranking →
      (x.team c).ranking < (x.team tgt).ranking := by
    intro c hcm hlt
    have hct : c ≠ tgt := by
      intro e
      rw [e] at hlt
      omega
    rw [ho c hcm tgt htm]
    rw [ho1 c (hnames ▸ hcm) tgt (hnames ▸ htm)] at hlt
    have e : Team.lt ((scroll_reveal x tgt).1.team c) ((scroll_reveal x tgt).1.team tgt)
        = Team.lt (x.team c) (reveal_team x.problem_count (x.team tgt)) := by
      apply team_lt_fields
      · have := scroll_reveal_team_fields x tgt c
        rw [reveal_target_team_ne x tgt c hct] at this
        exact this
      · have := scroll_reveal_team_fields x tgt tgt
        rw [reveal_target_team_self x tgt] at this
        exact this
    rw [e] at hlt
    exact team_lt_of_better _ _ _ (reveal_team_fields _ _).1 hbet hlt
  have hc1' : ∀ b ∈ x.team_names, ((scroll_reveal x tgt).1.team b).ranking
      = (x.team_names.countP (fun c => decide (((scroll_reveal x tgt).1.team c).ranking
          < ((scroll_reveal x tgt).1.team b).ranking)) : Int) + 1 := by
    intro b hb
    have := hc1 b (hnames ▸ hb)
    rw [hnames] at this
    exact this
  have hi1 : ∀ a ∈ x.team_names, ∀ b ∈ x.team_names,
      ((scroll_reveal x tgt).1.team a).ranking = ((scroll_reveal x tgt).1.team b).ranking →
      a = b :=
    fun a ha b hb e => hr1.2.1 a (hnames ▸ ha) b (hnames ▸ hb) e
  have hsh := rank_shift x.team_names (fun n => (x.team n).ranking)
    (fun n => ((scroll_reveal x tgt).1.team n).ranking) tgt htm hc hc1' hr.2.1 hi1 hord hmon
  exact ⟨hsh.1, hord, hsh.2⟩

/-- C19, as stated, fails: a bare `ADDTEAM` line registers the empty name. In the
scroll of `empty_name_demo` the team `Z` passes the team with the empty name, and
the rank-change line is `Z  1 5`: its second name is empty. The whole run prints that
line between the two boards. -/
theorem scroll_second_name_empty_counterexample :
    ¬ (∀ (s : ICPCSystem) (target second : String), ScrollHead empty_name_demo s →
        (scroll_select s).2 = some target →
        (scroll_reveal (scroll_select s).1 target).2.1 =
          [target ++ " " ++ second ++ " "
            ++ toString ((scroll_reveal (scroll_select s).1 target).1.team target).solved_count
            ++ " "
            ++ toString
                ((scroll_reveal (scroll_select s).1 target).1.team target).penalty_time] →
        second ≠ "") ∧
    (scroll_reveal (scroll_select (scroll_init empty_name_demo).1).1 "Z").2.1 = ["Z  1 5"] ∧
    (run 2 {} [Command.ADDTEAM "", Command.ADDTEAM "Z", Command.START 180 1, Command.FREEZE,
        Command.SUBMIT "A" "Z" "Accepted" 5, Command.SCROLL]).map (fun r => r.2)
      = some ["[Info]Add successfully.", "[Info]Add successfully.", "[Info]Competition starts.",
          "[Info]Freeze scoreboard.", "[Info]Scroll scoreboard.", " 1 0 0 .", "Z 2 0 0 0/1",
          "Z  1 5", "Z 1 1 5 +", " 2 0 0 ."] := by
  refine ⟨fun h => ?_, by decide, by decide⟩
  exact h (scroll_init empty_name_demo).1 "Z" "" ScrollHead.init (by decide) (by decide) rfl

/-- C19, amended: at every loop head of a `scroll` started with the registration
invariant (names listed once, each team stored under its own name; true of every
reachable state), a pass never makes the rank number of the target larger and never
changes the relative order of the other registered teams. Whenever the pass writes a
rank-change line, the second name on it is the name of a registered team other than
the target, never the placeholder of a rank that nobody holds; it is empty only when
the empty string is a registered name. That team is the only registered one whose
rank is now the new rank of the target plus one, and before the reveal it held the
new rank of the target. -/
theorem scroll_rank_change_second_name (s0 s : ICPCSystem) (target : String)
    (h0 : Registered s0) (hs : ScrollHead s0 s) (ht : (scroll_select s).2 = some target) :
    ((scroll_reveal (scroll_select s).1 target).1.team target).ranking
      ≤ (s.team target).ranking ∧
    (∀ a ∈ s.team_names, ∀ b ∈ s.team_names, a ≠ target → b ≠ target →
      ((s.team a).ranking < (s.team b).ranking ↔
        ((scroll_reveal (scroll_select s).1 target).1.team a).ranking
          < ((scroll_reveal (scroll_select s).1 target).1.team b).ranking)) ∧
    ((scroll_reveal (scroll_select s).1 target).2.1 ≠ [] →
      ∃ other ∈ s.team_names,
        other ≠ target ∧ ("" ∉ s.team_names → other ≠ "") ∧
        ((scroll_reveal (scroll_select s).1 target).1.team other).ranking
          = ((scroll_reveal (scroll_select s).1 target).1.team target).ranking + 1 ∧
        (∀ n ∈ s.team_names,
          ((scroll_reveal (scroll_select s).1 target).1.team n).ranking
            = ((scroll_reveal (scroll_select s).1 target).1.team target).ranking + 1 →
          n = other) ∧
        (s.team other).ranking
          = ((scroll_reveal (scroll_select s).1 target).1.team target).ranking ∧
        (scroll_reveal (scroll_select s).1 target).2.1 =
          [target ++ " " ++ other ++ " "
            ++ toString ((scroll_reveal (scroll_select s).1 target).1.team target).solved_count
            ++ " "
            ++ toString
                ((scroll_reveal (scroll_select s).1 target).1.team target).penalty_time]) := by
  have hsim := scroll_select_sim s
  have hinv := ScrollHead_inv s0 s hs
  have hgood := ScrollHead_order s0 s h0 hs
  have hs1 : ScrollHead s0 (scroll_reveal (scroll_select s).1 target).1 := ScrollHead.step hs ht
  have hinv1 := ScrollHead_inv s0 _ hs1
  have hgood1 := ScrollHead_order s0 _ h0 hs1
  have hsel := scroll_select_some s target ht
  have hregx : Registered (scroll_select s).1 := by
    refine ⟨by rw [hsim.1]; exact hgood.1.1, fun n hn => ?_⟩
    rw [(hsim.2.2.2.2.2 n).1]
    exact hgood.1.2 n (hsim.1 ▸ hn)
  have hmain := scroll_reveal_ranks (scroll_select s).1 target hregx
    (FreshObs_congr hsim (ScrollHead_fresh s0 s hs)) (CountInv_congr hsim hgood.2.1)
    (OrderInv_congr hsim hgood.2.2) (RankInv_congr hsim hinv.2.2.2)
    hgood1.2.1 hgood1.2.2 hinv1.2.2.2 (by rw [hsim.1]; exact hsel.1)
    (by rw [has_hidden_congr hsim]; exact hsel.2.1)
  simp only [system_sim_ranking hsim, hsim.1] at hmain
  refine ⟨hmain.1, hmain.2.1, fun hne => ?_⟩
  have hout := scroll_reveal_out (scroll_select s).1 target
  rw [system_sim_ranking hsim target] at hout
  have hlt : ((scroll_reveal (scroll_select s).1 target).1.team target).ranking
      < (s.team target).ranking := by
    by_contra hcon
    rw [if_neg hcon] at hout
    exact hne hout
  have hold := hinv.2.2.2.1 target hsel.1
  obtain ⟨other, hom, hor, hline⟩ := scroll_reveal_line (scroll_select s).1 target hregx.1
    (by rw [hsim.1]; exact hsel.1)
    (by rw [system_sim_ranking hsim, hsim.1]; exact hold.2)
    (by rw [system_sim_ranking hsim]; exact hlt)
  rw [hsim.1] at hom
  have hname : ((scroll_reveal (scroll_select s).1 target).1.team target).name = target :=
    hgood1.1.2 target (by rw [hinv1.1, ← hinv.1]; exact hsel.1)
  rw [hname] at hline
  have hot : other ≠ target := by
    intro e
    rw [e] at hor
    omega
  refine ⟨other, hom, hot, fun hemp e => hemp (e ▸ hom), hor, fun n hn hnr => ?_,
    hmain.2.2 other hom hlt hor, hline⟩
  exact hinv1.2.2.2.2.1 n (by rw [hinv1.1, ← hinv.1]; exact hn) other
    (by rw [hinv1.1, ← hinv.1]; exact hom) (hnr.trans hor.symm)

theorem scroll_rank_change_second_name_witness :
    Registered demo_frozen ∧
    ScrollHead demo_frozen (scroll_init demo_frozen).1 ∧
    (scroll_select (scroll_init demo_frozen).1).2 = some "B" ∧
    (scroll_reveal (scroll_select (scroll_init demo_frozen).1).1 "B").2.1 ≠ [] ∧
    ((scroll_reveal (scroll_select (scroll_init demo_frozen).1).1 "B").1.team "B").ranking
      ≤ ((scroll_init demo_frozen).1.team "B").ranking :=
  have h0 : Registered demo_frozen := by
    unfold Registered
    decide
  ⟨h0, ScrollHead.init, by decide, by decide,
   (scroll_rank_change_second_name demo_frozen (scroll_init demo_frozen).1 "B" h0
      ScrollHead.init (by decide)).1⟩

/-! ### the order in which `scroll` reveals -/

theorem ScrollHeadBefore_head (s0 s : ICPCSystem) (X : String) (h : ScrollHeadBefore s0 X s) :
    ScrollHead s0 s := by
  induction h with
  | init => exact ScrollHead.init
  | step _ hsel _ ih => exact ScrollHead.step ih hsel

/-- A pass of `scroll` from a loop head keeps the relative order of the registered
teams other than its target. -/
theorem ScrollHead_pass_order (s0 s : ICPCSystem) (target : String)
    (h0 : Registered s0) (hs : ScrollHead s0 s) (ht : (scroll_select s).2 = some target) :
    ∀ a ∈ s.team_names, ∀ b ∈ s.team_names, a ≠ target → b ≠ target →
      ((s.team a).ranking < (s.team b).ranking ↔
        ((scroll_reveal (scroll_select s).1 target).1.team a).ranking
          < ((scroll_reveal (scroll_select s).1 target).1.team b).ranking) := by
  have hsim := scroll_select_sim s
  have hinv := ScrollHead_inv s0 s hs
  have hgood := ScrollHead_order s0 s h0 hs
  have hs1 : ScrollHead s0 (scroll_reveal (scroll_select s).1 target).1 := ScrollHead.step hs ht
  have hinv1 := ScrollHead_inv s0 _ hs1
  have hgood1 := ScrollHead_order s0 _ h0 hs1
  have hsel := scroll_select_some s target ht
  have hregx : Registered (scroll_select s).1 := by
    refine ⟨by rw [hsim.1]; exact hgood.1.1, fun n hn => ?_⟩
    rw [(hsim.2.2.2.2.2 n).1]
    exact hgood.1.2 n (hsim.1 ▸ hn)
  have hmain := scroll_reveal_ranks (scroll_select s).1 target hregx
    (FreshObs_congr hsim (ScrollHead_fresh s0 s hs)) (CountInv_congr hsim hgood.2.1)
    (OrderInv_congr hsim hgood.2.2) (RankInv_congr hsim hinv.2.2.2)
    hgood1.2.1 hgood1.2.2 hinv1.2.2.2 (by rw [hsim.1]; exact hsel.1)
    (by rw [has_hidden_congr hsim]; exact hsel.2.1)
  simp only [system_sim_ranking hsim, hsim.1] at hmain
  exact hmain.2.1

theorem scroll_reveal_has_hidden_ne (x : ICPCSystem) (tgt n : String) (h : n ≠ tgt) :
    has_hidden (scroll_reveal x tgt).1 n = has_hidden x n := by
  simp only [has_hidden, (scroll_reveal_fields x tgt).2.2.2.2, scroll_reveal_status, h,
    false_and, if_false]

theorem ScrollHeadBefore_inv (s0 s : ICPCSystem) (X Y : String) (h0 : Registered s0)
    (hX : X ∈ s0.team_names) (hY : Y ∈ s0.team_names)
    (hh : has_hidden (scroll_init s0).1 X = true)
    (hr : ((scroll_init s0).1.team Y).ranking < ((scroll_init s0).1.team X).ranking)
    (h : ScrollHeadBefore s0 X s) :
    has_hidden s X = true ∧ (s.team Y).ranking < (s.team X).ranking := by
  induction h with
  | init => exact ⟨hh, hr⟩
  | @step s target hprev hsel hne ih =>
    have hs := ScrollHeadBefore_head s0 s X hprev
    have hinv := ScrollHead_inv s0 s hs
    have hsl := scroll_select_some s target hsel
    have hXs : X ∈ s.team_names := by rw [hinv.1]; exact hX
    have hYs : Y ∈ s.team_names := by rw [hinv.1]; exact hY
    have hle := hsl.2.2 X hXs ih.1
    have hYt : Y ≠ target := by
      intro e
      rw [e] at ih
      omega
    refine ⟨?_, ?_⟩
    · rw [scroll_reveal_has_hidden_ne _ _ _ (Ne.symm hne), has_hidden_congr (scroll_select_sim s)]
      exact ih.1
    · exact (ScrollHead_pass_order s0 s target h0 hs hsel Y hYs X hXs hYt (Ne.symm hne)).1 ih.2

/-- C15, as stated, fails: in the scroll of `order_demo` both teams have hidden
problems at the start and `Q` has the larger baseline rank number, yet after the
first reveal (`Q`, problem `A`) the loop reveals problem `A` of `P` while problem `B`
of `Q` is still hidden; the reveals of the whole loop are `Q A`, `P A`, `Q B`. -/
theorem scroll_baseline_order_counterexample :
    ¬ (∀ (s : ICPCSystem) (X Y : String), ScrollHead order_demo s →
        X ∈ order_demo.team_names → Y ∈ order_demo.team_names →
        has_hidden (scroll_init order_demo).1 X = true →
        has_hidden (scroll_init order_demo).1 Y = true →
        ((scroll_init order_demo).1.team X).ranking
          > ((scroll_init order_demo).1.team Y).ranking →
        has_hidden s X = true → (scroll_select s).2 ≠ some Y) ∧
    (scroll_loop 4 (scroll_init order_demo).1).map (fun r => r.reveals)
      = some [("Q", 65), ("P", 65), ("Q", 66)] := by
  refine ⟨fun h => ?_, by decide⟩
  exact h (scroll_reveal (scroll_select (scroll_init order_demo).1).1 "Q").1 "Q" "P"
    (ScrollHead.step ScrollHead.init (by decide)) (by decide) (by decide) (by decide)
    (by decide) (by decide) (by decide) (by decide)

/-- C15, amended: at every loop head of a `scroll`, a registered team `X` with a hidden
problem and a current rank number larger than that of `Y` keeps the pass from
revealing a problem of `Y`. With the ranks of the start of the scroll (the baseline)
this holds until the first reveal of `X`: started with the registration invariant, if
`X` has a hidden problem at the start and its baseline rank number is larger than
that of `Y`, then at every loop head reached before a problem of `X` was revealed,
`X` still has a hidden problem, its rank number is still larger than that of `Y`,
and the pass does not reveal a problem of `Y`. -/
theorem scroll_order_current_rank (s0 s : ICPCSystem) (X Y : String)
    (hX : X ∈ s0.team_names) (hY : Y ∈ s0.team_names) :
    (ScrollHead s0 s → has_hidden s X = true →
      (s.team Y).ranking < (s.team X).ranking → (scroll_select s).2 ≠ some Y) ∧
    (Registered s0 → ScrollHeadBefore s0 X s →
      has_hidden (scroll_init s0).1 X = true →
      ((scroll_init s0).1.team Y).ranking < ((scroll_init s0).1.team X).ranking →
      has_hidden s X = true ∧ (s.team Y).ranking < (s.team X).ranking ∧
      (scroll_select s).2 ≠ some Y) := by
  have key : ScrollHead s0 s → has_hidden s X = true →
      (s.team Y).ranking < (s.team X).ranking → (scroll_select s).2 ≠ some Y := by
    intro hs hh hr hsel
    have hinv := ScrollHead_inv s0 s hs
    have hle := (scroll_select_some s Y hsel).2.2 X (by rw [hinv.1]; exact hX) hh
    omega
  refine ⟨key, fun h0 hb hh hr => ?_⟩
  have hi := ScrollHeadBefore_inv s0 s X Y h0 hX hY hh hr hb
  exact ⟨hi.1, hi.2, key (ScrollHeadBefore_head s0 s X hb) hi.1 hi.2⟩

theorem scroll_order_current_rank_witness :
    "Q" ∈ order_demo.team_names ∧ "P" ∈ order_demo.team_names ∧
    ScrollHead order_demo (scroll_init order_demo).1 ∧
    has_hidden (scroll_init order_demo).1 "Q" = true ∧
    ((scroll_init order_demo).1.team "P").ranking
      < ((scroll_init order_demo).1.team "Q").ranking ∧
    (scroll_select (scroll_init order_demo).1).2 ≠ some "P" :=
  ⟨by decide, by decide, ScrollHead.init, by decide, by decide,
   (scroll_order_current_rank order_demo (scroll_init order_demo).1 "Q" "P"
      (by decide) (by decide)).1 ScrollHead.init (by decide) (by decide)⟩

/-! ### a frozen run against the run without the freeze -/

theorem same_result_refl (x : ProblemStatus) : same_result x x := ⟨rfl, rfl, rfl⟩

theorem same_result_trans {x y z : ProblemStatus} (h : same_result x y) (h' : same_result y z) :
    same_result x z :=
  ⟨h.1.trans h'.1, h.2.1.trans h'.2.1, h.2.2.trans h'.2.2⟩

theorem same_result_symm {x y : ProblemStatus} (h : same_result x y) : same_result y x :=
  ⟨h.1.symm, h.2.1.symm, h.2.2.symm⟩

theorem submit_unfrozen_congr (st : String) (tm : Int) (x y : ProblemStatus)
    (h : same_result x y) :
    same_result (submit_status false st tm x) (submit_status false st tm y) := by
  obtain ⟨h1, h2, h3⟩ := h
  unfold submit_status same_result
  simp only [Bool.false_eq_true, if_false, h1]
  split
  · split
    · exact ⟨rfl, h2, rfl⟩
    · exact ⟨rfl, by simp only [h2], h3⟩
  · exact ⟨h1, h2, h3⟩

theorem replay_loop_congr (subs : List (String × Int)) : ∀ (x y : ProblemStatus),
    same_result x y → same_result (replay_loop subs x) (replay_loop subs y) := by
  induction subs with
  | nil => intro x y h; exact h
  | cons e rest ih =>
    intro x y h
    rw [replay_loop_eq_submit, replay_loop_eq_submit]
    simp only [List.foldl_cons]
    rw [← replay_loop_eq_submit, ← replay_loop_eq_submit]
    exact ih _ _ (submit_unfrozen_congr e.1 e.2 x y h)

theorem replay_loop_snoc (subs : List (String × Int)) (e : String × Int) (x : ProblemStatus) :
    replay_loop (subs ++ [e]) x = submit_status false e.1 e.2 (replay_loop subs x) := by
  rw [replay_loop_eq_submit, replay_loop_eq_submit, List.foldl_append]
  rfl

theorem StatusSim_default : StatusSim default default := by
  refine ⟨same_result_refl _, rfl, fun _ => rfl, fun h => ?_⟩
  simp [default] at h

theorem StatusSim_submit (st : String) (tm : Int) (a b : ProblemStatus) (h : StatusSim a b) :
    StatusSim (submit_status true st tm a) (submit_status false st tm b) := by
  obtain ⟨h1, h2, h3, h4⟩ := h
  by_cases hc : (!a.solved && !a.was_solved_before_freeze) = true
  · have e : submit_status true st tm a
        = { a with frozen_subs := a.frozen_subs ++ [(st, tm)], is_frozen := true } := by
      simp only [submit_status, if_true, hc]
    rw [e]
    refine ⟨?_, ?_, fun hz => by simp at hz, h4⟩
    · simp only []
      rw [replay_loop_snoc]
      apply submit_unfrozen_congr
      exact same_result_trans h1
        (replay_loop_congr _ _ _ ⟨rfl, rfl, rfl⟩)
    · unfold submit_status
      simp only [Bool.false_eq_true, if_false]
      split
      · split <;> exact h2
      · exact h2
  · have e : submit_status true st tm a = a := by
      simp only [submit_status, if_true, hc]
      rfl
    have hs : a.solved = true := by
      cases hsv : a.solved with
      | true => rfl
      | false =>
        cases hw : a.was_solved_before_freeze with
        | true => rw [h4 hw] at hsv; exact hsv.symm
        | false => simp [hsv, hw] at hc
    have hb : b.solved = true := by
      rw [h1.1, replay_loop_solved _ _ hs]; exact hs
    have e2 : submit_status false st tm b = b := by
      simp [submit_status, hb]
    rw [e, e2]
    exact ⟨h1, h2, h3, h4⟩

theorem add_team_status_eq (s : ICPCSystem) (m n : String) (p : Nat) :
    (add_team s m).1.status n p = s.status n p := by
  cases hs : s.competition_started with
  | true => rw [add_team_started s m hs]
  | false =>
    by_cases hk : has_key s.teams m
    · rw [add_team_duplicate s m hs hk]
    · rw [add_team_success s m hs hk]
      simp only [ICPCSystem.status, ICPCSystem.team, map_get_modify]
      split
      · next e =>
        subst e
        rw [map_get_of_not_has_key _ _ hk]
        rfl
      · rfl

theorem add_team_consts (s : ICPCSystem) (m : String) :
    (add_team s m).1.problem_count = s.problem_count ∧
    (add_team s m).1.competition_started = s.competition_started ∧
    (add_team s m).1.is_frozen = s.is_frozen := by
  unfold add_team
  split
  · exact ⟨rfl, rfl, rfl⟩
  · split <;> exact ⟨rfl, rfl, rfl⟩

theorem add_team_names_mono (s : ICPCSystem) (m n : String) (h : n ∈ s.team_names) :
    n ∈ (add_team s m).1.team_names := by
  unfold add_team
  split
  · exact h
  · split
    · exact h
    · exact List.mem_append_left _ h

theorem has_key_foldl_touch_iff (l : List String) (m : List (String × Team)) (k : String) :
    has_key (l.foldl map_touch m) k ↔ k ∈ l ∨ has_key m k := by
  induction l generalizing m with
  | nil => simp
  | cons a l ih =>
    rw [List.foldl_cons, ih, map_touch, has_key_modify, List.mem_cons]
    tauto

theorem has_key_assign_loop_iff (l : List String) (i : Nat) (m : List (String × Team))
    (k : String) : has_key (assign_loop l i m) k ↔ k ∈ l ∨ has_key m k := by
  induction l generalizing i m with
  | nil => simp [assign_loop]
  | cons a l ih =>
    rw [assign_loop, ih, has_key_modify, List.mem_cons]
    tauto

theorem flush_keys (s : ICPCSystem) (k : String) :
    has_key (flush s).1.teams k ↔ k ∈ s.team_names ∨ has_key s.teams k := by
  simp only [flush, assign_rankings, get_sorted_teams]
  rw [has_key_assign_loop_iff, has_key_foldl_touch_iff, (List.perm_insertionSort _ _).mem_iff]
  simp only [update_all_stats]
  rw [has_key_map s.teams (fun t => t.calculate_stats s.problem_count) k]
  tauto

theorem start_competition_keys (s : ICPCSystem) (d pr : Int) (k : String) :
    has_key (start_competition s d pr).1.teams k ↔
      (s.competition_started = false ∧ k ∈ s.team_names) ∨ has_key s.teams k := by
  unfold start_competition
  cases hs : s.competition_started with
  | true => simp
  | false =>
    simp only [Bool.false_eq_true, if_false, true_and]
    rw [has_key_assign_loop_iff, (List.perm_insertionSort _ _).mem_iff,
      has_key_map s.teams (fun t => start_team pr t) k]

theorem start_competition_consts (s : ICPCSystem) (d pr : Int) :
    (start_competition s d pr).1.team_names = s.team_names ∧
    (start_competition s d pr).1.is_frozen = s.is_frozen ∧
    (start_competition s d pr).1.competition_started = true ∧
    (start_competition s d pr).1.problem_count
      = if s.competition_started then s.problem_count else pr := by
  unfold start_competition
  cases hs : s.competition_started with
  | true => simp [hs]
  | false => simp

theorem flush_consts (s : ICPCSystem) :
    (flush s).1.team_names = s.team_names ∧ (flush s).1.is_frozen = s.is_frozen ∧
    (flush s).1.competition_started = s.competition_started ∧
    (flush s).1.problem_count = s.problem_count :=
  ⟨rfl, rfl, rfl, rfl⟩

theorem add_team_names_congr (f u : ICPCSystem) (m : String)
    (hs : f.competition_started = u.competition_started)
    (hk : has_key f.teams m ↔ has_key u.teams m) (hn : f.team_names = u.team_names) :
    (add_team f m).1.team_names = (add_team u m).1.team_names := by
  cases hf : f.competition_started with
  | true => rw [add_team_started f m hf, add_team_started u m (hs ▸ hf)]; exact hn
  | false =>
    by_cases hkf : has_key f.teams m
    · rw [add_team_duplicate f m hf hkf, add_team_duplicate u m (hs ▸ hf) (hk.1 hkf)]; exact hn
    · rw [add_team_success f m hf hkf,
        add_team_success u m (hs ▸ hf) (fun h => hkf (hk.2 h))]
      simp only [hn]

theorem add_team_keys (s : ICPCSystem) (m k : String) :
    has_key (add_team s m).1.teams k ↔
      (s.competition_started = false ∧ k = m) ∨ has_key s.teams k := by
  cases hf : s.competition_started with
  | true => rw [add_team_started s m hf]; simp
  | false =>
    by_cases hkf : has_key s.teams m
    · rw [add_team_duplicate s m hf hkf]
      constructor
      · exact Or.inr
      · rintro (⟨_, e⟩ | h)
        · rw [e]; exact hkf
        · exact h
    · rw [add_team_success s m hf hkf]
      simp only [has_key_modify, true_and]

theorem FreezeSim_add_team (f u : ICPCSystem) (m : String) (h : FreezeSim f u) :
    FreezeSim (add_team f m).1 (add_team u m).1 := by
  have cf := add_team_consts f m
  have cu := add_team_consts u m
  refine ⟨add_team_names_congr f u m h.started (h.keys m) h.names, ?_, ?_, ?_, ?_, ?_, ?_, ?_, ?_⟩
  · rw [cf.1, cu.1]; exact h.count
  · rw [cf.2.1, cu.2.1]; exact h.started
  · rw [cf.2.2]; exact h.frozen
  · rw [cu.2.2]; exact h.unfrozen
  · intro k
    rw [add_team_keys, add_team_keys, h.started, h.keys k]
  · rw [cf.1, cf.2.1]; exact h.idle
  · intro n p
    rw [add_team_status_eq, add_team_status_eq]
    exact h.status n p
  · intro n p hz
    rw [add_team_status_eq] at hz
    rw [cf.1]
    exact ⟨add_team_names_mono f m n (h.hidden n p hz).1, (h.hidden n p hz).2⟩

theorem FreezeSim_start (f u : ICPCSystem) (d pr : Int) (h : FreezeSim f u) :
    FreezeSim (start_competition f d pr).1 (start_competition u d pr).1 := by
  have cf := start_competition_consts f d pr
  have cu := start_competition_consts u d pr
  refine ⟨?_, ?_, ?_, ?_, ?_, ?_, ?_, ?_, ?_⟩
  · rw [cf.1, cu.1]; exact h.names
  · rw [cf.2.2.2, cu.2.2.2, h.started, h.count]
  · rw [cf.2.2.1, cu.2.2.1]
  · rw [cf.2.1]; exact h.frozen
  · rw [cu.2.1]; exact h.unfrozen
  · intro k
    rw [start_competition_keys, start_competition_keys, h.started, h.names, h.keys k]
  · intro hs
    rw [cf.2.2.1] at hs
    simp at hs
  · intro n p
    rw [start_competition_status, start_competition_status, h.started]
    split
    · exact StatusSim_default
    · exact h.status n p
  · intro n p hz
    rw [start_competition_status] at hz
    split at hz
    · simp [default] at hz
    · have hh := h.hidden n p hz
      rw [cf.1, cf.2.2.2]
      cases hs : f.competition_started with
      | true => simpa using hh
      | false =>
        have := h.idle hs
        rw [this] at hh
        simp at hh

theorem FreezeSim_submit (f u : ICPCSystem) (pn tn st : String) (tm : Int) (h : FreezeSim f u)
    (hn : tn ∈ u.team_names) (hp : first_char pn ∈ letters u.problem_count) :
    FreezeSim (submit f pn tn st tm) (submit u pn tn st tm) := by
  refine ⟨h.names, h.count, h.started, h.frozen, h.unfrozen, ?_, h.idle, ?_, ?_⟩
  · intro k
    simp only [submit, has_key_modify, h.keys k]
  · intro n p
    rw [submit_status_eq, submit_status_eq, h.frozen, h.unfrozen]
    split
    · exact StatusSim_submit st tm _ _ (h.status n p)
    · exact h.status n p
  · intro n p hz
    rw [submit_status_eq] at hz
    split at hz
    · next hc =>
      show n ∈ f.team_names ∧ p ∈ letters f.problem_count
      rw [hc.1, hc.2, h.names, h.count]
      exact ⟨hn, hp⟩
    · exact h.hidden n p hz

theorem FreezeSim_flush (f u : ICPCSystem) (h : FreezeSim f u) :
    FreezeSim (flush f).1 (flush u).1 := by
  refine ⟨h.names, h.count, h.started, h.frozen, h.unfrozen, ?_, h.idle, ?_, ?_⟩
  · intro k
    rw [flush_keys, flush_keys, h.names, h.keys k]
  · intro n p
    rw [flush_status, flush_status]
    exact h.status n p
  · intro n p hz
    rw [flush_status] at hz
    exact h.hidden n p hz

theorem FreezeSim_apply (l : List Command) : ∀ (f u : ICPCSystem), FreezeSim f u →
    admissible u l = true → FreezeSim (apply_cmds f l) (apply_cmds u l) := by
  induction l with
  | nil => intro f u h _; exact h
  | cons c rest ih =>
    intro f u h ha
    cases c with
    | ADDTEAM m =>
      simp only [admissible] at ha
      simp only [apply_cmds, exec]
      exact ih _ _ (FreezeSim_add_team f u m h) ha
    | START d pr =>
      simp only [admissible, Bool.and_eq_true] at ha
      simp only [apply_cmds, exec]
      exact ih _ _ (FreezeSim_start f u d pr h) ha.2
    | SUBMIT pn tn st tm =>
      simp only [admissible, Bool.and_eq_true, decide_eq_true_eq] at ha
      simp only [apply_cmds, exec]
      exact ih _ _ (FreezeSim_submit f u pn tn st tm h ha.1.1 ha.1.2) ha.2
    | FLUSH =>
      simp only [admissible] at ha
      simp only [apply_cmds, exec]
      exact ih _ _ (FreezeSim_flush f u h) ha
    | FREEZE => simp [admissible] at ha
    | SCROLL => simp [admissible] at ha
    | QUERY_RANKING n => simp [admissible] at ha
    | QUERY_SUBMISSION n pf sf => simp [admissible] at ha
    | END => simp [admissible] at ha

theorem submit_unfrozen_keeps (st : String) (tm : Int) (ps : ProblemStatus) :
    (submit_status false st tm ps).is_frozen = ps.is_frozen ∧
    (submit_status false st tm ps).frozen_subs = ps.frozen_subs ∧
    (submit_status false st tm ps).was_solved_before_freeze = ps.was_solved_before_freeze := by
  unfold submit_status
  simp only [Bool.false_eq_true, if_false]
  split
  · split <;> exact ⟨rfl, rfl, rfl⟩
  · exact ⟨rfl, rfl, rfl⟩

theorem PreInv_init : PreInv {} :=
  ⟨rfl, fun _ => rfl, fun _ _ => ⟨rfl, rfl, rfl⟩⟩

theorem PreInv_apply (l : List Command) : ∀ (s : ICPCSystem), PreInv s →
    admissible s l = true → PreInv (apply_cmds s l) := by
  induction l with
  | nil => intro s h _; exact h
  | cons c rest ih =>
    intro s h ha
    cases c with
    | ADDTEAM m =>
      simp only [admissible] at ha
      simp only [apply_cmds, exec]
      refine ih _ ⟨?_, ?_, ?_⟩ ha
      · rw [(add_team_consts s m).2.2]; exact h.unfrozen
      · rw [(add_team_consts s m).1, (add_team_consts s m).2.1]; exact h.idle
      · intro n p
        rw [add_team_status_eq]
        exact h.status n p
    | START d pr =>
      simp only [admissible, Bool.and_eq_true] at ha
      simp only [apply_cmds, exec]
      refine ih _ ⟨?_, ?_, ?_⟩ ha.2
      · rw [(start_competition_consts s d pr).2.1]; exact h.unfrozen
      · intro hs
        rw [(start_competition_consts s d pr).2.2.1] at hs
        simp at hs
      · intro n p
        rw [start_competition_status]
        split
        · exact ⟨rfl, rfl, rfl⟩
        · exact h.status n p
    | SUBMIT pn tn st tm =>
      simp only [admissible, Bool.and_eq_true, decide_eq_true_eq] at ha
      simp only [apply_cmds, exec]
      refine ih _ ⟨h.unfrozen, h.idle, ?_⟩ ha.2
      intro n p
      rw [submit_status_eq, h.unfrozen]
      split
      · have hk := submit_unfrozen_keeps st tm (s.status n p)
        rw [hk.1, hk.2.1, hk.2.2]
        exact h.status n p
      · exact h.status n p
    | FLUSH =>
      simp only [admissible] at ha
      simp only [apply_cmds, exec]
      refine ih _ ⟨h.unfrozen, h.idle, ?_⟩ ha
      intro n p
      rw [flush_status]
      exact h.status n p
    | FREEZE => simp [admissible] at ha
    | SCROLL => simp [admissible] at ha
    | QUERY_RANKING n => simp [admissible] at ha
    | QUERY_SUBMISSION n pf sf => simp [admissible] at ha
    | END => simp [admissible] at ha

theorem FreezeSim_freeze (s : ICPCSystem) (h : PreInv s) : FreezeSim (freeze s).1 s := by
  have e : (freeze s).1 =
      { s with
        teams := s.teams.map (fun p => (p.1, freeze_team s.problem_count p.2)),
        is_frozen := true } := by
    simp [freeze, h.unfrozen]
  have hst : ∀ n p, (freeze s).1.status n p =
      if p ∈ letters s.problem_count ∧ (s.status n p).solved = true then
        { s.status n p with was_solved_before_freeze := true }
      else s.status n p := freeze_status s h.unfrozen
  refine ⟨by rw [e], by rw [e], by rw [e], by rw [e], h.unfrozen, ?_, ?_, ?_, ?_⟩
  · intro k
    rw [e]
    exact has_key_map s.teams (fun t => freeze_team s.problem_count t) k
  · rw [e]; exact h.idle
  · intro n p
    rw [hst]
    obtain ⟨h1, h2, h3⟩ := h.status n p
    split
    · next hc =>
      refine ⟨?_, h1, fun _ => h2, fun _ => hc.2⟩
      simp only [h2]
      exact ⟨rfl, rfl, rfl⟩
    · refine ⟨?_, h1, fun _ => h2, fun hw => ?_⟩
      · rw [h2]
        exact ⟨rfl, rfl, rfl⟩
      · rw [h3] at hw
        simp at hw
  · intro n p hz
    rw [hst] at hz
    split at hz
    · simp only [(h.status n p).1] at hz
      simp at hz
    · rw [(h.status n p).1] at hz
      simp at hz

theorem admissible_append (l1 : List Command) : ∀ (s : ICPCSystem) (l2 : List Command),
    admissible s (l1 ++ l2) = true →
    admissible s l1 = true ∧ admissible (apply_cmds s l1) l2 = true := by
  induction l1 with
  | nil => intro s l2 h; exact ⟨rfl, h⟩
  | cons c rest ih =>
    intro s l2 h
    cases c with
    | ADDTEAM m =>
      simp only [List.cons_append, admissible] at h ⊢
      simp only [apply_cmds, exec]
      exact ih _ _ h
    | START d pr =>
      simp only [List.cons_append, admissible, Bool.and_eq_true] at h ⊢
      simp only [apply_cmds, exec]
      exact ⟨⟨h.1, (ih _ _ h.2).1⟩, (ih _ _ h.2).2⟩
    | SUBMIT pn tn st tm =>
      simp only [List.cons_append, admissible, Bool.and_eq_true] at h ⊢
      simp only [apply_cmds, exec]
      exact ⟨⟨h.1, (ih _ _ h.2).1⟩, (ih _ _ h.2).2⟩
    | FLUSH =>
      simp only [List.cons_append, admissible] at h ⊢
      simp only [apply_cmds, exec]
      exact ih _ _ h
    | FREEZE => simp [admissible] at h
    | SCROLL => simp [admissible] at h
    | QUERY_RANKING n => simp [admissible] at h
    | QUERY_SUBMISSION n pf sf => simp [admissible] at h
    | END => simp [admissible] at h

theorem admissible_plain (l : List Command) : ∀ (s : ICPCSystem), admissible s l = true →
    ∀ c ∈ l, c ≠ Command.SCROLL ∧ c ≠ Command.END := by
  induction l with
  | nil => intro s _ c hc; cases hc
  | cons a rest ih =>
    intro s h c hc
    cases a with
    | ADDTEAM m =>
      simp only [admissible] at h
      rcases List.mem_cons.1 hc with e | e
      · subst e; exact ⟨by simp, by simp⟩
      · exact ih _ h c e
    | START d pr =>
      simp only [admissible, Bool.and_eq_true] at h
      rcases List.mem_cons.1 hc with e | e
      · subst e; exact ⟨by simp, by simp⟩
      · exact ih _ h.2 c e
    | SUBMIT pn tn st tm =>
      simp only [admissible, Bool.and_eq_true] at h
      rcases List.mem_cons.1 hc with e | e
      · subst e; exact ⟨by simp, by simp⟩
      · exact ih _ h.2 c e
    | FLUSH =>
      simp only [admissible] at h
      rcases List.mem_cons.1 hc with e | e
      · subst e; exact ⟨by simp, by simp⟩
      · exact ih _ h c e
    | FREEZE => simp [admissible] at h
    | SCROLL => simp [admissible] at h
    | QUERY_RANKING n => simp [admissible] at h
    | QUERY_SUBMISSION n pf sf => simp [admissible] at h
    | END => simp [admissible] at h

theorem exec_plain (fuel : Nat) (s : ICPCSystem) (c : Command) (h : c ≠ Command.SCROLL) :
    exec fuel s c = exec 0 s c := by
  cases c with
  | SCROLL => exact absurd rfl h
  | _ => rfl

theorem exec_plain_some (s : ICPCSystem) (c : Command) (h : c ≠ Command.SCROLL) :
    ∃ r, exec 0 s c = some r := by
  cases c with
  | SCROLL => exact absurd rfl h
  | _ => exact ⟨_, rfl⟩

theorem run_apply (fuel : Nat) (l : List Command) : ∀ (s s' : ICPCSystem)
    (rest : List Command) (out : List String),
    (∀ c ∈ l, c ≠ Command.SCROLL ∧ c ≠ Command.END) →
    run fuel s (l ++ rest) = some (s', out) →
    ∃ out2, run fuel (apply_cmds s l) rest = some (s', out2) := by
  induction l with
  | nil => intro s s' rest out _ h; exact ⟨out, h⟩
  | cons c l ih =>
    intro s s' rest out hl h
    have hc := hl c (List.mem_cons_self _ _)
    obtain ⟨s1, o1, o2, he, hrun, _⟩ := run_cons fuel s s' c (l ++ rest) out hc.2 h
    rw [exec_plain fuel s c hc.1] at he
    simp only [apply_cmds, he]
    exact ih s1 s' rest o2 (fun x hx => hl x (List.mem_cons_of_mem _ hx)) hrun

theorem apply_cmds_reachable (l : List Command) : ∀ (s : ICPCSystem), Reachable s →
    Reachable (apply_cmds s l) := by
  induction l with
  | nil => intro s h; exact h
  | cons c l ih =>
    intro s h
    simp only [apply_cmds]
    cases he : exec 0 s c with
    | none => exact h
    | some r => exact ih _ (exec_reachable 0 s r.1 c r.2 h he)

/-! ### the state `scroll` returns -/

/-- The statuses in the state that `scroll` returns on a frozen board on which only
active problems of registered teams are hidden: every hidden status is replaced by
its replay and the others are as before. -/
theorem scroll_final_status (fuel : Nat) (s s' : ICPCSystem) (out : List String)
    (hf : s.is_frozen = true) (h : scroll fuel s = some (s', out))
    (hh : ∀ n p, (s.status n p).is_frozen = true →
      n ∈ s.team_names ∧ p ∈ letters s.problem_count) :
    s'.team_names = s.team_names ∧ s'.problem_count = s.problem_count ∧
    ∀ n p, s'.status n p =
      if (s.status n p).is_frozen = true then replay (s.status n p) else s.status n p := by
  obtain ⟨run, hrun, hs', _⟩ := scroll_frozen_eq fuel s s' out hf h
  have hi := scroll_init_sim s
  have hst : ∀ n p, (scroll_init s).1.status n p = s.status n p := by
    intro n p
    rw [system_sim_status hi, assign_rankings_status, update_all_stats_status]
  have hnames : (scroll_init s).1.team_names = s.team_names := hi.1
  have hpc : (scroll_init s).1.problem_count = s.problem_count := hi.2.2.2.2.1
  have hJ := scroll_loop_invariant
    (fun x => x.team_names = s.team_names ∧ x.problem_count = s.problem_count ∧
      ∀ n p, x.status n p = s.status n p ∨
        ((s.status n p).is_frozen = true ∧ x.status n p = replay (s.status n p)))
    (fun a b hab hb => ⟨hab.1.trans hb.1, hab.2.2.2.2.1.trans hb.2.1, fun n p => by
      rw [system_sim_status hab]; exact hb.2.2 n p⟩)
    (fun x tgt hx hsel => by
      have hsim := scroll_select_sim x
      have hfl := scroll_reveal_fields (scroll_select x).1 tgt
      refine ⟨hfl.1.trans (hsim.1.trans hx.1),
        hfl.2.2.2.2.trans (hsim.2.2.2.2.1.trans hx.2.1), fun n p => ?_⟩
      rw [(scroll_pass_status x tgt hsel n p).2]
      split
      · next hc =>
        have hu := unfreeze_prob_spec x tgt (scroll_select_some x tgt hsel).2.1
        have hz : (x.status n p).is_frozen = true := by
          rw [hc.1, hc.2]
          exact hu.2.1
        rcases hx.2.2 n p with e | ⟨_, e⟩
        · rw [e] at hz ⊢
          exact Or.inr ⟨hz, rfl⟩
        · rw [e, (replay_not_frozen (s.status n p)).1] at hz
          simp at hz
      · exact hx.2.2 n p)
    fuel (scroll_init s).1 run ⟨hnames, hpc, fun n p => Or.inl (hst n p)⟩ hrun
  obtain ⟨run0, hrun0, _, _, _, _, hno, _⟩ :=
    scroll_loop_terminates (hidden_pairs (scroll_init s).1).length (scroll_init s).1
      ((hidden_pairs (scroll_init s).1).length + 1)
      (RankInv_congr hi (assign_rankings_RankInv _)) rfl (by omega)
  have e0 : run0 = run := by
    have a := scroll_loop_mono _ _ _ hrun0
      (max fuel ((hidden_pairs (scroll_init s).1).length + 1)) (le_max_right _ _)
    have b := scroll_loop_mono _ _ _ hrun
      (max fuel ((hidden_pairs (scroll_init s).1).length + 1)) (le_max_left _ _)
    rw [a] at b
    exact Option.some.inj b
  rw [e0, hnames, hpc] at hno
  have hfin : ∀ n p, s'.status n p = run.state.status n p := by
    intro n p
    rw [hs']
    exact system_sim_status (print_scoreboard_sim run.state) n p
  have hP := print_scoreboard_sim run.state
  refine ⟨by rw [hs']; exact hP.1.trans hJ.1, by rw [hs']; exact hP.2.2.2.2.1.trans hJ.2.1,
    fun n p => ?_⟩
  rw [hfin]
  split
  · next hz =>
    rcases hJ.2.2 n p with e | ⟨_, e⟩
    · have := hno n (hh n p hz).1 p (hh n p hz).2
      rw [e, hz] at this
      simp at this
    · exact e
  · next hz =>
    rcases hJ.2.2 n p with e | ⟨hc, _⟩
    · exact e
    · exact absurd hc hz

theorem Registered_congr {a b : ICPCSystem} (h : ICPCSystem.sim a b) (hb : Registered b) :
    Registered a :=
  ⟨by rw [h.1]; exact hb.1, fun n hn => by
    rw [(h.2.2.2.2.2 n).1]
    exact hb.2 n (h.1 ▸ hn)⟩

/-- The ranks after `assign_rankings` on a state with the registration invariant and
fresh derived fields. -/
theorem assign_rankings_good (y : ICPCSystem) (hr : Registered y) (hf : FreshObs y) :
    Registered (assign_rankings y) ∧ FreshObs (assign_rankings y) ∧
    CountInv (assign_rankings y) ∧ OrderInv (assign_rankings y) := by
  refine ⟨⟨hr.1, fun n hn => ?_⟩, assign_rankings_fresh y hf, assign_rankings_CountInv y hr.1,
    assign_rankings_OrderInv y hr.1 hr.2 hf⟩
  rw [assign_rankings_team]
  exact hr.2 n hn

theorem scroll_final_order (fuel : Nat) (s s' : ICPCSystem) (out : List String)
    (hf : s.is_frozen = true) (h : scroll fuel s = some (s', out)) (hreg : Registered s) :
    Registered s' ∧ FreshObs s' ∧ CountInv s' ∧ OrderInv s' := by
  obtain ⟨run, hrun, hs', _⟩ := scroll_frozen_eq fuel s s' out hf h
  have hcongr : ∀ a b, ICPCSystem.sim a b →
      (Registered b ∧ FreshObs b ∧ CountInv b ∧ OrderInv b) →
      (Registered a ∧ FreshObs a ∧ CountInv a ∧ OrderInv a) :=
    fun a b hab hb => ⟨Registered_congr hab hb.1, FreshObs_congr hab hb.2.1,
      CountInv_congr hab hb.2.2.1, OrderInv_congr hab hb.2.2.2⟩
  have hinit : Registered (update_all_stats s) :=
    ⟨hreg.1, fun n hn => by rw [update_all_stats_name]; exact hreg.2 n hn⟩
  have hG := scroll_loop_invariant
    (fun x => Registered x ∧ FreshObs x ∧ CountInv x ∧ OrderInv x) hcongr
    (fun x tgt hx _ => by
      have hsim := scroll_select_sim x
      have hx' := hcongr _ _ hsim hx
      have hrt : Registered (reveal_target (scroll_select x).1 tgt) := by
        refine ⟨hx'.1.1, fun n hn => ?_⟩
        have e : ((reveal_target (scroll_select x).1 tgt).team n).name
            = ((scroll_select x).1.team n).name := by
          rw [reveal_target_team]
          split
          · exact (reveal_team_fields _ _).1
          · rfl
        rw [e]
        exact hx'.1.2 n hn
      exact hcongr _ _ (scroll_reveal_sim _ _)
        (assign_rankings_good _ hrt (reveal_target_fresh _ _ hx'.2.1)))
    fuel (scroll_init s).1 run
    (hcongr _ _ (scroll_init_sim s) (assign_rankings_good _ hinit (update_all_stats_fresh s)))
    hrun
  have hsim : ICPCSystem.sim (print_scoreboard run.state).1 run.state := print_scoreboard_sim _
  have hfinal := hcongr _ _ hsim hG
  rw [hs']
  refine ⟨⟨hfinal.1.1, fun n hn => hfinal.1.2 n hn⟩, fun n => hfinal.2.1 n,
    fun b hb => hfinal.2.2.1 b hb, fun a ha b hb => hfinal.2.2.2 a ha b hb⟩

theorem rank_unique (names : List String) (r r1 : String → Int)
    (hc : ∀ b ∈ names, r b = (names.countP (fun c => decide (r c < r b)) : Int) + 1)
    (hc1 : ∀ b ∈ names, r1 b = (names.countP (fun c => decide (r1 c < r1 b)) : Int) + 1)
    (ho : ∀ a ∈ names, ∀ b ∈ names, (r a < r b ↔ r1 a < r1 b)) :
    ∀ b ∈ names, r b = r1 b := by
  intro b hb
  rw [hc b hb, hc1 b hb]
  have : names.countP (fun c => decide (r c < r b))
      = names.countP (fun c => decide (r1 c < r1 b)) := by
    apply List.countP_congr
    intro c hcm
    simp only [decide_eq_true_eq]
    exact ho c hcm b hb
  rw [this]

/-- Two states with the same registered names whose registered teams agree on name,
solved count, penalty time and solve times, and whose ranks follow `operator<`, give
every registered team the same rank. -/
theorem ranks_agree (a b : ICPCSystem) (hn : a.team_names = b.team_names)
    (hca : CountInv a) (hcb : CountInv b) (hoa : OrderInv a) (hob : OrderInv b)
    (hfields : ∀ n ∈ a.team_names,
      (a.team n).name = (b.team n).name ∧ (a.team n).solved_count = (b.team n).solved_count ∧
      (a.team n).penalty_time = (b.team n).penalty_time ∧
      (a.team n).solve_times = (b.team n).solve_times) :
    ∀ n ∈ a.team_names, (a.team n).ranking = (b.team n).ranking := by
  apply rank_unique a.team_names (fun n => (a.team n).ranking) (fun n => (b.team n).ranking) hca
  · intro x hx
    have := hcb x (hn ▸ hx)
    rw [← hn] at this
    exact this
  · intro x hx y hy
    rw [hoa x hx y hy, hob x (hn ▸ hx) y (hn ▸ hy),
      team_lt_fields _ _ _ _ (hfields x hx) (hfields y hy)]

/-- The end of the two runs: `scroll` on the frozen state against `flush` on the
state without the freeze. -/
theorem FreezeSim_final (fuel : Nat) (f u sf : ICPCSystem) (out : List String)
    (h : FreezeSim f u) (hrf : Registered f) (hru : Registered u)
    (hs : scroll fuel f = some (sf, out)) :
    sf.team_names = (flush u).1.team_names ∧
    (∀ n p, same_result (sf.status n p) ((flush u).1.status n p)) ∧
    (∀ n ∈ sf.team_names,
      (sf.team n).solved_count = ((flush u).1.team n).solved_count ∧
      (sf.team n).penalty_time = ((flush u).1.team n).penalty_time ∧
      (sf.team n).ranking = ((flush u).1.team n).ranking) := by
  have hst := scroll_final_status fuel f sf out h.frozen hs h.hidden
  have hord := scroll_final_order fuel f sf out h.frozen hs hrf
  have hregu : Registered (update_all_stats u) :=
    ⟨hru.1, fun n hn => by rw [update_all_stats_name]; exact hru.2 n hn⟩
  have hgu := assign_rankings_good _ hregu (update_all_stats_fresh u)
  have hnames : sf.team_names = (flush u).1.team_names := hst.1.trans h.names
  have hpc : sf.problem_count = (flush u).1.problem_count := hst.2.1.trans h.count
  have hres : ∀ n p, same_result (sf.status n p) ((flush u).1.status n p) ∧
      (sf.status n p).is_frozen = false ∧ ((flush u).1.status n p).is_frozen = false := by
    intro n p
    rw [flush_status, hst.2.2 n p]
    obtain ⟨h1, h2, h3, _⟩ := h.status n p
    split
    · exact ⟨same_result_symm h1, rfl, h2⟩
    · next hz =>
      have hz' : (f.status n p).is_frozen = false := by simpa using hz
      have hq := h3 hz'
      rw [hq] at h1
      exact ⟨same_result_symm h1, hz', h2⟩
  have hderived : ∀ n,
      (sf.team n).solved_count = ((flush u).1.team n).solved_count ∧
      (sf.team n).penalty_time = ((flush u).1.team n).penalty_time ∧
      (sf.team n).solve_times = ((flush u).1.team n).solve_times := by
    intro n
    have hc := calculate_stats_congr (sf.team n) ((flush u).1.team n) sf.problem_count
      (fun p => by
        have := hres n p
        simp only [ICPCSystem.status] at this
        simp only [scores, this.1.1, this.2.1, this.2.2])
      (fun p _ => by
        have := hres n p
        simp only [ICPCSystem.status] at this
        exact ⟨this.1.2.2, this.1.2.1⟩)
    have h1 := hord.2.1 n
    have h2 := hgu.2.1 n
    unfold Team.fresh at h1 h2
    have e : (assign_rankings (update_all_stats u)) = (flush u).1 := rfl
    rw [e, ← hpc] at h2
    exact ⟨h1.1.trans (hc.1.trans h2.1.symm), h1.2.1.trans (hc.2.1.trans h2.2.1.symm),
      h1.2.2.trans (hc.2.2.trans h2.2.2.symm)⟩
  have hrank := ranks_agree sf (flush u).1 hnames hord.2.2.1 hgu.2.2.1 hord.2.2.2 hgu.2.2.2
    (fun n hn => ⟨(hord.1.2 n hn).trans (hgu.1.2 n (hnames ▸ hn)).symm, hderived n⟩)
  exact ⟨hnames, fun n p => (hres n p).1,
    fun n hn => ⟨(hderived n).1, (hderived n).2.1, hrank n hn⟩⟩

theorem run_single (fuel : Nat) (s s' : ICPCSystem) (c : Command) (out : List String)
    (hc : c ≠ Command.END) (h : run fuel s [c] = some (s', out)) :
    ∃ o, exec fuel s c = some (s', o) := by
  obtain ⟨s1, o1, o2, he, hrun, _⟩ := run_cons fuel s s' c [] out hc h
  simp only [run, Option.some.injEq, Prod.mk.injEq] at hrun
  rw [hrun.1] at he
  exact ⟨o1, he⟩

/-- C20: take any commands `pre` and `mid` made of registrations, `START`s with at most
26 problems, `FLUSH`es and submissions by teams registered at that moment on problem
letters active at that moment. The program run on `pre`, `FREEZE`, `mid`, `SCROLL` and
the program run on `pre`, `mid`, `FLUSH` both return (with enough fuel for the scroll),
and in the states they return the registered names are the same, every problem of
every team has the same `solved`, `wrong_attempts` and `solve_time`, and every
registered team has the same `solved_count`, `penalty_time` and `ranking`. -/
theorem freeze_transparent (pre mid : List Command)
    (h : admissible {} (pre ++ mid) = true) :
    (∃ fuel rf ru,
      run fuel {} (pre ++ [Command.FREEZE] ++ mid ++ [Command.SCROLL]) = some rf ∧
      run fuel {} (pre ++ mid ++ [Command.FLUSH]) = some ru) ∧
    ∀ (fuel fuel' : Nat) (sf su : ICPCSystem) (outf outu : List String),
      run fuel {} (pre ++ [Command.FREEZE] ++ mid ++ [Command.SCROLL]) = some (sf, outf) →
      run fuel' {} (pre ++ mid ++ [Command.FLUSH]) = some (su, outu) →
      sf.team_names = su.team_names ∧
      (∀ n p, (sf.status n p).solved = (su.status n p).solved ∧
        (sf.status n p).wrong_attempts = (su.status n p).wrong_attempts ∧
        (sf.status n p).solve_time = (su.status n p).solve_time) ∧
      (∀ n ∈ su.team_names,
        (sf.team n).solved_count = (su.team n).solved_count ∧
        (sf.team n).penalty_time = (su.team n).penalty_time ∧
        (sf.team n).ranking = (su.team n).ranking) := by
  constructor
  · obtain ⟨f1, r1, h1⟩ :=
      run_total (pre ++ [Command.FREEZE] ++ mid ++ [Command.SCROLL]) {}
    obtain ⟨f2, r2, h2⟩ := run_total (pre ++ mid ++ [Command.FLUSH]) {}
    exact ⟨max f1 f2, r1, r2, run_mono f1 _ (le_max_left _ _) _ _ _ h1,
      run_mono f2 _ (le_max_right _ _) _ _ _ h2⟩
  · intro fuel fuel' sf su outf outu hf hu
    obtain ⟨ha1, ha2⟩ := admissible_append pre {} mid h
    have hp1 := admissible_plain pre {} ha1
    have hp2 := admissible_plain mid _ ha2
    have hpre := PreInv_apply pre {} PreInv_init ha1
    have hsim := FreezeSim_apply mid _ _ (FreezeSim_freeze _ hpre) ha2
    have hr1 : Reachable (apply_cmds {} pre) := apply_cmds_reachable pre {} Reachable.init
    have hrf := (reachable_registered _
      (apply_cmds_reachable mid _ (Reachable.freeze hr1))).1
    have hru := (reachable_registered _ (apply_cmds_reachable mid _ hr1)).1
    -- the frozen run
    have ef : pre ++ [Command.FREEZE] ++ mid ++ [Command.SCROLL]
        = pre ++ (Command.FREEZE :: (mid ++ [Command.SCROLL])) := by simp
    rw [ef] at hf
    obtain ⟨o1, hf1⟩ := run_apply fuel pre {} sf _ outf hp1 hf
    obtain ⟨x, o2, o3, hex, hf2, _⟩ := run_cons fuel _ sf Command.FREEZE _ o1 (by simp) hf1
    have hx : x = (freeze (apply_cmds {} pre)).1 := by
      simp only [exec, Option.some.injEq] at hex
      exact (congrArg Prod.fst hex).symm
    rw [hx] at hf2
    obtain ⟨o4, hf3⟩ := run_apply fuel mid _ sf _ o3 hp2 hf2
    obtain ⟨o5, hscroll⟩ := run_single fuel _ sf Command.SCROLL o4 (by simp) hf3
    -- the run without the freeze
    have eu : pre ++ mid ++ [Command.FLUSH] = pre ++ (mid ++ [Command.FLUSH]) := by simp
    rw [eu] at hu
    obtain ⟨p1, hu1⟩ := run_apply fuel' pre {} su _ outu hp1 hu
    obtain ⟨p2, hu2⟩ := run_apply fuel' mid _ su _ p1 hp2 hu1
    obtain ⟨p3, hflush⟩ := run_single fuel' _ su Command.FLUSH p2 (by simp) hu2
    have hsu : su = (flush (apply_cmds (apply_cmds {} pre) mid)).1 := by
      simp only [exec, Option.some.injEq] at hflush
      exact (congrArg Prod.fst hflush).symm
    have hfin := FreezeSim_final fuel _ _ sf o5 hsim hrf hru hscroll
    rw [← hsu] at hfin
    refine ⟨hfin.1, fun n p => hfin.2.1 n p, fun n hn => hfin.2.2 n (hfin.1 ▸ hn)⟩

theorem freeze_transparent_witness :
    admissible {}
      ([Command.ADDTEAM "A", Command.ADDTEAM "B", Command.START 180 2,
        Command.SUBMIT "A" "A" "Accepted" 10, Command.FLUSH]
        ++ [Command.SUBMIT "A" "B" "Wrong_Answer" 20, Command.SUBMIT "B" "B" "Accepted" 30,
            Command.SUBMIT "A" "B" "Accepted" 40]) = true ∧
    ∃ fuel rf ru,
      run fuel {}
        ([Command.ADDTEAM "A", Command.ADDTEAM "B", Command.START 180 2,
          Command.SUBMIT "A" "A" "Accepted" 10, Command.FLUSH]
          ++ [Command.FREEZE]
          ++ [Command.SUBMIT "A" "B" "Wrong_Answer" 20, Command.SUBMIT "B" "B" "Accepted" 30,
              Command.SUBMIT "A" "B" "Accepted" 40]
          ++ [Command.SCROLL]) = some rf ∧
      run fuel {}
        ([Command.ADDTEAM "A", Command.ADDTEAM "B", Command.START 180 2,
          Command.SUBMIT "A" "A" "Accepted" 10, Command.FLUSH]
          ++ [Command.SUBMIT "A" "B" "Wrong_Answer" 20, Command.SUBMIT "B" "B" "Accepted" 30,
              Command.SUBMIT "A" "B" "Accepted" 40]
          ++ [Command.FLUSH]) = some ru :=
  ⟨by decide,
   (freeze_transparent
      [Command.ADDTEAM "A", Command.ADDTEAM "B", Command.START 180 2,
        Command.SUBMIT "A" "A" "Accepted" 10, Command.FLUSH]
      [Command.SUBMIT "A" "B" "Wrong_Answer" 20, Command.SUBMIT "B" "B" "Accepted" 30,
        Command.SUBMIT "A" "B" "Accepted" 40] (by decide)).1⟩

end ICPC
